import Mathlib

/-!
MIR phi insertion and phi fixup (`src/mir/passes/insert_phis.cpp`).

A shallow embedding of the two SSA passes `insert_phis` and `fixup_phis`.

* A `uint32_t` is a natural number; the only arithmetic on versions is the
  pre-increment `++values[name]`, embedded as `(v + 1) % 2 ^ 32`.
* A `std::list<Object>` is a `List Object`.
* `block->parents` is a set of block pointers that the passes only iterate,
  reading `p->instructions`; it is embedded as the list of the parents'
  instruction lists in iteration order.
* `std::set<std::string>` is a strictly sorted list of strings.

Further sections embed the version comparison exercised by `meson_tests.cpp`,
the passes exercised by `machine_lower_test.cpp` and `const_folding_test.cpp`,
the order on `Variable`, and the argument conversions of the GNU-like compilers
(`toolchains/compilers/cpp/gnulike.cpp`).
-/

namespace MIR

/-- Width bound of `uint32_t`. -/
def U32 : Nat := 2 ^ 32

/-- Modelled from the spec: the class `Variable` (declared in `mir.hpp`, which is
not among the sources): "A pair `(name: string, version: u32)`. Version 0
denotes an undefined/placeholder slot". -/
structure Variable where
  name : String
  version : Nat
deriving DecidableEq, Repr

/-- Modelled from the spec: `Variable::operator bool` (defined in `mir.cpp`,
which is not among the sources). A variable is set when its name is non-empty
("If `name` is non-empty, set `instruction.result.version`"). -/
def Variable.toBool (v : Variable) : Bool := decide (v.name ≠ "")

/-- Modelled from the spec: the class `Phi` (declared in `mir.hpp`, which is not
among the sources): "Carries `(left_version, right_version)` over a shared
variable name", and owns the `Variable` of its result. -/
structure Phi where
  left : Nat
  right : Nat
  var : Variable
deriving DecidableEq, Repr

/-- Modelled from the spec: the variant `Object` (declared in `mir.hpp`, which is
not among the sources): "A tagged sum with variants: `Number(i64)`,
`String(utf8)`, `Boolean`, `Identifier{target_name, target_version}`,
`Array`, `Dict`, `FunctionCall{name, positional[], keyword{}}`,
`Phi`. Each instance owns a `Variable` describing its
result." Field names follow the tests (`value`, `version`, `pos_args`, `var`). -/
inductive Object where
  | number (value : Int) (var : Variable)
  | string (value : String) (var : Variable)
  | boolean (value : Bool) (var : Variable)
  | identifier (value : String) (version : Nat) (var : Variable)
  | array (value : List Object) (var : Variable)
  | dict (value : List (String × Object)) (var : Variable)
  | functionCall (name : String) (pos_args : List Object)
      (kw_args : List (String × Object)) (var : Variable)
  | phi (p : Phi)

mutual
/-- Decision procedure for equality of objects. -/
def Object.decEq : (a b : Object) → Decidable (a = b)
  | .number v1 x1, .number v2 x2 =>
    if h : v1 = v2 ∧ x1 = x2 then isTrue (by rw [h.1, h.2])
    else isFalse (by intro e; cases e; exact h ⟨rfl, rfl⟩)
  | .string v1 x1, .string v2 x2 =>
    if h : v1 = v2 ∧ x1 = x2 then isTrue (by rw [h.1, h.2])
    else isFalse (by intro e; cases e; exact h ⟨rfl, rfl⟩)
  | .boolean v1 x1, .boolean v2 x2 =>
    if h : v1 = v2 ∧ x1 = x2 then isTrue (by rw [h.1, h.2])
    else isFalse (by intro e; cases e; exact h ⟨rfl, rfl⟩)
  | .identifier v1 n1 x1, .identifier v2 n2 x2 =>
    if h : v1 = v2 ∧ n1 = n2 ∧ x1 = x2 then isTrue (by rw [h.1, h.2.1, h.2.2])
    else isFalse (by intro e; cases e; exact h ⟨rfl, rfl, rfl⟩)
  | .phi p1, .phi p2 =>
    if h : p1 = p2 then isTrue (by rw [h])
    else isFalse (by intro e; cases e; exact h rfl)
  | .array v1 x1, .array v2 x2 =>
    match Object.decEqList v1 v2 with
    | isTrue h1 =>
      if h : x1 = x2 then isTrue (by rw [h1, h])
      else isFalse (by intro e; cases e; exact h rfl)
    | isFalse h1 => isFalse (by intro e; cases e; exact h1 rfl)
  | .dict v1 x1, .dict v2 x2 =>
    match Object.decEqDict v1 v2 with
    | isTrue h1 =>
      if h : x1 = x2 then isTrue (by rw [h1, h])
      else isFalse (by intro e; cases e; exact h rfl)
    | isFalse h1 => isFalse (by intro e; cases e; exact h1 rfl)
  | .functionCall f1 a1 k1 x1, .functionCall f2 a2 k2 x2 =>
    match Object.decEqList a1 a2, Object.decEqDict k1 k2 with
    | isTrue h1, isTrue h2 =>
      if h : f1 = f2 ∧ x1 = x2 then isTrue (by rw [h1, h2, h.1, h.2])
      else isFalse (by intro e; cases e; exact h ⟨rfl, rfl⟩)
    | isFalse h1, _ => isFalse (by intro e; cases e; exact h1 rfl)
    | _, isFalse h2 => isFalse (by intro e; cases e; exact h2 rfl)
  | .number .., .string .. | .number .., .boolean .. | .number .., .identifier ..
  | .number .., .array .. | .number .., .dict .. | .number .., .functionCall ..
  | .number .., .phi .. | .string .., .number .. | .string .., .boolean ..
  | .string .., .identifier .. | .string .., .array .. | .string .., .dict ..
  | .string .., .functionCall .. | .string .., .phi .. | .boolean .., .number ..
  | .boolean .., .string .. | .boolean .., .identifier .. | .boolean .., .array ..
  | .boolean .., .dict .. | .boolean .., .functionCall .. | .boolean .., .phi ..
  | .identifier .., .number .. | .identifier .., .string .. | .identifier .., .boolean ..
  | .identifier .., .array .. | .identifier .., .dict .. | .identifier .., .functionCall ..
  | .identifier .., .phi .. | .array .., .number .. | .array .., .string ..
  | .array .., .boolean .. | .array .., .identifier .. | .array .., .dict ..
  | .array .., .functionCall .. | .array .., .phi .. | .dict .., .number ..
  | .dict .., .string .. | .dict .., .boolean .. | .dict .., .identifier ..
  | .dict .., .array .. | .dict .., .functionCall .. | .dict .., .phi ..
  | .functionCall .., .number .. | .functionCall .., .string .. | .functionCall .., .boolean ..
  | .functionCall .., .identifier .. | .functionCall .., .array .. | .functionCall .., .dict ..
  | .functionCall .., .phi .. | .phi .., .number .. | .phi .., .string ..
  | .phi .., .boolean .. | .phi .., .identifier .. | .phi .., .array ..
  | .phi .., .dict .. | .phi .., .functionCall .. =>
    isFalse (by intro e; cases e)
/-- Decision procedure for equality of lists of objects. -/
def Object.decEqList : (a b : List Object) → Decidable (a = b)
  | [], [] => isTrue rfl
  | [], _ :: _ => isFalse (by intro e; cases e)
  | _ :: _, [] => isFalse (by intro e; cases e)
  | a :: as, b :: bs =>
    match Object.decEq a b, Object.decEqList as bs with
    | isTrue h1, isTrue h2 => isTrue (by rw [h1, h2])
    | isFalse h1, _ => isFalse (by intro e; cases e; exact h1 rfl)
    | _, isFalse h2 => isFalse (by intro e; cases e; exact h2 rfl)
/-- Decision procedure for equality of keyword maps of objects. -/
def Object.decEqDict : (a b : List (String × Object)) → Decidable (a = b)
  | [], [] => isTrue rfl
  | [], _ :: _ => isFalse (by intro e; cases e)
  | _ :: _, [] => isFalse (by intro e; cases e)
  | (k1, a) :: as, (k2, b) :: bs =>
    match Object.decEq a b, Object.decEqDict as bs with
    | isTrue h1, isTrue h2 =>
      if h : k1 = k2 then isTrue (by rw [h1, h2, h])
      else isFalse (by intro e; cases e; exact h rfl)
    | isFalse h1, _ => isFalse (by intro e; cases e; exact h1 rfl)
    | _, isFalse h2 => isFalse (by intro e; cases e; exact h2 rfl)
end

instance : DecidableEq Object := Object.decEq

/-- The generic lambda `[](const auto & obj) { return obj->var; }` applied by
`std::visit` (`get_variable`, insert_phis.cpp line 15). -/
def Object.var : Object → Variable
  | .number _ v => v
  | .string _ v => v
  | .boolean _ v => v
  | .identifier _ _ v => v
  | .array _ v => v
  | .dict _ v => v
  | .functionCall _ _ _ v => v
  | .phi p => p.var

/-- The test `std::holds_alternative<std::unique_ptr<Phi>>(obj)`. -/
def Object.isPhi : Object → Bool
  | .phi _ => true
  | _ => false

/-- The part of a `BasicBlock` the two passes touch: its instruction list and,
for every parent in iteration order, that parent's instruction list. -/
structure BasicBlock where
  instructions : List Object
  parents : List (List Object)
deriving DecidableEq

/-- The `ValueTable`, a `std::unordered_map<std::string, uint32_t>`, as an
association list with at most one entry per key in use. -/
abbrev ValueTable := List (String × Nat)

/-- Read of `values[name]`; an absent key reads as the value-initialised 0. -/
def ValueTable.get : ValueTable → String → Nat
  | [], _ => 0
  | (k, v) :: t, n => if k = n then v else ValueTable.get t n

/-- The statement `++values[name]` on a `uint32_t` entry: an absent key is first
created with value 0. -/
def ValueTable.incr : ValueTable → String → ValueTable
  | [], n => [(n, (0 + 1) % U32)]
  | (k, v) :: t, n => if k = n then (k, (v + 1) % U32) :: t else (k, v) :: ValueTable.incr t n

/-- Lexicographic comparison of character sequences by code point, the order
`std::string::operator<` induces on UTF-8 text (byte-wise comparison of UTF-8
agrees with code-point comparison). -/
def ltChars : List Char → List Char → Bool
  | _, [] => false
  | [], _ :: _ => true
  | x :: xs, y :: ys =>
    if x.toNat < y.toNat then true
    else if y.toNat < x.toNat then false
    else ltChars xs ys

/-- The order `std::less<std::string>` used by `std::set<std::string>`. -/
def strLt (a b : String) : Bool := ltChars a.data b.data

/-- The method `std::set<std::string>::emplace`: the set is kept as a strictly
increasing list, and an element equivalent to one already present is dropped. -/
def setInsert (x : String) : List String → List String
  | [] => [x]
  | y :: ys =>
    if strLt x y then x :: y :: ys
    else if strLt y x then y :: setInsert x ys
    else y :: ys

/-- The method `std::set<std::string>::count`: whether an element equivalent
under the order is present. -/
def setCount (s : List String) (x : String) : Bool :=
  s.any (fun y => !strLt x y && !strLt y x)

/-- Modelled from the spec: `Phi::operator<` (defined in `mir.cpp`, which is not
among the sources): "a phi compares less than another by variable then by
`(left, right)` lex order", the variable entering by its name only ("compared by
variable name and `(left, right)` version pair"). -/
def Phi.lt (a b : Phi) : Bool :=
  strLt a.var.name b.var.name ||
    (a.var.name == b.var.name &&
      (decide (a.left < b.left) || (a.left == b.left && decide (a.right < b.right))))

/-- The loop of lines 55-60: the phis already in the block. They are the
elements offered to the `std::set<Phi *, PhiComparator>`, which keeps one
representative of every class of equivalent phis. -/
def existing_phis : List Object → List Phi
  | [] => []
  | .phi p :: rest => p :: existing_phis rest
  | _ :: rest => existing_phis rest

/-- The call `existing_phis.count(phi.get())` of a set ordered by
`PhiComparator`: whether a phi equivalent to `p` (neither less than the other)
was offered to the set. -/
def phiCount (existing : List Phi) (p : Phi) : Bool :=
  existing.any (fun e => !Phi.lt e p && !Phi.lt p e)

/-- The inner loop of lines 67-74 over one parent's instructions, on the pair
`(all_vars, dominated)`. -/
def scanVarsInstrs : List Object → List String × List String → List String × List String
  | [], s => s
  | i :: rest, (all_vars, dominated) =>
    if i.var.toBool then
      scanVarsInstrs rest
        (setInsert i.var.name all_vars,
          if setCount all_vars i.var.name then setInsert i.var.name dominated else dominated)
    else scanVarsInstrs rest (all_vars, dominated)

/-- The outer loop of lines 66-75 over the parents. -/
def scanVarsParents : List (List Object) → List String × List String → List String × List String
  | [], s => s
  | p :: ps, s => scanVarsParents ps (scanVarsInstrs p s)

/-- The loop of lines 83-98 up to its `break`: walking a parent's instructions
in reverse, the variable of the first instruction whose variable is set. -/
def lastNamed (instrs : List Object) : Option Variable :=
  (instrs.reverse.find? (fun i => i.var.toBool)).map Object.var

/-- The variables the loop of lines 80-100 updates: `last`, the value table, and
the pending list `phis`. -/
structure PhiState where
  last : Nat
  values : ValueTable
  phis : List Object

/-- One iteration of the loop over the parents (lines 82-99) for `name`. -/
def phiStep (existing : List Phi) (name : String) (st : PhiState) (p : List Object) : PhiState :=
  match lastNamed p with
  | none => st
  | some var =>
    if st.last ≠ 0 then
      if !phiCount existing ⟨st.last, var.version, ⟨name, 0⟩⟩ then
        let values := st.values.incr name
        let version := values.get name
        ⟨version, values, st.phis ++ [.phi ⟨st.last, var.version, ⟨name, version⟩⟩]⟩
      else st
    else ⟨var.version, st.values, st.phis⟩

/-- The body of the loop over `dominated` (lines 81-99) for one name: `last`
starts at 0 and the parents are walked in order. -/
def phisForName (existing : List Phi) (parents : List (List Object))
    (acc : ValueTable × List Object) (name : String) : ValueTable × List Object :=
  let st := parents.foldl (phiStep existing name) ⟨0, acc.1, acc.2⟩
  (st.values, st.phis)

/-- Lines 52-100: the value table and the pending list `phis` after the loop
over the dominated names, in the sorted order of `std::set<std::string>`. -/
def compute_phis (block : BasicBlock) (values : ValueTable) : ValueTable × List Object :=
  (scanVarsParents block.parents ([], [])).2.foldl
    (phisForName (existing_phis block.instructions) block.parents) (values, [])

/-- The helper `is_strictly_dominated` (lines 11-12): does this block have only
one parent? -/
def is_strictly_dominated (block : BasicBlock) : Bool := block.parents.length == 1

/-- The pass `insert_phis` (lines 32-108). The result is the returned flag, the
block and the value table as the call leaves them. -/
def insert_phis (block : BasicBlock) (values : ValueTable) : Bool × BasicBlock × ValueTable :=
  if block.parents.isEmpty || is_strictly_dominated block then (false, block, values)
  else
    let r := compute_phis block values
    if r.2.isEmpty then (false, block, r.1)
    else (true, { block with instructions := r.2 ++ block.instructions }, r.1)

/-- The loop of lines 118-129 over one parent's instructions, on the flags
`(left, right)`: the first instruction named like the phi whose version is one
of the operands sets the flag of that operand and ends the loop. -/
def scanInstrs (name : String) (l r : Nat) : List Object → Bool × Bool → Bool × Bool
  | [], f => f
  | i :: rest, f =>
    if i.var.name = name then
      if i.var.version = l then (true, f.2)
      else if i.var.version = r then (f.1, true)
      else scanInstrs name l r rest f
    else scanInstrs name l r rest f

/-- The loop of lines 117-133 over the parents, left as soon as both flags are
set. -/
def scanParents (name : String) (l r : Nat) : List (List Object) → Bool × Bool → Bool × Bool
  | [], f => f
  | p :: ps, f =>
    let g := scanInstrs name l r p f
    if g.1 && g.2 then g else scanParents name l r ps g

/-- The loop of lines 148-154 over the instructions before the phi in its own
block: every instruction named like the phi overwrites both flags. -/
def scanBlock (name : String) (l r : Nat) : List Object → Bool × Bool → Bool × Bool
  | [], f => f
  | i :: rest, f =>
    if i.var.name = name then
      scanBlock name l r rest (decide (i.var.version = l), decide (i.var.version = r))
    else scanBlock name l r rest f

/-- The `Identifier` built at lines 137-138 and 158-159 from the phi and the
flag `left`. -/
def phiToIdentifier (p : Phi) (left : Bool) : Object :=
  .identifier p.var.name (if left then p.left else p.right) p.var

/-- The loop of lines 112-164. `done` holds the instructions before the
iterator, as the loop has left them, `progress` the flag so far; the result
is the final flag and instruction list. -/
def fixupLoop (parents : List (List Object)) :
    List Object → List Object → Bool → Bool × List Object
  | done, [], progress => (progress, done)
  | done, .phi p :: rest, progress =>
    let f := scanParents p.var.name p.left p.right parents (false, false)
    if xor f.1 f.2 then
      fixupLoop parents (done ++ [phiToIdentifier p f.1]) rest true
    else
      let g := scanBlock p.var.name p.left p.right done f
      if xor g.1 g.2 then
        fixupLoop parents (done ++ [phiToIdentifier p g.1]) rest true
      else fixupLoop parents (done ++ [.phi p]) rest progress
  | done, i :: rest, progress => fixupLoop parents (done ++ [i]) rest progress

/-- The pass `fixup_phis` (lines 110-166): the returned flag and the block as
the call leaves it. -/
def fixup_phis (block : BasicBlock) : Bool × BasicBlock :=
  let r := fixupLoop block.parents [] block.instructions false
  (r.1, { block with instructions := r.2 })

/-! ## Vocabulary of the properties -/

/-- An instruction list holds an instruction whose result variable is
`(name, version)`. -/
def definesIn (instrs : List Object) (name : String) (version : Nat) : Prop :=
  ∃ i ∈ instrs, i.var.name = name ∧ i.var.version = version

instance (instrs : List Object) (name : String) (version : Nat) :
    Decidable (definesIn instrs name version) := by
  unfold definesIn; infer_instance

/-- Some parent holds an instruction whose result variable is `(name, version)`. -/
def definedInParents (parents : List (List Object)) (name : String) (version : Nat) : Prop :=
  ∃ p ∈ parents, definesIn p name version

instance (parents : List (List Object)) (name : String) (version : Nat) :
    Decidable (definedInParents parents name version) := by
  unfold definedInParents; infer_instance

/-- The nearest instruction named `name` before the end of `before`: the last
one in list order, if any. -/
def nearestBefore (name : String) : List Object → Option Object
  | [] => none
  | i :: rest =>
    match nearestBefore name rest with
    | some q => some q
    | none => if i.var.name = name then some i else none

/-- Walking one parent in order, the first instruction named `name` whose
version is `l` or `r`: `some true` when that version is `l`, `some false` when
it is `r` (and not `l`), `none` when the parent has no such instruction. -/
def firstOperand (name : String) (l r : Nat) : List Object → Option Bool
  | [] => none
  | i :: rest =>
    if i.var.name = name then
      if i.var.version = l then some true
      else if i.var.version = r then some false
      else firstOperand name l r rest
    else firstOperand name l r rest

/-- What `fixup_phis` leaves at the place of one instruction, given the
instructions that stand before it in the block. -/
def fixOne (parents : List (List Object)) (before : List Object) : Object → Object
  | .phi p =>
    let f := scanParents p.var.name p.left p.right parents (false, false)
    if xor f.1 f.2 then phiToIdentifier p f.1
    else
      let g := scanBlock p.var.name p.left p.right before f
      if xor g.1 g.2 then phiToIdentifier p g.1 else .phi p
  | i => i

/-- The instruction list `fixOne` produces place by place, `before` being the
instructions that stand before `rest`. -/
def fixList (parents : List (List Object)) : List Object → List Object → List Object
  | _, [] => []
  | before, i :: rest => fixOne parents before i :: fixList parents (before ++ [i]) rest

/-- The instructions of a list whose result name is `n`. -/
def phisNamed (n : String) (l : List Object) : List Object :=
  l.filter (fun o => decide (o.var.name = n))

/-- The pending list `phis` that line 106 splices at the head of the block: empty
when the guard of line 36 returns early. -/
def inserted_phis (block : BasicBlock) (values : ValueTable) : List Object :=
  if block.parents.isEmpty || is_strictly_dominated block then []
  else (compute_phis block values).2

/-- The value of a `uint32_t` counter that starts at `c` after `k` increments. -/
def bump (c : Nat) : Nat → Nat
  | 0 => c
  | k + 1 => (bump c k + 1) % U32

/-- The operands `(last, var.version)` of the candidate phi that the loop of
lines 82-99 builds at a block with the two parents `p1` and `p2`, if it builds
one: the first parent must set `last` to a non-zero version and the second
parent must hold a named instruction. -/
def candidate2 (p1 p2 : List Object) : Option (Nat × Nat) :=
  match lastNamed p1, lastNamed p2 with
  | some v1, some v2 => if v1.version ≠ 0 then some (v1.version, v2.version) else none
  | _, _ => none

/-- The result versions, in instruction order, of the instructions of a list
whose result name is `n`. -/
def versionsOf (n : String) (l : List Object) : List Nat :=
  (phisNamed n l).map (fun o => o.var.version)

/-- The state of a block and of the value table after one call of
`insert_phis`. -/
def sweep (s : BasicBlock × ValueTable) : BasicBlock × ValueTable :=
  ((insert_phis s.1 s.2).2.1, (insert_phis s.1 s.2).2.2)

/-- The state after `j` consecutive calls of `insert_phis`. -/
def sweeps : Nat → BasicBlock × ValueTable → BasicBlock × ValueTable
  | 0, s => s
  | j + 1, s => sweeps j (sweep s)

/-- The body of `phiStep` once the parent's last named instruction is known to
carry the version `w`. -/
def verStep (existing : List Phi) (name : String) (st : PhiState) (w : Nat) : PhiState :=
  if st.last ≠ 0 then
    if !phiCount existing ⟨st.last, w, ⟨name, 0⟩⟩ then
      ⟨(st.values.incr name).get name, st.values.incr name,
        st.phis ++ [.phi ⟨st.last, w, ⟨name, (st.values.incr name).get name⟩⟩]⟩
    else st
  else ⟨w, st.values, st.phis⟩

/-- The versions of the last named instruction of the parents that hold one, in
parent order. -/
def parentVersions (parents : List (List Object)) : List Nat :=
  (parents.filterMap lastNamed).map (fun v => v.version)

/-- The first non-zero version of a list, which the loop over the parents takes
as the initial `last`, and the versions after it. -/
def leading : List Nat → Option (Nat × List Nat)
  | [] => none
  | w :: rest => if w = 0 then leading rest else some (w, rest)

/-- The number of parent versions `w` after the leading one `h` for which the
block holds no phi `(h, w)` named `n`. -/
def missingCount (block : BasicBlock) (n : String) : Nat :=
  match leading (parentVersions block.parents) with
  | none => 0
  | some c =>
    (c.2.filter
      (fun w => !phiCount (existing_phis block.instructions) ⟨c.1, w, ⟨n, 0⟩⟩)).length

/-! ## Version comparison (`version.hpp`, exercised by `meson_tests.cpp`) -/

namespace Version

/-- Modelled from the spec: the enumeration `Version::Operator` (declared in
`version.hpp`, which is not among the sources): "`op ∈ {EQ, NE, LT, LE, GT,
GE}`". -/
inductive Operator where
  | EQ
  | NE
  | LT
  | LE
  | GT
  | GE
deriving DecidableEq, Repr

/-- Modelled from the spec: the tokens of the tokenization policy (the tokenizer
is in `version.cpp`, which is not among the sources): "A token is a maximal run
of either digits or letters (never mixed)", and "`~` introduces a pre-release
token". -/
inductive Token where
  | digits (s : List Char)
  | letters (s : List Char)
  | tilde
deriving DecidableEq, Repr

/-- The C-locale class `isdigit`. -/
def isDigit (c : Char) : Bool := decide (48 ≤ c.toNat ∧ c.toNat ≤ 57)

/-- The C-locale class `isupper`. -/
def isUpper (c : Char) : Bool := decide (65 ≤ c.toNat ∧ c.toNat ≤ 90)

/-- The C-locale class `islower`. -/
def isLower (c : Char) : Bool := decide (97 ≤ c.toNat ∧ c.toNat ≤ 122)

/-- The C-locale class `isalpha`. -/
def isLetter (c : Char) : Bool := isUpper c || isLower c

/-- The token under construction, if any, as a list of finished tokens. -/
def flush : Option Token → List Token
  | none => []
  | some t => [t]

/-- Modelled from the spec: the tokenizer (in `version.cpp`, which is not among
the sources): "Scan each string left-to-right producing a sequence of tokens
separated by runs of characters that are neither alphanumeric nor `~`. A token
is a maximal run of either digits or letters (never mixed)." The second
argument is the run under construction. -/
def tokenizeAux : List Char → Option Token → List Token
  | [], cur => flush cur
  | c :: cs, cur =>
    if isDigit c then
      match cur with
      | some (.digits r) => tokenizeAux cs (some (.digits (r ++ [c])))
      | _ => flush cur ++ tokenizeAux cs (some (.digits [c]))
    else if isLetter c then
      match cur with
      | some (.letters r) => tokenizeAux cs (some (.letters (r ++ [c])))
      | _ => flush cur ++ tokenizeAux cs (some (.letters [c]))
    else if c = '~' then flush cur ++ .tilde :: tokenizeAux cs none
    else flush cur ++ tokenizeAux cs none

/-- The token sequence of a version string. -/
def tokenize (s : String) : List Token := tokenizeAux s.data none

/-- Modelled from the spec: "strip leading zeros". -/
def stripZeros : List Char → List Char
  | [] => []
  | c :: cs => if c = '0' then stripZeros cs else c :: cs

/-- Lexicographic three-way comparison of sequences of character codes, a proper
initial segment being smaller (the order of `strcmp`). -/
def lexCmp : List Nat → List Nat → Ordering
  | [], [] => .eq
  | [], _ :: _ => .lt
  | _ :: _, [] => .gt
  | x :: xs, y :: ys => if x < y then .lt else if y < x then .gt else lexCmp xs ys

/-- The code under which a letter is compared: its own character code, or, when
`ci` is set, the code of its lower-case form. -/
def letterCode (ci : Bool) (c : Char) : Nat :=
  if ci && isUpper c then c.toNat + 32 else c.toNat

/-- Modelled from the spec: the comparison policy over two token streams (in
`version.cpp`, which is not among the sources): "If both are digits: strip
leading zeros, then compare by length then lexicographically. If both are
letters: compare [...] lexicographically. A digit token is greater than a letter
token. A present token is greater than absent, unless the present token is a
`~`-tagged one, in which case it is less than absent. If streams end
simultaneously → equal." A `~` token sorts below every other token. The flag
`ci` chooses whether letters are compared by the code of their lower-case
form. -/
def cmpTokens (ci : Bool) : List Token → List Token → Ordering
  | [], [] => .eq
  | [], t :: _ => if t = .tilde then .gt else .lt
  | t :: _, [] => if t = .tilde then .lt else .gt
  | .tilde :: as, .tilde :: bs => cmpTokens ci as bs
  | .tilde :: _, _ :: _ => .lt
  | _ :: _, .tilde :: _ => .gt
  | .digits x :: as, .digits y :: bs =>
    if (stripZeros x).length < (stripZeros y).length then .lt
    else if (stripZeros y).length < (stripZeros x).length then .gt
    else
      match lexCmp ((stripZeros x).map Char.toNat) ((stripZeros y).map Char.toNat) with
      | .eq => cmpTokens ci as bs
      | o => o
  | .letters x :: as, .letters y :: bs =>
    match lexCmp (x.map (letterCode ci)) (y.map (letterCode ci)) with
    | .eq => cmpTokens ci as bs
    | o => o
  | .digits _ :: _, .letters _ :: _ => .gt
  | .letters _ :: _, .digits _ :: _ => .lt

/-- The three-way comparison of two version strings. -/
def cmp (ci : Bool) (a b : String) : Ordering := cmpTokens ci (tokenize a) (tokenize b)

/-- Modelled from the spec: the contract "`compare(a, op, b) → bool`" with the
"Derived operators: `NE ≡ ¬EQ`, `LE ≡ LT∨EQ`, `GE ≡ GT∨EQ`", over the three-way
comparison `cmp ci`. -/
def compareWith (ci : Bool) (a : String) (op : Operator) (b : String) : Bool :=
  match op with
  | .EQ => cmp ci a b == .eq
  | .NE => !(cmp ci a b == .eq)
  | .LT => cmp ci a b == .lt
  | .LE => cmp ci a b == .lt || cmp ci a b == .eq
  | .GT => cmp ci a b == .gt
  | .GE => cmp ci a b == .gt || cmp ci a b == .eq

/-- Modelled from the spec: `Version::compare` (defined in `version.cpp`, which is
not among the sources; `meson_tests.cpp` calls it as `V::compare(input1, op,
input2)`). Two letter tokens are compared by character code: the fixture
`("FC5", "fc4", LT)` of `meson_tests.cpp` line 30 requires it, and the reading
"case-insensitively" of the spec, kept as `compareFolded`, fails that
fixture. -/
def compare (a : String) (op : Operator) (b : String) : Bool := compareWith false a op b

/-- Modelled from the spec: the comparison with the spec's words for two letter
tokens, "compare case-insensitively, lexicographically". -/
def compareFolded (a : String) (op : Operator) (b : String) : Bool := compareWith true a op b

/-- The parameters of `INSTANTIATE_TEST_CASE_P(VersionComparisons, ...)`
(`meson_tests.cpp` lines 25-112), each asserted by `TEST_P(VersionTest,
compare)` as `compare(input1, op, input2)`. -/
def fixtures : List (String × String × Operator) :=
  [("1.0010", "1.9", Operator.GT), ("1.05", "1.5", Operator.EQ), ("1.0", "1", Operator.GT),
   ("2.50", "2.5", Operator.GT), ("fc4", "fc.4", Operator.EQ), ("FC5", "fc4", Operator.LT),
   ("2a", "2.0", Operator.LT), ("1.0", "1.fc4", Operator.GT),
   ("3.0.0_fc", "3.0.0.fc", Operator.EQ), ("1.0", "1.0", Operator.EQ),
   ("1.0", "2.0", Operator.LT), ("2.0", "1.0", Operator.GT), ("2.0.1", "2.0.1", Operator.EQ),
   ("2.0", "2.0.1", Operator.LT), ("2.0.1", "2.0", Operator.GT),
   ("2.0.1a", "2.0.1a", Operator.EQ), ("2.0.1a", "2.0.1", Operator.GT),
   ("2.0.1", "2.0.1a", Operator.LT), ("5.5p1", "5.5p1", Operator.EQ),
   ("5.5p1", "5.5p2", Operator.LT), ("5.5p2", "5.5p1", Operator.GT),
   ("5.5p10", "5.5p10", Operator.EQ), ("5.5p1", "5.5p10", Operator.LT),
   ("5.5p10", "5.5p1", Operator.GT), ("10xyz", "10.1xyz", Operator.LT),
   ("10.1xyz", "10xyz", Operator.GT), ("xyz10", "xyz10", Operator.EQ),
   ("xyz10", "xyz10.1", Operator.LT), ("xyz10.1", "xyz10", Operator.GT),
   ("xyz.4", "xyz.4", Operator.EQ), ("xyz.4", "8", Operator.LT), ("8", "xyz.4", Operator.GT),
   ("xyz.4", "2", Operator.LT), ("2", "xyz.4", Operator.GT), ("5.5p2", "5.6p1", Operator.LT),
   ("5.6p1", "5.5p2", Operator.GT), ("5.6p1", "6.5p1", Operator.LT),
   ("6.5p1", "5.6p1", Operator.GT), ("6.0.rc1", "6.0", Operator.GT),
   ("6.0", "6.0.rc1", Operator.LT), ("10b2", "10a1", Operator.GT), ("10a2", "10b2", Operator.LT),
   ("1.0aa", "1.0aa", Operator.EQ), ("1.0a", "1.0aa", Operator.LT),
   ("1.0aa", "1.0a", Operator.GT), ("10.0001", "10.0001", Operator.EQ),
   ("10.0001", "10.1", Operator.EQ), ("10.1", "10.0001", Operator.EQ),
   ("10.0001", "10.0039", Operator.LT), ("10.0039", "10.0001", Operator.GT),
   ("4.999.9", "5.0", Operator.LT), ("5.0", "4.999.9", Operator.GT),
   ("20101121", "20101121", Operator.EQ), ("20101121", "20101122", Operator.LT),
   ("20101122", "20101121", Operator.GT), ("2_0", "2_0", Operator.EQ),
   ("2.0", "2_0", Operator.EQ), ("2_0", "2.0", Operator.EQ), ("a", "a", Operator.EQ),
   ("a+", "a+", Operator.EQ), ("a+", "a_", Operator.EQ), ("a_", "a+", Operator.EQ),
   ("+a", "+a", Operator.EQ), ("+a", "_a", Operator.EQ), ("_a", "+a", Operator.EQ),
   ("+_", "+_", Operator.EQ), ("_+", "+_", Operator.EQ), ("_+", "_+", Operator.EQ),
   ("+", "_", Operator.EQ), ("_", "+", Operator.EQ), ("0.99.beta19", "0.99.beta14", Operator.GT),
   ("1.0.0", "2.0.0", Operator.LT), (".0.0", "2.0.0", Operator.LT),
   ("alpha", "beta", Operator.LT), ("1.0", "1.0.0", Operator.LT),
   ("2.456", "2.1000", Operator.LT), ("2.1000", "3.111", Operator.LT),
   ("2.001", "2.1", Operator.EQ), ("2.34", "2.34", Operator.EQ), ("6.1.2", "6.3.8", Operator.LT),
   ("1.7.3.0", "2.0.0", Operator.LT), ("2.24.51", "2.25", Operator.LT),
   ("2.1.5+20120813+gitdcbe778", "2.1.5", Operator.GT), ("3.4.1", "3.4b1", Operator.GT),
   ("041206", "200090325", Operator.LT), ("0.6.2+git20130413", "0.6.2", Operator.GT),
   ("2.6.0+bzr6602", "2.6.0", Operator.GT), ("2.6.0", "2.6b2", Operator.GT),
   ("2.6.0+bzr6602", "2.6b2x", Operator.GT), ("0.6.7+20150214+git3a710f9", "0.6.7", Operator.GT),
   ("15.8b", "15.8.0.1", Operator.LT), ("1.2rc1", "1.2.0", Operator.LT)]

/-- A digit token without its leading zeros; other tokens as they are. -/
def normToken : Token → Token
  | .digits s => .digits (stripZeros s)
  | t => t

end Version

/-! ## Machine lowering (`machine_lower`, exercised by `machine_lower_test.cpp`) -/

namespace Machines

/-- Modelled from the spec: the enumeration `Machines::Machine` (declared outside
the sources): "`Machine ∈ {BUILD, HOST, TARGET}`". -/
inductive Machine where
  | BUILD
  | HOST
  | TARGET
deriving DecidableEq, Repr

/-- Modelled from the spec: the enumeration `Machines::Kernel` (declared outside
the sources), of which the tests use `LINUX`. -/
inductive Kernel where
  | LINUX
deriving DecidableEq, Repr

/-- Modelled from the spec: the enumeration `Machines::Endian` (declared outside
the sources), with the two values the tests and the claim name. -/
inductive Endian where
  | BIG
  | LITTLE
deriving DecidableEq, Repr

/-- Modelled from the spec: the class `Machines::Info` (declared outside the
sources), built in the tests as `Info{Machine::BUILD, Kernel::LINUX,
Endian::LITTLE, "x86_64"}`: "the tuple `(machine-role, kernel, endian,
cpu_family, …)`". -/
structure Info where
  machine : Machine
  kernel : Kernel
  endian : Endian
  cpu_family : String
deriving DecidableEq, Repr

/-- Modelled from the spec: the class `Machines::PerMachine` (declared outside
the sources): "a `PerMachine<Info>` table keyed by `Machine`". -/
structure PerMachine (α : Type) where
  build : α
  host : α
  target : α

/-- Modelled from the spec: the one-argument constructor `PerMachine<Info>(info)`
of the tests, after which the host and target machines answer with the build
machine's information (`host_machine.cpu_family()` gives `"x86_64"` in
`TEST(machine_lower, simple)`). -/
def PerMachine.ofBuild {α : Type} (b : α) : PerMachine α := ⟨b, b, b⟩

/-- The entry of a `PerMachine` table for a machine. -/
def PerMachine.get {α : Type} (t : PerMachine α) : Machine → α
  | .BUILD => t.build
  | .HOST => t.host
  | .TARGET => t.target

end Machines

namespace Passes

open Machines

/-- The rest of `s` after the initial segment `p`, if `s` starts with `p`. -/
def dropHead : List Char → List Char → Option (List Char)
  | [], s => some s
  | _ :: _, [] => none
  | a :: p, b :: s => if a = b then dropHead p s else none

/-- Modelled from the spec: the callee of "a method on one of the three machine
objects (e.g. `host_machine.cpu_family()`)". The data model of the spec gives a
`FunctionCall` a `name` only, so the callee is the dotted name; the result is the
machine and the method name. -/
def machineMethod (name : String) : Option (Machine × String) :=
  match dropHead "build_machine.".data name.data with
  | some m => some (.BUILD, String.mk m)
  | none =>
    match dropHead "host_machine.".data name.data with
    | some m => some (.HOST, String.mk m)
    | none =>
      match dropHead "target_machine.".data name.data with
      | some m => some (.TARGET, String.mk m)
      | none => none

/-- Modelled from the spec: the error kind a machine query can raise (spec 7):
"`InconsistentMachineInfo` — a `host_machine.*` call requests a field absent
from the provided `Info`", which "is fatal for the current compilation". It
carries the callee of the offending call. -/
inductive LowerError where
  | InconsistentMachineInfo (callee : String)
deriving DecidableEq, Repr

instance {ε α : Type} [DecidableEq ε] [DecidableEq α] : DecidableEq (Except ε α) :=
  fun a b =>
    match a, b with
    | .ok x, .ok y =>
      if h : x = y then isTrue (by rw [h]) else isFalse (fun h2 => by cases h2; exact h rfl)
    | .error x, .error y =>
      if h : x = y then isTrue (by rw [h]) else isFalse (fun h2 => by cases h2; exact h rfl)
    | .ok _, .error _ => isFalse (fun h2 => by cases h2)
    | .error _, .ok _ => isFalse (fun h2 => by cases h2)

/-- Modelled from the spec: the literal "carved from the corresponding `Info`"
for a method, the method being named after the field it reads: `cpu_family()`
gives the cpu family, `endian()` gives `"little"` or `"big"`, `kernel()` gives
the name of the kernel. `none` stands for "a field absent from the provided
`Info`", as any field is that the `Info` of the tests (`Info{machine, kernel,
endian, cpu_family}`) does not hold. -/
def methodLiteral (info : Info) (method : String) : Option String :=
  if method = "cpu_family" then some info.cpu_family
  else if method = "endian" then
    some (match info.endian with
      | .LITTLE => "little"
      | .BIG => "big")
  else if method = "kernel" then
    some (match info.kernel with
      | .LINUX => "linux")
  else none

mutual
/-- Modelled from the spec: the walk of `machine_lower` over one object (the
pass is outside the sources; `machine_lower_test.cpp` calls it): "walk every
instruction including nested ones in arrays/dicts/function-call arguments and
condition expressions. For every `FunctionCall` whose callee is a method on one
of the three machine objects, replace the call with a literal `String`/`Boolean`
carved from the corresponding `Info`. Replacement preserves the instruction's
`Variable`." The result is the object the walk leaves and whether a call was
replaced in it, or the error raised when a call requests an absent field. -/
def lowerObject (info : PerMachine Info) : Object → Except LowerError (Object × Bool)
  | .array l v =>
    match lowerList info l with
    | .error e => .error e
    | .ok r => .ok (.array r.1 v, r.2)
  | .dict kv v =>
    match lowerDict info kv with
    | .error e => .error e
    | .ok r => .ok (.dict r.1 v, r.2)
  | .functionCall name args kw v =>
    match machineMethod name with
    | some c =>
      match methodLiteral (info.get c.1) c.2 with
      | some s => .ok (.string s v, true)
      | none => .error (.InconsistentMachineInfo name)
    | none =>
      match lowerList info args with
      | .error e => .error e
      | .ok r =>
        match lowerDict info kw with
        | .error e => .error e
        | .ok q => .ok (.functionCall name r.1 q.1 v, r.2 || q.2)
  | .number a v => .ok (.number a v, false)
  | .string a v => .ok (.string a v, false)
  | .boolean a v => .ok (.boolean a v, false)
  | .identifier a b v => .ok (.identifier a b v, false)
  | .phi p => .ok (.phi p, false)
/-- The walk of `machine_lower` over a sequence of objects, in order. -/
def lowerList (info : PerMachine Info) : List Object → Except LowerError (List Object × Bool)
  | [] => .ok ([], false)
  | o :: l =>
    match lowerObject info o with
    | .error e => .error e
    | .ok r =>
      match lowerList info l with
      | .error e => .error e
      | .ok q => .ok (r.1 :: q.1, r.2 || q.2)
/-- The walk of `machine_lower` over the values of a keyword map, in order. -/
def lowerDict (info : PerMachine Info) :
    List (String × Object) → Except LowerError (List (String × Object) × Bool)
  | [] => .ok ([], false)
  | (k, o) :: l =>
    match lowerObject info o with
    | .error e => .error e
    | .ok r =>
      match lowerDict info l with
      | .error e => .error e
      | .ok q => .ok ((k, r.1) :: q.1, r.2 || q.2)
end

mutual
/-- An object is or holds, at any depth, a call of a method on one of the three
machine objects. -/
def holdsMachineCall : Object → Bool
  | .array l _ => holdsMachineCallList l
  | .dict kv _ => holdsMachineCallDict kv
  | .functionCall name args kw _ =>
    (machineMethod name).isSome || holdsMachineCallList args || holdsMachineCallDict kw
  | .number _ _ => false
  | .string _ _ => false
  | .boolean _ _ => false
  | .identifier _ _ _ => false
  | .phi _ => false
/-- Some object of a sequence is or holds a call of a method on a machine
object. -/
def holdsMachineCallList : List Object → Bool
  | [] => false
  | o :: l => holdsMachineCall o || holdsMachineCallList l
/-- Some value of a keyword map is or holds a call of a method on a machine
object. -/
def holdsMachineCallDict : List (String × Object) → Bool
  | [] => false
  | (_, o) :: l => holdsMachineCall o || holdsMachineCallDict l
end

mutual
/-- An object is or holds a call of a method on a machine object that requests a
field absent from the machine's `Info`; the arguments of a call on a machine
object are not looked at. -/
def requestsAbsent (info : PerMachine Info) : Object → Bool
  | .array l _ => requestsAbsentList info l
  | .dict kv _ => requestsAbsentDict info kv
  | .functionCall name args kw _ =>
    match machineMethod name with
    | some c => (methodLiteral (info.get c.1) c.2).isNone
    | none => requestsAbsentList info args || requestsAbsentDict info kw
  | .number _ _ => false
  | .string _ _ => false
  | .boolean _ _ => false
  | .identifier _ _ _ => false
  | .phi _ => false
/-- Some object of a sequence requests an absent field. -/
def requestsAbsentList (info : PerMachine Info) : List Object → Bool
  | [] => false
  | o :: l => requestsAbsent info o || requestsAbsentList info l
/-- Some value of a keyword map requests an absent field. -/
def requestsAbsentDict (info : PerMachine Info) : List (String × Object) → Bool
  | [] => false
  | (_, o) :: l => requestsAbsent info o || requestsAbsentDict info l
end

/-- Modelled from the spec: the successor connector of a block (declared in
`mir.hpp`, which is not among the sources): "One of: `Terminal`, `Next(block)`,
`Condition{condition, true_block, false_block, join_block}`". The successor
blocks, which the block walker visits on their own, are left out; the pass on
one block reaches the condition only. -/
inductive Successor where
  | terminal
  | next
  | condition (condition : Object)
deriving DecidableEq

/-- The walk of `machine_lower` over the condition of a successor connector. -/
def lowerSuccessor (info : PerMachine Info) : Successor → Except LowerError (Successor × Bool)
  | .condition c =>
    match lowerObject info c with
    | .error e => .error e
    | .ok r => .ok (.condition r.1, r.2)
  | .terminal => .ok (.terminal, false)
  | .next => .ok (.next, false)

/-- The condition of a successor connector requests an absent field. -/
def requestsAbsentSuccessor (info : PerMachine Info) : Successor → Bool
  | .condition c => requestsAbsent info c
  | _ => false

/-- Modelled from the spec: the pass `machine_lower` (outside the sources; called
in `machine_lower_test.cpp` as `machine_lower(&irlist, info)`) on a block and its
successor connector `irlist.next`: the instructions are walked in order, then
the condition; "Progress iff any call was replaced." The result is the returned
flag, the block and the connector, or the error that ends the compilation. -/
def machine_lower (block : BasicBlock) (connector : Successor) (info : PerMachine Info) :
    Except LowerError (Bool × BasicBlock × Successor) :=
  match lowerList info block.instructions with
  | .error e => .error e
  | .ok r =>
    match lowerSuccessor info connector with
    | .error e => .error e
    | .ok q => .ok (r.2 || q.2, { block with instructions := r.1 }, q.1)

end Passes

/-! ## Value numbering, usage numbering and constant folding
(exercised by `const_folding_test.cpp`) -/

namespace Passes

/-- Modelled from the spec: the `LastSeenTable` (declared in `passes/private.hpp`,
which is not among the sources): "A mapping `name → u32` giving the version most
recently defined along the current traversal path"; an absent name reads 0. -/
abbrev LastSeenTable := String → Nat

/-- Modelled from the spec: the `ReplacementTable` (declared in
`passes/private.hpp`, which is not among the sources): "A mapping from `(name,
version)` to the canonical value or identifier that a read of that slot should
be rewritten to". -/
abbrev ReplacementTable := Variable → Option Variable

/-- A mapping with the entry of `k` set to `x`. -/
def setEntry {κ α : Type} [DecidableEq κ] (t : κ → α) (k : κ) (x : α) : κ → α :=
  fun j => if j = k then x else t j

/-- An object with the version of its result variable set. -/
def setVersion : Object → Nat → Object
  | .number a v, n => .number a ⟨v.name, n⟩
  | .string a v, n => .string a ⟨v.name, n⟩
  | .boolean a v, n => .boolean a ⟨v.name, n⟩
  | .identifier a b v, n => .identifier a b ⟨v.name, n⟩
  | .array a v, n => .array a ⟨v.name, n⟩
  | .dict a v, n => .dict a ⟨v.name, n⟩
  | .functionCall a b c v, n => .functionCall a b c ⟨v.name, n⟩
  | .phi p, n => .phi ⟨p.left, p.right, ⟨p.var.name, n⟩⟩

/-- A pass that walks the instructions of a block in order, threading its table:
the table after the walk, the instructions it leaves, and whether any step
reported progress. -/
def runPass {σ : Type} (step : σ → Object → σ × Object × Bool) :
    σ → List Object → σ × List Object × Bool
  | s, [] => (s, [], false)
  | s, o :: rest =>
    ((runPass step (step s o).1 rest).1, (step s o).2.1 :: (runPass step (step s o).1 rest).2.1,
      (step s o).2.2 || (runPass step (step s o).1 rest).2.2)

/-- Modelled from the spec: value numbering of one instruction (the pass is
outside the sources): "let `name = instruction.result.name`. If `name` is
non-empty, set `instruction.result.version = ++ValueTable[name]`"; a result that
has a version keeps it ("Idempotent across sweeps once all results have
non-zero versions"). -/
def numberStep (data : ValueTable) (o : Object) : ValueTable × Object × Bool :=
  if o.var.toBool && o.var.version == 0 then
    (data.incr o.var.name, setVersion o ((data.incr o.var.name).get o.var.name), true)
  else (data, o, false)

/-- Modelled from the spec: the pass `value_numbering` (outside the sources;
called in `const_folding_test.cpp`) on the instructions of a block: "Progress
iff any version was assigned this sweep." -/
def value_numbering (data : ValueTable) (instrs : List Object) :
    ValueTable × List Object × Bool :=
  runPass numberStep data instrs

mutual
/-- Modelled from the spec: the rewriting of the reads of an instruction by usage
numbering: "every `Identifier` use of `(n, 0)` is replaced by `(n,
LastSeenTable[n])`; every nested `Identifier` inside `Array`/`Dict`/
`FunctionCall` arguments is rewritten the same way." -/
def useObject (lst : LastSeenTable) : Object → Object
  | .identifier n ver v => if ver = 0 then .identifier n (lst n) v else .identifier n ver v
  | .array l v => .array (useList lst l) v
  | .dict kv v => .dict (useDict lst kv) v
  | .functionCall f args kw v => .functionCall f (useList lst args) (useDict lst kw) v
  | .number a v => .number a v
  | .string a v => .string a v
  | .boolean a v => .boolean a v
  | .phi p => .phi p
/-- The rewriting of the reads of a sequence of objects. -/
def useList (lst : LastSeenTable) : List Object → List Object
  | [] => []
  | o :: l => useObject lst o :: useList lst l
/-- The rewriting of the reads of the values of a keyword map. -/
def useDict (lst : LastSeenTable) : List (String × Object) → List (String × Object)
  | [] => []
  | (k, o) :: l => (k, useObject lst o) :: useDict lst l
end

/-- Modelled from the spec: usage numbering of one instruction: "first rewrite
its reads [...]. Then record the definition: `LastSeenTable[instruction.
result.name] = instruction.result.version`. Progress iff any use was
rewritten." -/
def usageStep (lst : LastSeenTable) (o : Object) : LastSeenTable × Object × Bool :=
  (setEntry lst o.var.name o.var.version, useObject lst o, decide (useObject lst o ≠ o))

/-- Modelled from the spec: the pass `usage_numbering` (outside the sources;
called in `const_folding_test.cpp`) on the instructions of a block. -/
def usage_numbering (lst : LastSeenTable) (instrs : List Object) :
    LastSeenTable × List Object × Bool :=
  runPass usageStep lst instrs

mutual
/-- Modelled from the spec: the rewriting of identifiers by constant folding:
an `Identifier` whose target is in the table is rewritten to the canonical
target, and "For `Array`, `Dict`, `FunctionCall`: recursively rewrite every
embedded `Identifier` through the replacement table (one level of lookup per
slot)". -/
def foldObject (rt : ReplacementTable) : Object → Object
  | .identifier t tv v =>
    match rt ⟨t, tv⟩ with
    | some r => .identifier r.name r.version v
    | none => .identifier t tv v
  | .array l v => .array (foldList rt l) v
  | .dict kv v => .dict (foldDict rt kv) v
  | .functionCall f args kw v => .functionCall f (foldList rt args) (foldDict rt kw) v
  | .number a v => .number a v
  | .string a v => .string a v
  | .boolean a v => .boolean a v
  | .phi p => .phi p
/-- The rewriting of the identifiers of a sequence of objects. -/
def foldList (rt : ReplacementTable) : List Object → List Object
  | [] => []
  | o :: l => foldObject rt o :: foldList rt l
/-- The rewriting of the identifiers of the values of a keyword map. -/
def foldDict (rt : ReplacementTable) : List (String × Object) → List (String × Object)
  | [] => []
  | (k, o) :: l => (k, foldObject rt o) :: foldDict rt l
end

/-- Modelled from the spec: the entry constant folding records for an
instruction: "If the instruction is a literal (`Number`, `String`, `Boolean`)
whose result is `(n, v)`, record `ReplacementTable[(n, v)] = (n, v)`. If the
instruction is `Identifier` with target `(t, tv)` and its own result `(n, v)`,
look up `ReplacementTable[(t, tv)]`; if present, [...] record
`ReplacementTable[(n, v)] = (t', tv')`." -/
def foldRecord (rt : ReplacementTable) : Object → ReplacementTable
  | .number _ v => setEntry rt v (some v)
  | .string _ v => setEntry rt v (some v)
  | .boolean _ v => setEntry rt v (some v)
  | .identifier t tv v =>
    match rt ⟨t, tv⟩ with
    | some r => setEntry rt v (some r)
    | none => rt
  | _ => rt

/-- Modelled from the spec: constant folding of one instruction: "Progress iff
any identifier target changed." -/
def foldStep (rt : ReplacementTable) (o : Object) : ReplacementTable × Object × Bool :=
  (foldRecord rt o, foldObject rt o, decide (foldObject rt o ≠ o))

/-- Modelled from the spec: the pass `constant_folding` (outside the sources;
called in `const_folding_test.cpp`) on the instructions of a block. -/
def constant_folding (rt : ReplacementTable) (instrs : List Object) :
    ReplacementTable × List Object × Bool :=
  runPass foldStep rt instrs

/-- The instructions of a block without successors and the three tables the
tests create before the walk. -/
structure WalkState where
  instructions : List Object
  data : ValueTable
  lst : LastSeenTable
  rt : ReplacementTable

/-- The tables are "initialized empty at the start of the pipeline". -/
def WalkState.initial (instrs : List Object) : WalkState :=
  ⟨instrs, [], fun _ => 0, fun _ => none⟩

/-- One sweep of the block walker over the block with the pass list of the tests,
`{value_numbering, usage_numbering, constant_folding}`: whether a pass reported
progress, and the state after the sweep. -/
def sweepPasses (s : WalkState) : Bool × WalkState :=
  ((value_numbering s.data s.instructions).2.2 ||
      (usage_numbering s.lst (value_numbering s.data s.instructions).2.1).2.2 ||
      (constant_folding s.rt
        (usage_numbering s.lst (value_numbering s.data s.instructions).2.1).2.1).2.2,
    ⟨(constant_folding s.rt
        (usage_numbering s.lst (value_numbering s.data s.instructions).2.1).2.1).2.1,
      (value_numbering s.data s.instructions).1,
      (usage_numbering s.lst (value_numbering s.data s.instructions).2.1).1,
      (constant_folding s.rt
        (usage_numbering s.lst (value_numbering s.data s.instructions).2.1).2.1).1⟩)

/-- Modelled from the spec: the block walker (outside the sources; called in
`const_folding_test.cpp`) on a block without successors: "apply every pass to
it; repeat until no pass reports progress in one full sweep". The first argument
bounds the number of sweeps; `none` means the bound was reached. -/
def block_walker : Nat → WalkState → Option WalkState
  | 0, _ => none
  | fuel + 1, s =>
    if (sweepPasses s).1 then block_walker fuel (sweepPasses s).2 else some (sweepPasses s).2

/-- A literal of the build language. -/
inductive Literal where
  | number (value : Int)
  | string (value : String)
  | boolean (value : Bool)
deriving DecidableEq, Repr

/-- The instruction that holds a literal, with its result variable. -/
def Literal.toObject : Literal → Variable → Object
  | .number a, v => .number a v
  | .string a, v => .string a v
  | .boolean a, v => .boolean a v

/-- The statements of a straight-line program: `name = literal`, `name =
source`, and `[result =] callee(args...)` with variables as arguments (`result`
is empty for a call statement). -/
inductive Stmt where
  | assign (name : String) (value : Literal)
  | copy (name : String) (source : String)
  | call (result : String) (callee : String) (args : List String)
deriving DecidableEq, Repr

/-- The read of a variable before usage numbering: an `Identifier` with target
version 0 and no result. -/
def readOf (a : String) : Object := .identifier a 0 ⟨"", 0⟩

/-- Modelled from the spec: the initial MIR of a statement, as the front end
hands it over: "all result variables carry `version = 0`, identifiers carry
target `version = 0`". -/
def lowerStmt : Stmt → Object
  | .assign n l => l.toObject ⟨n, 0⟩
  | .copy n s => .identifier s 0 ⟨n, 0⟩
  | .call r f args => .functionCall f (args.map readOf) [] ⟨r, 0⟩

/-- The initial MIR of a straight-line program. -/
def lowerProgram (prog : List Stmt) : List Object := prog.map lowerStmt

/-- The state of the reference resolution: for every name the number of its
definitions so far, which is its current version, and the `(name, version)` of
the literal definition at which the chain of copies of its current definition
ends, if it ends at one. -/
structure Resolution where
  counts : String → Nat
  roots : String → Option Variable

/-- No definition yet. -/
def Resolution.initial : Resolution := ⟨fun _ => 0, fun _ => none⟩

/-- The target of a read of `s`: the literal definition its chain of copies ends
at, or else its current definition. -/
def Resolution.target (r : Resolution) (s : String) : Variable :=
  (r.roots s).getD ⟨s, r.counts s⟩

/-- The resolution state after a statement. -/
def Resolution.after (r : Resolution) : Stmt → Resolution
  | .assign n _ =>
    ⟨setEntry r.counts n (r.counts n + 1), setEntry r.roots n (some ⟨n, r.counts n + 1⟩)⟩
  | .copy n s => ⟨setEntry r.counts n (r.counts n + 1), setEntry r.roots n (r.roots s)⟩
  | .call res _ _ =>
    if res = "" then r
    else ⟨setEntry r.counts res (r.counts res + 1), setEntry r.roots res none⟩

/-- The read of a variable once resolved to its target. -/
def resolvedRead (r : Resolution) (a : String) : Object :=
  .identifier (r.target a).name (r.target a).version ⟨"", 0⟩

/-- The instruction a statement should end as: its result carries the next
version of its name, and every read targets `Resolution.target`. -/
def resolvedStmt (r : Resolution) : Stmt → Object
  | .assign n l => l.toObject ⟨n, r.counts n + 1⟩
  | .copy n s => .identifier (r.target s).name (r.target s).version ⟨n, r.counts n + 1⟩
  | .call res f args =>
    .functionCall f (args.map (resolvedRead r)) []
      ⟨res, if res = "" then 0 else r.counts res + 1⟩

/-- The instructions a straight-line program should end as, by the words of the
claim: every read whose chain of copies ends at a literal definition targets the
`(name, version)` of that definition. -/
def resolvedProgram : Resolution → List Stmt → List Object
  | _, [] => []
  | r, s :: rest => resolvedStmt r s :: resolvedProgram (r.after s) rest

/-- A statement assigns a non-empty name and reads only names defined before
it. -/
def Stmt.wellFormed (r : Resolution) : Stmt → Bool
  | .assign n _ => decide (n ≠ "")
  | .copy n s => decide (n ≠ "") && decide (1 ≤ r.counts s)
  | .call _ _ args => args.all (fun a => decide (1 ≤ r.counts a))

/-- Every statement of the program is well formed where it stands. -/
def wellFormedProgram : Resolution → List Stmt → Bool
  | _, [] => true
  | r, s :: rest => s.wellFormed r && wellFormedProgram (r.after s) rest

end Passes

namespace Passes

/-- The three passes on one instruction, one after the other, on the triple of
their tables. -/
def fusedStep (s : ValueTable × LastSeenTable × ReplacementTable) (o : Object) :
    (ValueTable × LastSeenTable × ReplacementTable) × Object × Bool :=
  (((numberStep s.1 o).1, (usageStep s.2.1 (numberStep s.1 o).2.1).1,
      (foldStep s.2.2 (usageStep s.2.1 (numberStep s.1 o).2.1).2.1).1),
    (foldStep s.2.2 (usageStep s.2.1 (numberStep s.1 o).2.1).2.1).2.1,
    (numberStep s.1 o).2.2 || (usageStep s.2.1 (numberStep s.1 o).2.1).2.2 ||
      (foldStep s.2.2 (usageStep s.2.1 (numberStep s.1 o).2.1).2.1).2.2)

/-- The resolution state after a program. -/
def Resolution.afterAll : Resolution → List Stmt → Resolution
  | r, [] => r
  | r, s :: rest => Resolution.afterAll (r.after s) rest

/-- The tables of the three passes agree with the resolution state `r`, and no
counter wraps within `k` further definitions. -/
structure TablesAgree (r : Resolution) (data : ValueTable) (lst : LastSeenTable)
    (rt : ReplacementTable) (k : Nat) : Prop where
  unnamed : r.counts "" = 0
  data_eq : ∀ n, n ≠ "" → data.get n = r.counts n
  lst_eq : ∀ n, lst n = r.counts n
  current : ∀ n, 1 ≤ r.counts n → rt ⟨n, r.counts n⟩ = r.roots n
  fresh : ∀ n v, (v = 0 ∨ r.counts n < v) → rt ⟨n, v⟩ = none
  fixed : ∀ n ρ, r.roots n = some ρ → rt ρ = some ρ ∧ ρ.version ≠ 0
  bound : ∀ n, r.counts n + k < U32

/-- Constant folding leaves a read of `τ` alone, now and after further
definitions: the table maps `τ` to itself, or has no entry for `τ`, which is a
version already issued. -/
def TargetOk (c : String → Nat) (rt : ReplacementTable) (τ : Variable) : Prop :=
  τ.version ≠ 0 ∧ (rt τ = some τ ∨ (rt τ = none ∧ τ.version ≤ c τ.name))

/-- The three passes leave the instruction alone. -/
def Settled (c : String → Nat) (rt : ReplacementTable) : Object → Prop
  | .number _ v => (v.name ≠ "" → v.version ≠ 0) ∧ rt v = some v
  | .string _ v => (v.name ≠ "" → v.version ≠ 0) ∧ rt v = some v
  | .boolean _ v => (v.name ≠ "" → v.version ≠ 0) ∧ rt v = some v
  | .identifier t tv v =>
    (v.name ≠ "" → v.version ≠ 0) ∧ TargetOk c rt ⟨t, tv⟩ ∧
      (rt ⟨t, tv⟩ = some ⟨t, tv⟩ → rt v = some ⟨t, tv⟩)
  | .functionCall _ args kw v =>
    kw = [] ∧ (v.name ≠ "" → v.version ≠ 0) ∧
      ∀ a ∈ args, ∃ τ : Variable, a = .identifier τ.name τ.version ⟨"", 0⟩ ∧ TargetOk c rt τ
  | _ => False

/-- The counters and the replacement table `(c₂, rt₂)` come after `(c₁, rt₁)`:
counters have grown, and the table is the same at every key that had an entry
or whose version was already issued. -/
def Extends (c₁ : String → Nat) (rt₁ : ReplacementTable) (c₂ : String → Nat)
    (rt₂ : ReplacementTable) : Prop :=
  (∀ n, c₁ n ≤ c₂ n) ∧
    ∀ κ : Variable, ((rt₁ κ).isSome = true ∨ κ.version ≤ c₁ κ.name) → rt₂ κ = rt₁ κ

end Passes

/-- Modelled from the spec: `Variable::operator<` (defined in `mir.cpp`, which is
not among the sources; called in `TEST(variable, less_than)`): "Order is
lexicographic on `name`, then ascending on `version`", written with the order of
the names only, as a comparison of `std::tie(name, version)` is. -/
def Variable.lt (a b : Variable) : Bool :=
  if strLt a.name b.name then true
  else if strLt b.name a.name then false
  else decide (a.version < b.version)


/-! ## The GNU-like compiler arguments (`toolchains/compilers/cpp/gnulike.cpp`)

A `std::string` is embedded as the `String` whose characters are its `char`s,
one character for one `char` (for ASCII text, the text itself), so that
`size()` is the number of characters. A thrown exception is `none`. -/

namespace GnuLike

/-- Width bound of `size_t`, the type of `std::string::length()`. -/
def SIZE : Nat := 2 ^ 64

/-- The difference `a - b` of two `size_t` values, which wraps around. -/
def subSize (a b : Nat) : Nat := (a % SIZE + SIZE - b % SIZE) % SIZE

/-- The method `std::string::substr(pos, count)`: it throws `std::out_of_range`
when `pos > size()`, and otherwise returns the characters from `pos` on, at most
`count` of them. -/
def substr (s : String) (pos count : Nat) : Option String :=
  if s.data.length < pos then none else some ⟨(s.data.drop pos).take count⟩

/-- Modelled from the spec: the enumeration `Arguments::Type` (declared in
`arguments.hpp`, which is not among the sources), with the members that
`gnulike.cpp` names: the emitter serializes "link/include/define arguments". -/
inductive ArgumentType where
  | DEFINE
  | LINK
  | LINK_SEARCH
  | INCLUDE
  | RAW
deriving DecidableEq, Repr

/-- Modelled from the spec: the enumeration `Arguments::IncludeType` (declared
in `arguments.hpp`, which is not among the sources), with the members that
`gnulike.cpp` names. -/
inductive IncludeType where
  | BASE
  | SYSTEM
deriving DecidableEq, Repr

/-- Modelled from the spec: the class `Arguments::Argument` (declared in
`arguments.hpp`, which is not among the sources): "`Argument{value, type,
include_type?}`"; the include type is absent when the constructor is called
with a value and a type only. -/
structure Argument where
  value : String
  type : ArgumentType
  inc_type : Option IncludeType
deriving DecidableEq, Repr

/-- The method `GnuLike::generalize_argument` (lines 16-38). -/
def generalize_argument (arg : String) : Option Argument :=
  (substr arg 0 2).bind fun p1 =>
  if p1 = "-L" then
    (substr arg 2 arg.data.length).map fun v => ⟨v, .LINK_SEARCH, none⟩
  else (substr arg 0 2).bind fun p2 =>
  if p2 = "-D" then
    (substr arg 2 arg.data.length).map fun v => ⟨v, .DEFINE, none⟩
  else (substr arg 0 2).bind fun p3 =>
  if p3 = "-l" then
    (substr arg 2 arg.data.length).map fun v => ⟨v, .LINK, none⟩
  else (substr arg 0 2).bind fun p4 =>
  if p4 = "-I" then
    (substr arg 2 arg.data.length).map fun v => ⟨v, .INCLUDE, some .BASE⟩
  else (substr arg 0 8).bind fun p5 =>
  if p5 = "-isystem" then
    (substr arg 2 arg.data.length).map fun v => ⟨v, .INCLUDE, some .SYSTEM⟩
  else (substr arg (subSize arg.data.length 2) arg.data.length).bind fun s1 =>
  if s1 = ".a" then some ⟨arg, .LINK, none⟩
  else (substr arg (subSize arg.data.length 2) arg.data.length).bind fun s2 =>
  if s2 = ".so" then some ⟨arg, .LINK, none⟩
  else some ⟨arg, .RAW, none⟩

/-- The two operations of `std::filesystem` that `specialize_argument` calls:
`fs::relative(p, base)`, which may throw, and `operator/` on paths. Their
results depend on the file system and are taken as given. -/
structure Filesystem where
  relative : String → String → Option String
  join : String → String → String

/-- The inner `switch` of lines 53-62 on the include type; the `default` case
throws. -/
def includeFlag : Option IncludeType → Option String
  | some .BASE => some "-I"
  | some .SYSTEM => some "-system"
  | none => none

/-- The method `GnuLike::specialize_argument` (lines 40-79). -/
def specialize_argument (fs : Filesystem) (arg : Argument) (src_dir build_dir : String) :
    Option (List String) :=
  match arg.type with
  | .DEFINE => some ["-D", arg.value]
  | .LINK => some ["-l", arg.value]
  | .LINK_SEARCH => some ["-L", arg.value]
  | .INCLUDE =>
    (includeFlag arg.inc_type).bind fun inc_arg =>
    (fs.relative arg.value build_dir).bind fun r1 =>
    (fs.relative (fs.join src_dir arg.value) build_dir).map fun r2 =>
      [inc_arg, (if "'" ++ r1 ++ "'" = "''" then "." else "'" ++ r1 ++ "'"), inc_arg, r2]
  | .RAW => some [arg.value]

/-- The concatenation of a sequence of strings. -/
def concat : List String → String
  | [] => ""
  | s :: rest => s ++ concat rest

/-- Generalizing a raw argument and specializing the result: the strings that
come back, or `none` when one of the two calls throws. -/
def roundTrip (fs : Filesystem) (src_dir build_dir : String) (raw : String) :
    Option (List String) :=
  (generalize_argument raw).bind fun a => specialize_argument fs a src_dir build_dir

end GnuLike


end MIR

namespace MIR

/-! ## The parent scan of `fixup_phis` -/

theorem scanInstrs_eq (name : String) (l r : Nat) (p : List Object) (f : Bool × Bool) :
    scanInstrs name l r p f =
      match firstOperand name l r p with
      | none => f
      | some true => (true, f.2)
      | some false => (f.1, true) := by
  induction p with
  | nil => simp [scanInstrs, firstOperand]
  | cons i rest ih =>
    simp only [scanInstrs, firstOperand]
    split_ifs <;> simp_all

theorem scanParents_eq (name : String) (l r : Nat) (ps : List (List Object)) (f : Bool × Bool) :
    scanParents name l r ps f =
      (f.1 || ps.any (fun p => firstOperand name l r p == some true),
        f.2 || ps.any (fun p => firstOperand name l r p == some false)) := by
  induction ps generalizing f with
  | nil => simp [scanParents]
  | cons p ps ih =>
    simp only [scanParents, scanInstrs_eq, List.any_cons]
    rcases h : firstOperand name l r p with _ | b
    · obtain ⟨a, b⟩ := f
      cases a <;> cases b <;> simp [ih]
    · obtain ⟨a, c⟩ := f
      cases b <;> cases a <;> cases c <;> simp [ih]

theorem firstOperand_true {name : String} {l r : Nat} {p : List Object}
    (h : firstOperand name l r p = some true) : definesIn p name l := by
  induction p with
  | nil => simp [firstOperand] at h
  | cons i rest ih =>
    simp only [firstOperand] at h
    split_ifs at h with h1 h2 h3
    · exact ⟨i, List.mem_cons_self _ _, h1, h2⟩
    · simp at h
    · obtain ⟨q, hq, hq2⟩ := ih h
      exact ⟨q, List.mem_cons_of_mem _ hq, hq2⟩
    · obtain ⟨q, hq, hq2⟩ := ih h
      exact ⟨q, List.mem_cons_of_mem _ hq, hq2⟩

theorem firstOperand_false {name : String} {l r : Nat} {p : List Object}
    (h : firstOperand name l r p = some false) : definesIn p name r := by
  induction p with
  | nil => simp [firstOperand] at h
  | cons i rest ih =>
    simp only [firstOperand] at h
    split_ifs at h with h1 h2 h3
    · simp at h
    · exact ⟨i, List.mem_cons_self _ _, h1, h3⟩
    · obtain ⟨q, hq, hq2⟩ := ih h
      exact ⟨q, List.mem_cons_of_mem _ hq, hq2⟩
    · obtain ⟨q, hq, hq2⟩ := ih h
      exact ⟨q, List.mem_cons_of_mem _ hq, hq2⟩

theorem firstOperand_none {name : String} {l r : Nat} {p : List Object}
    (h : firstOperand name l r p = none) : ¬ definesIn p name l ∧ ¬ definesIn p name r := by
  induction p with
  | nil => simp [definesIn]
  | cons i rest ih =>
    simp only [firstOperand] at h
    split_ifs at h with h1 h2 h3
    · obtain ⟨ha, hb⟩ := ih h
      constructor
      · rintro ⟨q, hq, hn, hv⟩
        rcases List.mem_cons.1 hq with rfl | hq
        · exact h2 hv
        · exact ha ⟨q, hq, hn, hv⟩
      · rintro ⟨q, hq, hn, hv⟩
        rcases List.mem_cons.1 hq with rfl | hq
        · exact h3 hv
        · exact hb ⟨q, hq, hn, hv⟩
    · obtain ⟨ha, hb⟩ := ih h
      constructor
      · rintro ⟨q, hq, hn, hv⟩
        rcases List.mem_cons.1 hq with rfl | hq
        · exact h1 hn
        · exact ha ⟨q, hq, hn, hv⟩
      · rintro ⟨q, hq, hn, hv⟩
        rcases List.mem_cons.1 hq with rfl | hq
        · exact h1 hn
        · exact hb ⟨q, hq, hn, hv⟩

/-! ## The loop of `fixup_phis`, place by place -/

theorem scanBlock_eq (name : String) (l r : Nat) (before : List Object) (f : Bool × Bool) :
    scanBlock name l r before f =
      match nearestBefore name before with
      | none => f
      | some q => (decide (q.var.version = l), decide (q.var.version = r)) := by
  induction before generalizing f with
  | nil => simp [scanBlock, nearestBefore]
  | cons i rest ih =>
    simp only [scanBlock, nearestBefore]
    split_ifs with h1
    · rw [ih]
      cases nearestBefore name rest <;> simp [h1]
    · rw [ih]
      cases nearestBefore name rest <;> simp [h1]

theorem scanBlock_congr (name : String) (l r : Nat) :
    ∀ (a b : List Object) (f : Bool × Bool), a.map Object.var = b.map Object.var →
      scanBlock name l r a f = scanBlock name l r b f := by
  intro a
  induction a with
  | nil =>
    intro b f h
    cases b with
    | nil => rfl
    | cons _ _ => simp at h
  | cons i rest ih =>
    intro b f h
    cases b with
    | nil => simp at h
    | cons j rest2 =>
      simp only [List.map_cons, List.cons.injEq] at h
      simp only [scanBlock, h.1]
      split_ifs
      · exact ih _ _ h.2
      · exact ih _ _ h.2

theorem phiToIdentifier_var (p : Phi) (b : Bool) : (phiToIdentifier p b).var = p.var := rfl

theorem fixOne_var (parents : List (List Object)) (before : List Object) (o : Object) :
    (fixOne parents before o).var = o.var := by
  cases o <;> simp only [fixOne]
  split_ifs
  · exact phiToIdentifier_var _ _
  · exact phiToIdentifier_var _ _
  · rfl

theorem fixOne_congr (parents : List (List Object)) (a b : List Object) (o : Object)
    (h : a.map Object.var = b.map Object.var) : fixOne parents a o = fixOne parents b o := by
  cases o <;> simp only [fixOne]
  rw [scanBlock_congr _ _ _ a b _ h]

theorem fixupLoop_eq (parents : List (List Object)) :
    ∀ (rest done before : List Object) (progress : Bool),
      done.map Object.var = before.map Object.var →
      (fixupLoop parents done rest progress).2 = done ++ fixList parents before rest := by
  intro rest
  induction rest with
  | nil => intro done before progress _; simp [fixupLoop, fixList]
  | cons i rest ih =>
    intro done before progress h
    have hs : ∀ o : Object, o.var = i.var →
        (done ++ [o]).map Object.var = (before ++ [i]).map Object.var := by
      intro o ho
      simp [h, ho]
    cases i with
    | phi p =>
      have hc := scanBlock_congr p.var.name p.left p.right done before
        (scanParents p.var.name p.left p.right parents (false, false)) h
      simp only [fixupLoop, fixList, fixOne, hc]
      split_ifs
      · rw [ih _ _ _ (hs _ (phiToIdentifier_var _ _))]; simp
      · rw [ih _ _ _ (hs _ (phiToIdentifier_var _ _))]; simp
      · rw [ih _ _ _ (hs _ rfl)]; simp
    | _ =>
      simp only [fixupLoop, fixList, fixOne]
      rw [ih _ _ _ (hs _ rfl)]; simp

theorem fixList_getElem? (parents : List (List Object)) :
    ∀ (rest before : List Object) (i : Nat),
      (fixList parents before rest)[i]? =
        rest[i]?.map (fixOne parents (before ++ rest.take i)) := by
  intro rest
  induction rest with
  | nil => intro before i; simp [fixList]
  | cons o rest ih =>
    intro before i
    cases i with
    | zero => simp [fixList]
    | succ k => simp [fixList, ih]

theorem fixup_phis_instructions (block : BasicBlock) :
    (fixup_phis block).2.instructions = fixList block.parents [] block.instructions := by
  simp only [fixup_phis]
  rw [fixupLoop_eq block.parents block.instructions [] [] false rfl]
  simp

theorem fixup_phis_getElem? (block : BasicBlock) (i : Nat) :
    (fixup_phis block).2.instructions[i]? =
      block.instructions[i]?.map (fixOne block.parents (block.instructions.take i)) := by
  rw [fixup_phis_instructions, fixList_getElem?]
  simp

/-! ## The flags after the parent scan -/

theorem scanParents_left_iff (name : String) (l r : Nat) (ps : List (List Object)) :
    (scanParents name l r ps (false, false)).1 = true ↔
      ∃ p ∈ ps, firstOperand name l r p = some true := by
  simp [scanParents_eq]

theorem scanParents_right_iff (name : String) (l r : Nat) (ps : List (List Object)) :
    (scanParents name l r ps (false, false)).2 = true ↔
      ∃ p ∈ ps, firstOperand name l r p = some false := by
  simp [scanParents_eq]

theorem scanParents_left_defined {name : String} {l r : Nat} {ps : List (List Object)}
    (h : (scanParents name l r ps (false, false)).1 = true) : definedInParents ps name l := by
  obtain ⟨p, hp, hf⟩ := (scanParents_left_iff name l r ps).1 h
  exact ⟨p, hp, firstOperand_true hf⟩

theorem scanParents_right_defined {name : String} {l r : Nat} {ps : List (List Object)}
    (h : (scanParents name l r ps (false, false)).2 = true) : definedInParents ps name r := by
  obtain ⟨p, hp, hf⟩ := (scanParents_right_iff name l r ps).1 h
  exact ⟨p, hp, firstOperand_false hf⟩

theorem scanParents_left_of_only {name : String} {l r : Nat} {ps : List (List Object)}
    (hl : definedInParents ps name l) (hr : ¬ definedInParents ps name r) :
    (scanParents name l r ps (false, false)).1 = true := by
  obtain ⟨p, hp, hd⟩ := hl
  refine (scanParents_left_iff name l r ps).2 ⟨p, hp, ?_⟩
  rcases h : firstOperand name l r p with _ | b
  · exact absurd hd (firstOperand_none h).1
  · cases b
    · exact absurd ⟨p, hp, firstOperand_false h⟩ hr
    · rfl

theorem scanParents_right_of_only {name : String} {l r : Nat} {ps : List (List Object)}
    (hr : definedInParents ps name r) (hl : ¬ definedInParents ps name l) :
    (scanParents name l r ps (false, false)).2 = true := by
  obtain ⟨p, hp, hd⟩ := hr
  refine (scanParents_right_iff name l r ps).2 ⟨p, hp, ?_⟩
  rcases h : firstOperand name l r p with _ | b
  · exact absurd hd (firstOperand_none h).2
  · cases b
    · rfl
    · exact absurd ⟨p, hp, firstOperand_true h⟩ hl

theorem scanParents_none_defined {name : String} {l r : Nat} {ps : List (List Object)}
    (h1 : (scanParents name l r ps (false, false)).1 = false)
    (h2 : (scanParents name l r ps (false, false)).2 = false) :
    ¬ definedInParents ps name l ∧ ¬ definedInParents ps name r := by
  have hnone : ∀ p ∈ ps, firstOperand name l r p = none := by
    intro p hp
    rcases h : firstOperand name l r p with _ | b
    · rfl
    · cases b
      · have := (scanParents_right_iff name l r ps).2 ⟨p, hp, h⟩
        rw [h2] at this; cases this
      · have := (scanParents_left_iff name l r ps).2 ⟨p, hp, h⟩
        rw [h1] at this; cases this
  constructor
  · rintro ⟨p, hp, hd⟩
    exact (firstOperand_none (hnone p hp)).1 hd
  · rintro ⟨p, hp, hd⟩
    exact (firstOperand_none (hnone p hp)).2 hd

theorem nearestBefore_none {name : String} {before : List Object}
    (h : ∀ q ∈ before, q.var.name ≠ name) : nearestBefore name before = none := by
  induction before with
  | nil => rfl
  | cons i rest ih =>
    simp only [nearestBefore]
    rw [ih (fun q hq => h q (List.mem_cons_of_mem _ hq))]
    simp [h i (List.mem_cons_self _ _)]

/-- The instruction `fixOne` leaves when the first or the second scan ends with
exactly one flag set. -/
theorem fixOne_phi_of_xor (parents : List (List Object)) (before : List Object) (p : Phi)
    (g : Bool × Bool)
    (hg : g = scanBlock p.var.name p.left p.right before
      (scanParents p.var.name p.left p.right parents (false, false)))
    (h1 : (scanParents p.var.name p.left p.right parents (false, false)).1 =
      (scanParents p.var.name p.left p.right parents (false, false)).2)
    (h2 : g.1 ≠ g.2) :
    fixOne parents before (.phi p) = phiToIdentifier p g.1 := by
  subst hg
  simp only [fixOne]
  rw [if_neg (by simp [h1])]
  rw [if_pos]
  revert h2
  generalize (scanBlock p.var.name p.left p.right before
      (scanParents p.var.name p.left p.right parents (false, false))) = g
  obtain ⟨a, b⟩ := g
  cases a <;> cases b <;> simp

/-- The instruction `fixOne` leaves when the loop over the parents ends with
equal flags and the nearest same-named instruction before the phi carries
exactly one of the operand versions. -/
theorem fixOne_phi_nearest (parents : List (List Object)) (before : List Object) (p : Phi)
    (q : Object)
    (hscan : (scanParents p.var.name p.left p.right parents (false, false)).1 =
      (scanParents p.var.name p.left p.right parents (false, false)).2)
    (hq : nearestBefore p.var.name before = some q)
    (hx : Xor' (q.var.version = p.left) (q.var.version = p.right)) :
    fixOne parents before (.phi p) = .identifier p.var.name q.var.version p.var := by
  rw [fixOne_phi_of_xor parents before p
    (decide (q.var.version = p.left), decide (q.var.version = p.right))
    (by rw [scanBlock_eq, hq]) hscan]
  · simp only [phiToIdentifier]
    rcases hx with ⟨ha, _⟩ | ⟨hb, ha⟩
    · rw [if_pos (decide_eq_true ha), ha]
    · rw [if_neg (by rw [decide_eq_false ha]; simp), hb]
  · show decide (q.var.version = p.left) ≠ decide (q.var.version = p.right)
    rcases hx with ⟨ha, hb⟩ | ⟨hb, ha⟩
    · rw [decide_eq_true ha, decide_eq_false hb]; decide
    · rw [decide_eq_true hb, decide_eq_false ha]; decide

/-! ## Claims on `fixup_phis` -/

/-- C3: for a phi of a block such that exactly one of its two operand versions
is the result version of a same-named instruction in one of the block's parents,
`fixup_phis` leaves, at the phi's own position, an `Identifier` whose target is
(phi name, that operand version) and whose result variable is the phi's. -/
theorem fixup_phis_one_live_operand (block : BasicBlock) (i : Nat) (p : Phi)
    (hphi : block.instructions[i]? = some (.phi p))
    (hlive : Xor' (definedInParents block.parents p.var.name p.left)
      (definedInParents block.parents p.var.name p.right)) :
    (fixup_phis block).2.instructions[i]? =
      some (.identifier p.var.name
        (if definedInParents block.parents p.var.name p.left then p.left else p.right)
        p.var) := by
  rw [fixup_phis_getElem?, hphi]
  simp only [Option.map_some', fixOne]
  rcases hlive with ⟨hl, hr⟩ | ⟨hr, hl⟩
  · have h1 := scanParents_left_of_only hl hr
    have h2 : (scanParents p.var.name p.left p.right block.parents (false, false)).2 = false := by
      by_contra hc
      exact hr (scanParents_right_defined (by simpa using hc))
    simp [h1, h2, hl, phiToIdentifier]
  · have h2 := scanParents_right_of_only hr hl
    have h1 : (scanParents p.var.name p.left p.right block.parents (false, false)).1 = false := by
      by_contra hc
      exact hl (scanParents_left_defined (by simpa using hc))
    simp [h1, h2, hl, phiToIdentifier]

/-- Witness of C3: a join block whose false branch was pruned; only the left
operand `(x, 1)` is still defined by a parent. -/
theorem fixup_phis_one_live_operand_witness :
    (fixup_phis ⟨[.phi ⟨1, 2, ⟨"x", 3⟩⟩, .identifier "x" 0 ⟨"y", 1⟩],
        [[.number 9 ⟨"x", 1⟩]]⟩).2.instructions[0]? =
      some (.identifier "x" 1 ⟨"x", 3⟩) :=
  fixup_phis_one_live_operand
    ⟨[.phi ⟨1, 2, ⟨"x", 3⟩⟩, .identifier "x" 0 ⟨"y", 1⟩], [[.number 9 ⟨"x", 1⟩]]⟩ 0
    ⟨1, 2, ⟨"x", 3⟩⟩ (by decide) (by decide)

/-- C4: for a phi in a block none of whose parents defines either operand
version (in particular a block without parents), if the nearest preceding
instruction of the block with the phi's name has a result version equal to
exactly one of the phi's operands, the phi is replaced by an `Identifier`
targeting that version and keeping the phi's result variable. -/
theorem fixup_phis_after_pruning_and_joining (block : BasicBlock) (i : Nat) (p : Phi)
    (q : Object)
    (hphi : block.instructions[i]? = some (.phi p))
    (hl : ¬ definedInParents block.parents p.var.name p.left)
    (hr : ¬ definedInParents block.parents p.var.name p.right)
    (hq : nearestBefore p.var.name (block.instructions.take i) = some q)
    (hx : Xor' (q.var.version = p.left) (q.var.version = p.right)) :
    (fixup_phis block).2.instructions[i]? =
      some (.identifier p.var.name q.var.version p.var) := by
  have h1 : (scanParents p.var.name p.left p.right block.parents (false, false)).1 = false := by
    by_contra hc
    exact hl (scanParents_left_defined (by simpa using hc))
  have h2 : (scanParents p.var.name p.left p.right block.parents (false, false)).2 = false := by
    by_contra hc
    exact hr (scanParents_right_defined (by simpa using hc))
  rw [fixup_phis_getElem?, hphi]
  simp only [Option.map_some']
  rw [fixOne_phi_nearest block.parents _ p q (by rw [h1, h2]) hq hx]

/-- Witness of C4, the example of the claim: `[Number 9 as (x,2), Phi as (x,3)
with operand 2]` in a block without parents becomes `[Number 9 as (x,2),
Identifier target (x,2) as (x,3)]`. -/
theorem fixup_phis_after_pruning_and_joining_witness :
    nearestBefore "x" [Object.number 9 ⟨"x", 2⟩] = some (.number 9 ⟨"x", 2⟩) ∧
    (fixup_phis ⟨[.number 9 ⟨"x", 2⟩, .phi ⟨1, 2, ⟨"x", 3⟩⟩], []⟩).2.instructions[1]? =
      some (.identifier "x" 2 ⟨"x", 3⟩) ∧
    (fixup_phis ⟨[.number 9 ⟨"x", 2⟩, .phi ⟨1, 2, ⟨"x", 3⟩⟩], []⟩).2.instructions =
      [.number 9 ⟨"x", 2⟩, .identifier "x" 2 ⟨"x", 3⟩] :=
  ⟨by decide,
    fixup_phis_after_pruning_and_joining
      ⟨[.number 9 ⟨"x", 2⟩, .phi ⟨1, 2, ⟨"x", 3⟩⟩], []⟩ 1 ⟨1, 2, ⟨"x", 3⟩⟩
      (.number 9 ⟨"x", 2⟩) (by decide) (by decide) (by decide) (by decide) (by decide),
    by decide⟩

/-- C5, as the code has it: for a phi for which the loop over the parents ends
with both flags set or with none, if the nearest preceding instruction of the
block with the phi's name has a result version equal to exactly one of the phi's
operands, `fixup_phis` replaces the phi by an `Identifier` reading that version.
(When the parents define exactly one operand the first test replaces the phi by
a read of that operand, and the block is not consulted.) -/
theorem fixup_phis_same_block_redefinition (block : BasicBlock) (i : Nat) (p : Phi)
    (q : Object)
    (hphi : block.instructions[i]? = some (.phi p))
    (hscan : (scanParents p.var.name p.left p.right block.parents (false, false)).1 =
      (scanParents p.var.name p.left p.right block.parents (false, false)).2)
    (hq : nearestBefore p.var.name (block.instructions.take i) = some q)
    (hx : Xor' (q.var.version = p.left) (q.var.version = p.right)) :
    (fixup_phis block).2.instructions[i]? =
      some (.identifier p.var.name q.var.version p.var) := by
  rw [fixup_phis_getElem?, hphi]
  simp only [Option.map_some']
  rw [fixOne_phi_nearest block.parents _ p q hscan hq hx]

/-- Witness of C5: both operands are found in the two parents, and the block
itself redefines `x` at the right operand before the phi. -/
theorem fixup_phis_same_block_redefinition_witness :
    scanParents "x" 1 2 [[Object.number 9 ⟨"x", 1⟩], [Object.number 10 ⟨"x", 2⟩]]
      (false, false) = (true, true) ∧
    (fixup_phis ⟨[.number 10 ⟨"x", 2⟩, .phi ⟨1, 2, ⟨"x", 3⟩⟩],
        [[.number 9 ⟨"x", 1⟩], [.number 10 ⟨"x", 2⟩]]⟩).2.instructions[1]? =
      some (.identifier "x" 2 ⟨"x", 3⟩) :=
  ⟨by decide,
    fixup_phis_same_block_redefinition
      ⟨[.number 10 ⟨"x", 2⟩, .phi ⟨1, 2, ⟨"x", 3⟩⟩],
        [[.number 9 ⟨"x", 1⟩], [.number 10 ⟨"x", 2⟩]]⟩ 1 ⟨1, 2, ⟨"x", 3⟩⟩
      (.number 10 ⟨"x", 2⟩) (by decide) (by decide) (by decide) (by decide)⟩

/-- Counterexample to C5 as stated. First block: the instruction before the phi
defines `x` at the right operand 2, but the single parent defines the left
operand 1, and the phi becomes a read of `(x, 1)`, not of `(x, 2)`. Second
block: a preceding instruction defines `x` at the left operand 1, a nearer one
defines `x` at version 5, and the phi stays a phi. -/
theorem fixup_phis_same_block_redefinition_counterexample :
    (definesIn [Object.number 10 ⟨"x", 2⟩] "x" 2 ∧
      (fixup_phis ⟨[.number 10 ⟨"x", 2⟩, .phi ⟨1, 2, ⟨"x", 3⟩⟩],
          [[.number 9 ⟨"x", 1⟩]]⟩).2.instructions[1]? =
        some (.identifier "x" 1 ⟨"x", 3⟩)) ∧
    (definesIn [Object.number 9 ⟨"x", 1⟩, Object.number 7 ⟨"x", 5⟩] "x" 1 ∧
      (fixup_phis ⟨[.number 9 ⟨"x", 1⟩, .number 7 ⟨"x", 5⟩, .phi ⟨1, 2, ⟨"x", 6⟩⟩],
          []⟩).2.instructions[2]? =
        some (.phi ⟨1, 2, ⟨"x", 6⟩⟩)) := by
  decide

/-- C6, as the code has it: for a phi that has no same-named instruction before
it in its block, if some parent's first same-named instruction carrying one of
the two operand versions carries the left one, and some parent's carries the
right one, `fixup_phis` leaves the phi in place as a `Phi`. -/
theorem fixup_phis_both_operands_live (block : BasicBlock) (i : Nat) (p : Phi)
    (hphi : block.instructions[i]? = some (.phi p))
    (hbefore : ∀ q ∈ block.instructions.take i, q.var.name ≠ p.var.name)
    (hleft : ∃ pa ∈ block.parents, firstOperand p.var.name p.left p.right pa = some true)
    (hright : ∃ pb ∈ block.parents, firstOperand p.var.name p.left p.right pb = some false) :
    (fixup_phis block).2.instructions[i]? = some (.phi p) := by
  have h1 := (scanParents_left_iff p.var.name p.left p.right block.parents).2 hleft
  have h2 := (scanParents_right_iff p.var.name p.left p.right block.parents).2 hright
  rw [fixup_phis_getElem?, hphi]
  simp only [Option.map_some', fixOne, scanBlock_eq, nearestBefore_none hbefore]
  simp [h1, h2]

/-- Witness of C6: the two branches of a conditional define `x` at versions 1
and 2, and their join holds the phi of the two. -/
theorem fixup_phis_both_operands_live_witness :
    (fixup_phis ⟨[.phi ⟨1, 2, ⟨"x", 3⟩⟩, .identifier "x" 0 ⟨"y", 1⟩],
        [[.number 9 ⟨"x", 1⟩], [.number 10 ⟨"x", 2⟩]]⟩).2.instructions[0]? =
      some (.phi ⟨1, 2, ⟨"x", 3⟩⟩) :=
  fixup_phis_both_operands_live
    ⟨[.phi ⟨1, 2, ⟨"x", 3⟩⟩, .identifier "x" 0 ⟨"y", 1⟩],
      [[.number 9 ⟨"x", 1⟩], [.number 10 ⟨"x", 2⟩]]⟩ 0 ⟨1, 2, ⟨"x", 3⟩⟩
    (by decide) (by decide) (by decide) (by decide)

/-- Counterexample to C6 as stated: both operand versions of the phi are result
versions of instructions named `x` in the block's parents (both in the first
one), no instruction stands before the phi, and `fixup_phis` replaces the phi
by a read of `(x, 1)`. -/
theorem fixup_phis_both_operands_live_counterexample :
    definedInParents [[Object.number 9 ⟨"x", 1⟩, Object.number 10 ⟨"x", 2⟩],
        [Object.number 1 ⟨"y", 1⟩]] "x" 1 ∧
    definedInParents [[Object.number 9 ⟨"x", 1⟩, Object.number 10 ⟨"x", 2⟩],
        [Object.number 1 ⟨"y", 1⟩]] "x" 2 ∧
    (fixup_phis ⟨[.phi ⟨1, 2, ⟨"x", 3⟩⟩],
        [[.number 9 ⟨"x", 1⟩, .number 10 ⟨"x", 2⟩],
          [.number 1 ⟨"y", 1⟩]]⟩).2.instructions =
      [.identifier "x" 1 ⟨"x", 3⟩] := by
  decide

/-- C7, as the code has it: after `fixup_phis` has run on a block, every `Phi`
still present either has its left and its right operand version defined by
same-named instructions located in two distinct parents of the block, or has
neither operand version defined by a same-named instruction of any parent. -/
theorem fixup_phis_surviving_phi (block : BasicBlock) (i : Nat) (p : Phi)
    (hout : (fixup_phis block).2.instructions[i]? = some (.phi p)) :
    (∃ (j k : Nat) (pj pk : List Object), j ≠ k ∧ block.parents[j]? = some pj ∧ block.parents[k]? = some pk ∧
        definesIn pj p.var.name p.left ∧ definesIn pk p.var.name p.right) ∨
      (¬ definedInParents block.parents p.var.name p.left ∧
        ¬ definedInParents block.parents p.var.name p.right) := by
  rw [fixup_phis_getElem?] at hout
  rcases hin : block.instructions[i]? with _ | o
  · rw [hin] at hout; simp at hout
  · rw [hin] at hout
    simp only [Option.map_some', Option.some.injEq] at hout
    cases o with
    | phi p2 =>
      simp only [fixOne] at hout
      split_ifs at hout with hx1 hx2
      · simp [phiToIdentifier] at hout
      · simp [phiToIdentifier] at hout
      · have hp : p2 = p := by simpa using hout
        subst hp
        rcases hb : (scanParents p2.var.name p2.left p2.right block.parents (false, false)).1
        · have hb2 : (scanParents p2.var.name p2.left p2.right block.parents
              (false, false)).2 = false := by
            rw [hb] at hx1
            simpa using hx1
          exact Or.inr (scanParents_none_defined hb hb2)
        · have hb2 : (scanParents p2.var.name p2.left p2.right block.parents
              (false, false)).2 = true := by
            rw [hb] at hx1
            simpa using hx1
          obtain ⟨pa, hpa, ha⟩ := (scanParents_left_iff _ _ _ _).1 hb
          obtain ⟨pb, hpb, hb3⟩ := (scanParents_right_iff _ _ _ _).1 hb2
          obtain ⟨j, hj⟩ := List.getElem?_of_mem hpa
          obtain ⟨k, hk⟩ := List.getElem?_of_mem hpb
          refine Or.inl ⟨j, k, pa, pb, ?_, hj, hk, firstOperand_true ha, firstOperand_false hb3⟩
          rintro rfl
          rw [hj] at hk
          cases hk
          rw [ha] at hb3
          cases hb3
    | _ => simp [fixOne] at hout

/-- Witness of C7: the phi of a join whose two parents define its operands. -/
theorem fixup_phis_surviving_phi_witness :
    (∃ (j k : Nat) (pj pk : List Object), j ≠ k ∧
        [[Object.number 9 ⟨"x", 1⟩], [Object.number 10 ⟨"x", 2⟩]][j]? = some pj ∧
        [[Object.number 9 ⟨"x", 1⟩], [Object.number 10 ⟨"x", 2⟩]][k]? = some pk ∧
        definesIn pj "x" 1 ∧ definesIn pk "x" 2) ∨
      (¬ definedInParents [[Object.number 9 ⟨"x", 1⟩], [Object.number 10 ⟨"x", 2⟩]] "x" 1 ∧
        ¬ definedInParents [[Object.number 9 ⟨"x", 1⟩], [Object.number 10 ⟨"x", 2⟩]] "x" 2) :=
  fixup_phis_surviving_phi
    ⟨[.phi ⟨1, 2, ⟨"x", 3⟩⟩], [[.number 9 ⟨"x", 1⟩], [.number 10 ⟨"x", 2⟩]]⟩ 0
    ⟨1, 2, ⟨"x", 3⟩⟩ (by decide)

/-- Counterexample to C7 as stated: the phi of a block whose parents define no
version of `x` is still a phi after `fixup_phis`, and neither of its operands is
defined in a parent. -/
theorem fixup_phis_surviving_phi_counterexample :
    (fixup_phis ⟨[.phi ⟨1, 2, ⟨"x", 3⟩⟩],
        [[.number 1 ⟨"y", 1⟩], [.number 2 ⟨"y", 2⟩]]⟩).2.instructions[0]? =
      some (.phi ⟨1, 2, ⟨"x", 3⟩⟩) ∧
    ¬ definedInParents [[Object.number 1 ⟨"y", 1⟩], [Object.number 2 ⟨"y", 2⟩]] "x" 1 ∧
    ¬ definedInParents [[Object.number 1 ⟨"y", 1⟩], [Object.number 2 ⟨"y", 2⟩]] "x" 2 := by
  decide

/-! ## The order of `std::set<std::string>` -/

theorem ltChars_irrefl (a : List Char) : ltChars a a = false := by
  induction a with
  | nil => rfl
  | cons x xs ih => simp [ltChars, ih]

theorem ltChars_eq_of_not_lt : ∀ (a b : List Char),
    ltChars a b = false → ltChars b a = false → a = b := by
  intro a
  induction a with
  | nil =>
    intro b h1 _
    cases b with
    | nil => rfl
    | cons _ _ => simp [ltChars] at h1
  | cons x xs ih =>
    intro b h1 h2
    cases b with
    | nil => simp [ltChars] at h2
    | cons y ys =>
      simp only [ltChars] at h1 h2
      split_ifs at h1 h2 with h3 h4
      have hxy : x = y := Char.ext (UInt32.ext (by show x.toNat = y.toNat; omega))
      rw [hxy, ih ys h1 h2]

theorem ltChars_trans : ∀ (a b c : List Char),
    ltChars a b = true → ltChars b c = true → ltChars a c = true := by
  intro a
  induction a with
  | nil =>
    intro b c h1 h2
    cases c with
    | nil => cases b <;> simp [ltChars] at h2
    | cons _ _ => rfl
  | cons x xs ih =>
    intro b c h1 h2
    cases b with
    | nil => simp [ltChars] at h1
    | cons y ys =>
      cases c with
      | nil => simp [ltChars] at h2
      | cons z zs =>
        simp only [ltChars] at h1 h2 ⊢
        split_ifs at h1 h2 ⊢ <;> first | rfl | omega | exact ih ys zs h1 h2

theorem strLt_irrefl (a : String) : strLt a a = false := ltChars_irrefl _

theorem strLt_eq_of_not_lt {a b : String} (h1 : strLt a b = false) (h2 : strLt b a = false) :
    a = b := String.ext (ltChars_eq_of_not_lt _ _ h1 h2)

theorem strLt_trans {a b c : String} (h1 : strLt a b = true) (h2 : strLt b c = true) :
    strLt a c = true := ltChars_trans _ _ _ h1 h2

theorem setCount_iff (s : List String) (x : String) : setCount s x = true ↔ x ∈ s := by
  simp only [setCount, List.any_eq_true, Bool.and_eq_true, Bool.not_eq_true']
  constructor
  · rintro ⟨y, hy, h1, h2⟩
    rw [strLt_eq_of_not_lt h1 h2]; exact hy
  · intro h
    exact ⟨x, h, strLt_irrefl x, strLt_irrefl x⟩

theorem mem_setInsert (x y : String) (s : List String) :
    y ∈ setInsert x s ↔ y = x ∨ y ∈ s := by
  induction s with
  | nil => simp [setInsert]
  | cons z zs ih =>
    simp only [setInsert]
    split_ifs with h1 h2
    · simp
    · simp only [List.mem_cons, ih]; tauto
    · have hxz : x = z := strLt_eq_of_not_lt (by simpa using h1) (by simpa using h2)
      subst hxz
      simp

theorem sorted_setInsert (x : String) (s : List String)
    (hs : s.Pairwise (fun a b => strLt a b = true)) :
    (setInsert x s).Pairwise (fun a b => strLt a b = true) := by
  induction s with
  | nil => simp [setInsert]
  | cons z zs ih =>
    simp only [setInsert]
    rw [List.pairwise_cons] at hs
    split_ifs with h1 h2
    · refine List.pairwise_cons.2 ⟨?_, List.pairwise_cons.2 hs⟩
      intro b hb
      rcases List.mem_cons.1 hb with rfl | hb
      · exact h1
      · exact strLt_trans h1 (hs.1 b hb)
    · refine List.pairwise_cons.2 ⟨?_, ih hs.2⟩
      intro b hb
      rcases (mem_setInsert x b zs).1 hb with rfl | hb
      · exact h2
      · exact hs.1 b hb
    · exact List.pairwise_cons.2 hs

theorem nodup_of_sorted (s : List String) (hs : s.Pairwise (fun a b => strLt a b = true)) :
    s.Nodup := by
  refine List.Pairwise.imp ?_ hs
  intro a b hab heq
  rw [heq, strLt_irrefl] at hab
  cases hab

/-! ## The sets `all_vars` and `dominated` -/

theorem scanVarsInstrs_sorted (p : List Object) (s : List String × List String)
    (hs : s.2.Pairwise (fun a b => strLt a b = true)) :
    (scanVarsInstrs p s).2.Pairwise (fun a b => strLt a b = true) := by
  induction p generalizing s with
  | nil => exact hs
  | cons i rest ih =>
    obtain ⟨all_vars, dominated⟩ := s
    simp only [scanVarsInstrs]
    split_ifs with h1 h2
    · exact ih _ (sorted_setInsert _ _ hs)
    · exact ih _ hs
    · exact ih _ hs

theorem scanVarsParents_sorted (ps : List (List Object)) (s : List String × List String)
    (hs : s.2.Pairwise (fun a b => strLt a b = true)) :
    (scanVarsParents ps s).2.Pairwise (fun a b => strLt a b = true) := by
  induction ps generalizing s with
  | nil => exact hs
  | cons p ps ih => exact ih _ (scanVarsInstrs_sorted p s hs)

theorem scanVarsInstrs_mono (p : List Object) (s : List String × List String) (n : String) :
    (n ∈ s.1 → n ∈ (scanVarsInstrs p s).1) ∧ (n ∈ s.2 → n ∈ (scanVarsInstrs p s).2) := by
  induction p generalizing s with
  | nil => exact ⟨id, id⟩
  | cons i rest ih =>
    obtain ⟨all_vars, dominated⟩ := s
    simp only [scanVarsInstrs]
    split_ifs with h1 h2
    · exact ⟨fun h => (ih _).1 ((mem_setInsert _ _ _).2 (Or.inr h)),
        fun h => (ih _).2 ((mem_setInsert _ _ _).2 (Or.inr h))⟩
    · exact ⟨fun h => (ih _).1 ((mem_setInsert _ _ _).2 (Or.inr h)), fun h => (ih _).2 h⟩
    · exact ih (all_vars, dominated)

theorem scanVarsInstrs_all (p : List Object) (s : List String × List String) (i : Object)
    (hi : i ∈ p) (hn : i.var.toBool = true) : i.var.name ∈ (scanVarsInstrs p s).1 := by
  induction p generalizing s with
  | nil => cases hi
  | cons j rest ih =>
    obtain ⟨all_vars, dominated⟩ := s
    rcases List.mem_cons.1 hi with rfl | hi
    · simp only [scanVarsInstrs, hn, if_true]
      exact (scanVarsInstrs_mono rest _ _).1 ((mem_setInsert _ _ _).2 (Or.inl rfl))
    · simp only [scanVarsInstrs]
      split_ifs <;> exact ih _ hi

theorem scanVarsInstrs_dominated (p : List Object) (s : List String × List String) (i : Object)
    (hi : i ∈ p) (hn : i.var.toBool = true) (hall : i.var.name ∈ s.1) :
    i.var.name ∈ (scanVarsInstrs p s).2 := by
  induction p generalizing s with
  | nil => cases hi
  | cons j rest ih =>
    obtain ⟨all_vars, dominated⟩ := s
    rcases List.mem_cons.1 hi with rfl | hi
    · simp only [scanVarsInstrs, hn, if_true, (setCount_iff _ _).2 hall]
      exact (scanVarsInstrs_mono rest _ _).2 ((mem_setInsert _ _ _).2 (Or.inl rfl))
    · simp only [scanVarsInstrs]
      split_ifs <;>
        first
        | exact ih (_, _) hi ((mem_setInsert _ _ _).2 (Or.inr hall))
        | exact ih (_, _) hi hall

/-! ## The value table -/

theorem get_incr_same (t : ValueTable) (n : String) :
    (t.incr n).get n = (t.get n + 1) % U32 := by
  induction t with
  | nil => simp [ValueTable.incr, ValueTable.get]
  | cons e t ih =>
    obtain ⟨k, v⟩ := e
    simp only [ValueTable.incr]
    split_ifs with h
    · simp [ValueTable.get, h]
    · simp [ValueTable.get, h, ih]

theorem get_incr_ne (t : ValueTable) (n m : String) (h : m ≠ n) :
    (t.incr n).get m = t.get m := by
  induction t with
  | nil => simp [ValueTable.incr, ValueTable.get, Ne.symm h]
  | cons e t ih =>
    obtain ⟨k, v⟩ := e
    simp only [ValueTable.incr]
    split_ifs with h1
    · subst h1
      simp [ValueTable.get, Ne.symm h]
    · simp only [ValueTable.get, ih]

theorem bump_eq_mod (c k : Nat) : bump c (k + 1) = (c + (k + 1)) % U32 := by
  induction k with
  | zero => rfl
  | succ k ih =>
    show (bump c (k + 1) + 1) % U32 = _
    rw [ih, Nat.add_mod, Nat.mod_mod, ← Nat.add_mod]
    rfl

/-! ## The loop of `insert_phis` over the dominated names -/

/-- One iteration over a parent either leaves the value table and the pending
list alone, or increments the entry of `name` and appends one phi for `name`
carrying the incremented entry as its version. -/
theorem phiStep_cases (existing : List Phi) (name : String) (st : PhiState) (p : List Object) :
    ((phiStep existing name st p).values = st.values ∧
        (phiStep existing name st p).phis = st.phis) ∨
      ∃ l r, (phiStep existing name st p).values = st.values.incr name ∧
        (phiStep existing name st p).phis =
          st.phis ++ [.phi ⟨l, r, ⟨name, (st.values.incr name).get name⟩⟩] := by
  simp only [phiStep]
  rcases lastNamed p with _ | var
  · exact Or.inl ⟨rfl, rfl⟩
  · simp only []
    split_ifs
    · exact Or.inr ⟨_, _, rfl, rfl⟩
    · exact Or.inl ⟨rfl, rfl⟩
    · exact Or.inl ⟨rfl, rfl⟩

/-- Induction principle of the loop over the parents for one name. -/
theorem foldl_phiStep_induction (Q : ValueTable → List Object → Prop)
    (existing : List Phi) (name : String)
    (hstep : ∀ values phis l r, Q values phis →
      Q (values.incr name) (phis ++ [.phi ⟨l, r, ⟨name, (values.incr name).get name⟩⟩]))
    (ps : List (List Object)) (st : PhiState) (h : Q st.values st.phis) :
    Q (ps.foldl (phiStep existing name) st).values (ps.foldl (phiStep existing name) st).phis := by
  induction ps generalizing st with
  | nil => exact h
  | cons p ps ih =>
    simp only [List.foldl_cons]
    apply ih
    rcases phiStep_cases existing name st p with ⟨h1, h2⟩ | ⟨l, r, h1, h2⟩
    · rw [h1, h2]; exact h
    · rw [h1, h2]; exact hstep _ _ _ _ h

/-- Induction principle of `compute_phis`: a property of the value table and
the pending list that holds at the start and is kept by every insertion of a
phi holds at the end. -/
theorem compute_phis_induction (Q : ValueTable → List Object → Prop)
    (hstep : ∀ values phis name l r, Q values phis →
      Q (values.incr name) (phis ++ [.phi ⟨l, r, ⟨name, (values.incr name).get name⟩⟩]))
    (block : BasicBlock) (values : ValueTable) (h : Q values []) :
    Q (compute_phis block values).1 (compute_phis block values).2 := by
  simp only [compute_phis]
  generalize (scanVarsParents block.parents ([], [])).2 = names
  have key : ∀ (acc : ValueTable × List Object), Q acc.1 acc.2 →
      Q (names.foldl (phisForName (existing_phis block.instructions) block.parents) acc).1
        (names.foldl (phisForName (existing_phis block.instructions) block.parents) acc).2 := by
    induction names with
    | nil => intro acc hacc; exact hacc
    | cons name names ih =>
      intro acc hacc
      simp only [List.foldl_cons]
      apply ih
      simp only [phisForName]
      exact foldl_phiStep_induction Q _ name (fun v ph l r hq => hstep v ph name l r hq)
        block.parents ⟨0, acc.1, acc.2⟩ hacc
  exact key (values, []) h

/-! ## Fresh versions -/

theorem phisNamed_append (n : String) (a b : List Object) :
    phisNamed n (a ++ b) = phisNamed n a ++ phisNamed n b := by
  simp [phisNamed]

/-- The versions of the pending phis of one name and the entry of that name in
the value table, in terms of the counter `bump`. -/
theorem compute_phis_fresh (block : BasicBlock) (values : ValueTable) (n : String) :
    (phisNamed n (compute_phis block values).2).map (fun o => o.var.version) =
        (List.range (phisNamed n (compute_phis block values).2).length).map
          (fun j => bump (values.get n) (j + 1)) ∧
      (compute_phis block values).1.get n =
        bump (values.get n) (phisNamed n (compute_phis block values).2).length ∧
      ∀ o ∈ (compute_phis block values).2, o.isPhi = true := by
  refine compute_phis_induction
    (fun v ph => (phisNamed n ph).map (fun o => o.var.version) =
        (List.range (phisNamed n ph).length).map (fun j => bump (values.get n) (j + 1)) ∧
      v.get n = bump (values.get n) (phisNamed n ph).length ∧
      ∀ o ∈ ph, o.isPhi = true) ?_ block values ?_
  · rintro v ph name l r ⟨h1, h2, h3⟩
    have h3n : ∀ o ∈ ph ++ [Object.phi ⟨l, r, ⟨name, (v.incr name).get name⟩⟩],
        o.isPhi = true := by
      intro o ho
      rcases List.mem_append.1 ho with ho | ho
      · exact h3 o ho
      · rw [List.mem_singleton.1 ho]; rfl
    by_cases hn : name = n
    · subst hn
      have hf : phisNamed name [Object.phi ⟨l, r, ⟨name, (v.incr name).get name⟩⟩] =
          [Object.phi ⟨l, r, ⟨name, (v.incr name).get name⟩⟩] := by
        simp [phisNamed, Object.var]
      refine ⟨?_, ?_, h3n⟩
      · rw [phisNamed_append, hf, List.map_append, h1, List.length_append, List.length_singleton,
          List.range_succ, List.map_append]
        simp only [List.map_cons, List.map_nil, Object.var, get_incr_same, h2, bump,
          List.length_map, List.length_range]
      · rw [phisNamed_append, hf, List.length_append, List.length_singleton, get_incr_same, h2]
        rfl
    · have hf : phisNamed n [Object.phi ⟨l, r, ⟨name, (v.incr name).get name⟩⟩] = [] := by
        simp [phisNamed, Object.var, hn]
      refine ⟨?_, ?_, h3n⟩
      · rw [phisNamed_append, hf, List.append_nil]; exact h1
      · rw [phisNamed_append, hf, List.append_nil, get_incr_ne _ _ _ (Ne.symm hn)]; exact h2
  · simp [phisNamed, bump]

/-- The block after `insert_phis` is the pending list followed by the block's
previous instructions. -/
theorem insert_phis_instructions (block : BasicBlock) (values : ValueTable) :
    (insert_phis block values).2.1.instructions =
      inserted_phis block values ++ block.instructions := by
  simp only [insert_phis, inserted_phis]
  split_ifs with h1 h2
  · rfl
  · rw [List.isEmpty_iff.1 h2]; rfl
  · rfl

/-- The value table after `insert_phis`. -/
theorem insert_phis_values (block : BasicBlock) (values : ValueTable) :
    (insert_phis block values).2.2 =
      if block.parents.isEmpty || is_strictly_dominated block then values
      else (compute_phis block values).1 := by
  simp only [insert_phis]
  split_ifs <;> rfl

/-- The versions of the inserted phis of one name and the entry of that name
after `insert_phis`, in terms of the counter `bump`. -/
theorem insert_phis_fresh (block : BasicBlock) (values : ValueTable) (n : String) :
    (phisNamed n (inserted_phis block values)).map (fun o => o.var.version) =
        (List.range (phisNamed n (inserted_phis block values)).length).map
          (fun j => bump (values.get n) (j + 1)) ∧
      (insert_phis block values).2.2.get n =
        bump (values.get n) (phisNamed n (inserted_phis block values)).length ∧
      ∀ o ∈ inserted_phis block values, o.isPhi = true := by
  rw [insert_phis_values]
  simp only [inserted_phis]
  split_ifs with h
  · simp [phisNamed, bump]
  · exact compute_phis_fresh block values n

/-- C10: `insert_phis` issues fresh versions. With `c` the entry of `n` in the
value table before the call (0 when absent) and `k` the number of phis inserted
for `n`, those phis carry, in insertion order, the versions `c+1, ..., c+k` of
`uint32_t` arithmetic, and the entry of `n` is `c+k` afterwards, unchanged when
no phi is inserted for `n`; the sums are the plain ones when `c + k` fits in a
`uint32_t`. The inserted phis are the head of the block after the call. -/
theorem insert_phis_fresh_versions (block : BasicBlock) (values : ValueTable) (n : String) :
    (insert_phis block values).2.1.instructions =
        inserted_phis block values ++ block.instructions ∧
      (∀ o ∈ inserted_phis block values, o.isPhi = true) ∧
      (phisNamed n (inserted_phis block values)).map (fun o => o.var.version) =
        (List.range (phisNamed n (inserted_phis block values)).length).map
          (fun j => (values.get n + (j + 1)) % U32) ∧
      (insert_phis block values).2.2.get n =
        (if (phisNamed n (inserted_phis block values)).length = 0 then values.get n
          else (values.get n + (phisNamed n (inserted_phis block values)).length) % U32) ∧
      (values.get n + (phisNamed n (inserted_phis block values)).length < U32 →
        (phisNamed n (inserted_phis block values)).map (fun o => o.var.version) =
            (List.range (phisNamed n (inserted_phis block values)).length).map
              (fun j => values.get n + (j + 1)) ∧
          (insert_phis block values).2.2.get n =
            values.get n + (phisNamed n (inserted_phis block values)).length) := by
  obtain ⟨h1, h2, h3⟩ := insert_phis_fresh block values n
  have hmap : (List.range (phisNamed n (inserted_phis block values)).length).map
        (fun j => bump (values.get n) (j + 1)) =
      (List.range (phisNamed n (inserted_phis block values)).length).map
        (fun j => (values.get n + (j + 1)) % U32) :=
    List.map_congr_left (fun j _ => bump_eq_mod _ _)
  have hget : (insert_phis block values).2.2.get n =
      (if (phisNamed n (inserted_phis block values)).length = 0 then values.get n
        else (values.get n + (phisNamed n (inserted_phis block values)).length) % U32) := by
    rw [h2]
    rcases (phisNamed n (inserted_phis block values)).length with _ | k
    · rfl
    · rw [bump_eq_mod]; simp
  refine ⟨insert_phis_instructions block values, h3, h1.trans hmap, hget, ?_⟩
  intro hlt
  constructor
  · rw [h1, hmap]
    refine List.map_congr_left (fun j hj => ?_)
    have := List.mem_range.1 hj
    exact Nat.mod_eq_of_lt (by omega)
  · rw [hget]
    split_ifs with h0
    · rw [h0]; rfl
    · exact Nat.mod_eq_of_lt hlt

/-! ## The number of phis of one name -/

theorem existing_phis_nil (instrs : List Object) (h : ∀ o ∈ instrs, o.isPhi = false) :
    existing_phis instrs = [] := by
  induction instrs with
  | nil => rfl
  | cons i rest ih =>
    have hi := h i (List.mem_cons_self _ _)
    have hr := ih (fun o ho => h o (List.mem_cons_of_mem _ ho))
    cases i <;> simp_all [existing_phis, Object.isPhi]

theorem lastNamed_of_named (p : List Object) (i : Object) (hi : i ∈ p)
    (hn : i.var.toBool = true) :
    ∃ j ∈ p, j.var.toBool = true ∧ lastNamed p = some j.var := by
  simp only [lastNamed]
  rcases h : p.reverse.find? (fun i => i.var.toBool) with _ | j
  · have := List.find?_eq_none.1 h i (List.mem_reverse.2 hi)
    simp [hn] at this
  · exact ⟨j, List.mem_reverse.1 (List.mem_of_find?_eq_some h),
      by simpa using List.find?_some h, by rw [h]; rfl⟩

/-- The pending phis of the name `n` are not touched by the iteration for
another name. -/
theorem phisForName_other (existing : List Phi) (ps : List (List Object))
    (acc : ValueTable × List Object) (name n : String) (h : name ≠ n) :
    phisNamed n (phisForName existing ps acc name).2 = phisNamed n acc.2 := by
  simp only [phisForName]
  refine foldl_phiStep_induction (fun _ ph => phisNamed n ph = phisNamed n acc.2)
    existing name ?_ ps ⟨0, acc.1, acc.2⟩ rfl
  intro v ph l r hq
  rw [phisNamed_append, hq]
  simp [phisNamed, Object.var, h]

theorem foldl_phisForName_other (existing : List Phi) (ps : List (List Object))
    (names : List String) (n : String) (h : n ∉ names) (acc : ValueTable × List Object) :
    phisNamed n (names.foldl (phisForName existing ps) acc).2 = phisNamed n acc.2 := by
  induction names generalizing acc with
  | nil => rfl
  | cons name names ih =>
    simp only [List.foldl_cons]
    rw [ih (fun hm => h (List.mem_cons_of_mem _ hm))]
    exact phisForName_other existing ps acc name n
      (fun he => h (he ▸ List.mem_cons_self _ _))

/-- With two parents that both hold a named instruction, no phi in the block,
and a non-zero version in the first parent, the iteration for a name appends
exactly one phi. -/
theorem phisForName_two_parents (p1 p2 : List Object) (acc : ValueTable × List Object)
    (n : String) (i1 i2 : Object) (h1 : i1 ∈ p1) (hn1 : i1.var.toBool = true)
    (h2 : i2 ∈ p2) (hn2 : i2.var.toBool = true)
    (hver : ∀ i ∈ p1, i.var.toBool = true → i.var.version ≠ 0) :
    ∃ l r v, (phisForName [] [p1, p2] acc n).2 = acc.2 ++ [.phi ⟨l, r, ⟨n, v⟩⟩] := by
  obtain ⟨j1, hj1, hjn1, hl1⟩ := lastNamed_of_named p1 i1 h1 hn1
  obtain ⟨j2, _, _, hl2⟩ := lastNamed_of_named p2 i2 h2 hn2
  have hv1 := hver j1 hj1 hjn1
  refine ⟨j1.var.version, j2.var.version, (acc.1.incr n).get n, ?_⟩
  simp [phisForName, phiStep, hl1, hl2, hv1, phiCount]

theorem dominated_of_two_parents (p1 p2 : List Object) (n : String) (i1 i2 : Object)
    (h1 : i1 ∈ p1) (hn1 : i1.var.toBool = true) (he1 : i1.var.name = n)
    (h2 : i2 ∈ p2) (hn2 : i2.var.toBool = true) (he2 : i2.var.name = n) :
    n ∈ (scanVarsParents [p1, p2] ([], [])).2 := by
  simp only [scanVarsParents]
  have ha := scanVarsInstrs_all p1 ([], []) i1 h1 hn1
  rw [he1, ← he2] at ha
  have := scanVarsInstrs_dominated p2 (scanVarsInstrs p1 ([], [])) i2 h2 hn2 ha
  rw [he2] at this
  exact this

/-- C8, as the code has it: after `insert_phis` runs on a block that has exactly
two parents and contains no phi, the named instructions of the first parent
carrying non-zero versions, for every name `n` defined in both parents the
block contains exactly one phi whose result name is `n`. -/
theorem insert_phis_exactly_one_phi (block : BasicBlock) (values : ValueTable)
    (p1 p2 : List Object) (n : String)
    (hparents : block.parents = [p1, p2])
    (hnophi : ∀ o ∈ block.instructions, o.isPhi = false)
    (hn : n ≠ "")
    (h1 : ∃ i ∈ p1, i.var.name = n) (h2 : ∃ i ∈ p2, i.var.name = n)
    (hver : ∀ i ∈ p1, i.var.toBool = true → i.var.version ≠ 0) :
    ((insert_phis block values).2.1.instructions.filter
      (fun o => o.isPhi && decide (o.var.name = n))).length = 1 := by
  obtain ⟨i1, hi1, he1⟩ := h1
  obtain ⟨i2, hi2, he2⟩ := h2
  have hn1 : i1.var.toBool = true := by simp [Variable.toBool, he1, hn]
  have hn2 : i2.var.toBool = true := by simp [Variable.toBool, he2, hn]
  have hblock : block.instructions.filter (fun o => o.isPhi && decide (o.var.name = n)) = [] := by
    rw [List.filter_eq_nil_iff]
    intro o ho
    simp [hnophi o ho]
  have hins : (inserted_phis block values).filter (fun o => o.isPhi && decide (o.var.name = n)) =
      phisNamed n (inserted_phis block values) := by
    simp only [phisNamed]
    refine List.filter_congr (fun o ho => ?_)
    rw [(insert_phis_fresh block values n).2.2 o ho]
    simp
  rw [insert_phis_instructions, List.filter_append, hblock, List.append_nil, hins]
  have hguard : (block.parents.isEmpty || is_strictly_dominated block) = false := by
    simp [hparents, is_strictly_dominated]
  simp only [inserted_phis, hguard, Bool.false_eq_true, if_false]
  simp only [compute_phis, hparents, existing_phis_nil _ hnophi]
  have hmem := dominated_of_two_parents p1 p2 n i1 i2 hi1 hn1 he1 hi2 hn2 he2
  have hnd := nodup_of_sorted _ (scanVarsParents_sorted [p1, p2] ([], []) List.Pairwise.nil)
  obtain ⟨s, t, hst⟩ := List.append_of_mem hmem
  rw [hst] at hnd ⊢
  have hs : n ∉ s := by
    intro hm
    exact (List.nodup_append.1 hnd).2.2 hm (List.mem_cons_self _ _)
  have ht : n ∉ t := (List.nodup_cons.1 (List.nodup_append.1 hnd).2.1).1
  rw [List.foldl_append, List.foldl_cons, foldl_phisForName_other _ _ t n ht]
  obtain ⟨l, r, v, hone⟩ := phisForName_two_parents p1 p2
    (s.foldl (phisForName [] [p1, p2]) (values, [])) n i1 i2 hi1 hn1 hi2 hn2 hver
  rw [hone, phisNamed_append, foldl_phisForName_other _ _ s n hs]
  simp [phisNamed, Object.var]

/-- Witness of C8: the join of a conditional whose two branches assign `x`. -/
theorem insert_phis_exactly_one_phi_witness :
    ((insert_phis ⟨[.identifier "x" 0 ⟨"y", 1⟩],
        [[.number 9 ⟨"x", 1⟩], [.number 10 ⟨"x", 2⟩]]⟩ [("x", 2), ("y", 1)]).2.1.instructions.filter
      (fun o => o.isPhi && decide (o.var.name = "x"))).length = 1 :=
  insert_phis_exactly_one_phi
    ⟨[.identifier "x" 0 ⟨"y", 1⟩], [[.number 9 ⟨"x", 1⟩], [.number 10 ⟨"x", 2⟩]]⟩
    [("x", 2), ("y", 1)] [.number 9 ⟨"x", 1⟩] [.number 10 ⟨"x", 2⟩] "x"
    rfl (by decide) (by decide) (by decide) (by decide) (by decide)

/-- Counterexample to C8 as stated: with three parents that each define `x`, a
block without phis holds two phis named `x` after `insert_phis`, the second
one reading the first. -/
theorem insert_phis_exactly_one_phi_counterexample :
    (insert_phis ⟨[], [[.number 9 ⟨"x", 1⟩], [.number 10 ⟨"x", 2⟩], [.number 11 ⟨"x", 3⟩]]⟩
        [("x", 3)]).2.1.instructions =
      [.phi ⟨1, 2, ⟨"x", 4⟩⟩, .phi ⟨4, 3, ⟨"x", 5⟩⟩] ∧
    ((insert_phis ⟨[], [[.number 9 ⟨"x", 1⟩], [.number 10 ⟨"x", 2⟩], [.number 11 ⟨"x", 3⟩]]⟩
        [("x", 3)]).2.1.instructions.filter
      (fun o => o.isPhi && decide (o.var.name = "x"))).length = 2 := by
  decide

/-! ## `insert_phis` on concrete blocks -/

/-- C1, the code at a failing input. The first parent defines `x` at version 1
and then `y` at versions 1 and 2, the second parent `x` at version 2 and then
`y` at version 3. The last definitions of `x` are versions 1 and 2, yet the phi
inserted for `x` has operands `(2, 3)`, the versions of the last instruction of
each parent, which defines `y`. -/
theorem insert_phis_operands_ignore_name :
    (nearestBefore "x" [Object.number 9 ⟨"x", 1⟩, .number 1 ⟨"y", 1⟩,
        .number 2 ⟨"y", 2⟩]).map (fun o => o.var.version) = some 1 ∧
    (nearestBefore "x" [Object.number 10 ⟨"x", 2⟩,
        .number 3 ⟨"y", 3⟩]).map (fun o => o.var.version) = some 2 ∧
    (insert_phis
        ⟨[], [[.number 9 ⟨"x", 1⟩, .number 1 ⟨"y", 1⟩, .number 2 ⟨"y", 2⟩],
          [.number 10 ⟨"x", 2⟩, .number 3 ⟨"y", 3⟩]]⟩
        [("x", 2), ("y", 3)]).2.1.instructions =
      [.phi ⟨2, 3, ⟨"x", 3⟩⟩, .phi ⟨2, 3, ⟨"y", 4⟩⟩] := by
  decide

/-- C2, the code at a failing input. The name `x` is defined twice in the first
parent and not at all in the second, which defines `y` only; `insert_phis`
still returns true and inserts a phi named `x`, whose right operand is the
version of `y`. -/
theorem insert_phis_single_parent_name :
    (¬ ∃ i ∈ [Object.number 1 ⟨"y", 1⟩], i.var.name = "x") ∧
    (insert_phis
        ⟨[], [[.number 9 ⟨"x", 1⟩, .number 10 ⟨"x", 2⟩], [.number 1 ⟨"y", 1⟩]]⟩
        [("x", 2), ("y", 1)]).1 = true ∧
    (insert_phis
        ⟨[], [[.number 9 ⟨"x", 1⟩, .number 10 ⟨"x", 2⟩], [.number 1 ⟨"y", 1⟩]]⟩
        [("x", 2), ("y", 1)]).2.1.instructions =
      [.phi ⟨2, 1, ⟨"x", 3⟩⟩] := by
  decide

/-- C9, the code at a failing input. A block with three parents that each define
`x`: the first call inserts the phis `(1, 2)` and `(4, 3)`; the second call, the
parents unchanged, finds `(1, 2)` present, keeps `last = 1`, builds the new
candidate `(1, 3)`, inserts it, advances the value table and returns true. -/
theorem insert_phis_second_sweep :
    insert_phis
        ⟨[], [[.number 9 ⟨"x", 1⟩], [.number 10 ⟨"x", 2⟩], [.number 11 ⟨"x", 3⟩]]⟩
        [("x", 3)] =
      (true,
        ⟨[.phi ⟨1, 2, ⟨"x", 4⟩⟩, .phi ⟨4, 3, ⟨"x", 5⟩⟩],
          [[.number 9 ⟨"x", 1⟩], [.number 10 ⟨"x", 2⟩], [.number 11 ⟨"x", 3⟩]]⟩,
        [("x", 5)]) ∧
    insert_phis
        ⟨[.phi ⟨1, 2, ⟨"x", 4⟩⟩, .phi ⟨4, 3, ⟨"x", 5⟩⟩],
          [[.number 9 ⟨"x", 1⟩], [.number 10 ⟨"x", 2⟩], [.number 11 ⟨"x", 3⟩]]⟩
        [("x", 5)] =
      (true,
        ⟨[.phi ⟨1, 3, ⟨"x", 6⟩⟩, .phi ⟨1, 2, ⟨"x", 4⟩⟩, .phi ⟨4, 3, ⟨"x", 5⟩⟩],
          [[.number 9 ⟨"x", 1⟩], [.number 10 ⟨"x", 2⟩], [.number 11 ⟨"x", 3⟩]]⟩,
        [("x", 6)]) := by
  decide

/-! ## A second sweep over a block with two parents -/

theorem phisForName_two (existing : List Phi) (p1 p2 : List Object)
    (acc : ValueTable × List Object) (name : String) :
    phisForName existing [p1, p2] acc name =
      match candidate2 p1 p2 with
      | none => acc
      | some c =>
        if phiCount existing ⟨c.1, c.2, ⟨name, 0⟩⟩ then acc
        else (acc.1.incr name,
          acc.2 ++ [.phi ⟨c.1, c.2, ⟨name, (acc.1.incr name).get name⟩⟩]) := by
  simp only [phisForName, candidate2, List.foldl_cons, List.foldl_nil, phiStep]
  rcases lastNamed p1 with _ | v1 <;> rcases lastNamed p2 with _ | v2 <;> simp
  · by_cases h0 : v1.version = 0
    · simp [h0]
    · simp only [h0, not_false_eq_true, if_true]
      by_cases hc : phiCount existing ⟨v1.version, v2.version, ⟨name, 0⟩⟩ = true
      · simp [hc]
      · simp [hc]

theorem phiCount_of_mem (existing : List Phi) (a b : Nat) (name : String) (ver : Nat)
    (h : (⟨a, b, ⟨name, ver⟩⟩ : Phi) ∈ existing) :
    phiCount existing ⟨a, b, ⟨name, 0⟩⟩ = true := by
  simp only [phiCount, List.any_eq_true]
  exact ⟨_, h, by simp [Phi.lt, strLt_irrefl]⟩

theorem phiCount_append_right (e1 e2 : List Phi) (c : Phi) (h : phiCount e2 c = true) :
    phiCount (e1 ++ e2) c = true := by
  simp only [phiCount, List.any_append, Bool.or_eq_true] at h ⊢
  exact Or.inr h

theorem phiCount_append_left (e1 e2 : List Phi) (c : Phi) (h : phiCount e1 c = true) :
    phiCount (e1 ++ e2) c = true := by
  simp only [phiCount, List.any_append, Bool.or_eq_true] at h ⊢
  exact Or.inl h

theorem existing_phis_append (a b : List Object) :
    existing_phis (a ++ b) = existing_phis a ++ existing_phis b := by
  induction a with
  | nil => rfl
  | cons i rest ih => cases i <;> simp [existing_phis, ih]

theorem mem_existing_phis (l : List Object) (p : Phi) (h : Object.phi p ∈ l) :
    p ∈ existing_phis l := by
  induction l with
  | nil => cases h
  | cons i rest ih =>
    rcases List.mem_cons.1 h with rfl | h2
    · simp [existing_phis]
    · have hr := ih h2
      cases i <;> simp [existing_phis, hr]

/-- After the loop over the names of a block with two parents, the pending list
extends the one it started from, and every name of the loop whose candidate was
not in the block has a phi with the candidate's operands in the pending list. -/
theorem foldl_phisForName_two (existing : List Phi) (p1 p2 : List Object)
    (names : List String) (acc : ValueTable × List Object) :
    (∀ o ∈ acc.2, o ∈ (names.foldl (phisForName existing [p1, p2]) acc).2) ∧
      ∀ name ∈ names, ∀ c, candidate2 p1 p2 = some c →
        phiCount existing ⟨c.1, c.2, ⟨name, 0⟩⟩ = false →
        ∃ ver, Object.phi ⟨c.1, c.2, ⟨name, ver⟩⟩ ∈
          (names.foldl (phisForName existing [p1, p2]) acc).2 := by
  induction names generalizing acc with
  | nil => exact ⟨fun o ho => ho, fun name hn => by cases hn⟩
  | cons nm names ih =>
    simp only [List.foldl_cons]
    obtain ⟨ih1, ih2⟩ := ih (phisForName existing [p1, p2] acc nm)
    have hsub : ∀ o ∈ acc.2, o ∈ (phisForName existing [p1, p2] acc nm).2 := by
      intro o ho
      rw [phisForName_two]
      rcases candidate2 p1 p2 with _ | c
      · exact ho
      · simp only []
        split_ifs
        · exact ho
        · exact List.mem_append_left _ ho
    refine ⟨fun o ho => ih1 o (hsub o ho), ?_⟩
    intro name hn c hc hcount
    rcases List.mem_cons.1 hn with rfl | hn
    · refine ⟨((acc.1.incr name).get name), ih1 _ ?_⟩
      rw [phisForName_two, hc]
      simp [hcount]
    · exact ih2 name hn c hc hcount

/-- The loop over the names leaves the value table and the pending list alone
when every candidate is already in the block. -/
theorem foldl_phisForName_skip (existing : List Phi) (p1 p2 : List Object)
    (names : List String) (acc : ValueTable × List Object)
    (h : ∀ name ∈ names, ∀ c, candidate2 p1 p2 = some c →
      phiCount existing ⟨c.1, c.2, ⟨name, 0⟩⟩ = true) :
    names.foldl (phisForName existing [p1, p2]) acc = acc := by
  induction names generalizing acc with
  | nil => rfl
  | cons nm names ih =>
    simp only [List.foldl_cons]
    have hstep : phisForName existing [p1, p2] acc nm = acc := by
      rw [phisForName_two]
      rcases hc : candidate2 p1 p2 with _ | c
      · rfl
      · simp [h nm (List.mem_cons_self _ _) c hc]
    rw [hstep]
    exact ih acc (fun name hn => h name (List.mem_cons_of_mem _ hn))

/-- The value table is untouched when the pending list stays empty. -/
theorem compute_phis_values_of_nil (block : BasicBlock) (values : ValueTable)
    (h : (compute_phis block values).2 = []) : (compute_phis block values).1 = values := by
  have key := compute_phis_induction (fun v ph => ph = [] → v = values)
    (fun v ph name l r _ hnil => by simp at hnil) block values (fun _ => rfl)
  exact key h

/-- At a block with exactly two parents a second call of `insert_phis`, the
parents unchanged, returns false and leaves the block and the value table as
the first call left them. -/
theorem insert_phis_twice_two_parents (block : BasicBlock) (values : ValueTable)
    (p1 p2 : List Object) (hparents : block.parents = [p1, p2]) :
    insert_phis (insert_phis block values).2.1 (insert_phis block values).2.2 =
      (false, (insert_phis block values).2.1, (insert_phis block values).2.2) := by
  have hguard : (block.parents.isEmpty || is_strictly_dominated block) = false := by
    simp [hparents, is_strictly_dominated]
  have hfirst : (insert_phis block values).2.1 =
        ⟨(compute_phis block values).2 ++ block.instructions, [p1, p2]⟩ ∧
      (insert_phis block values).2.2 = (compute_phis block values).1 := by
    simp only [insert_phis, hguard, Bool.false_eq_true, if_false]
    split_ifs with h
    · rw [List.isEmpty_iff.1 h]
      cases block
      simp_all
    · cases block
      simp_all
  rw [hfirst.1, hfirst.2]
  have hskip : compute_phis ⟨(compute_phis block values).2 ++ block.instructions, [p1, p2]⟩
      (compute_phis block values).1 = ((compute_phis block values).1, []) := by
    simp only [compute_phis]
    apply foldl_phisForName_skip
    intro name hn c hc
    rw [existing_phis_append]
    by_cases hcount : phiCount (existing_phis block.instructions) ⟨c.1, c.2, ⟨name, 0⟩⟩ = true
    · exact phiCount_append_right _ _ _ hcount
    · obtain ⟨ver, hver⟩ := (foldl_phisForName_two (existing_phis block.instructions) p1 p2
        (scanVarsParents [p1, p2] ([], [])).2 (values, [])).2 name hn c hc
        (by simpa using hcount)
      apply phiCount_append_left
      apply phiCount_of_mem _ _ _ _ ver
      apply mem_existing_phis
      rw [hparents]
      exact hver
  simp only [insert_phis, is_strictly_dominated, List.isEmpty_cons, List.length_cons,
    List.length_nil, Bool.false_or]
  rw [hskip]
  simp

/-! ## Progress and frame of `insert_phis` -/

theorem insert_phis_flag (block : BasicBlock) (values : ValueTable) :
    (insert_phis block values).1 = !(inserted_phis block values).isEmpty := by
  simp only [insert_phis, inserted_phis]
  split_ifs with h1 h2
  · rfl
  · simp [h2]
  · simp [h2]

theorem insert_phis_parents (block : BasicBlock) (values : ValueTable) :
    (insert_phis block values).2.1.parents = block.parents := by
  simp only [insert_phis]
  split_ifs <;> rfl

theorem insert_phis_of_nil (block : BasicBlock) (values : ValueTable)
    (h : inserted_phis block values = []) :
    (insert_phis block values).2.1 = block ∧ (insert_phis block values).2.2 = values := by
  simp only [inserted_phis] at h
  simp only [insert_phis]
  split_ifs at h ⊢ with h1 h2
  · exact ⟨rfl, rfl⟩
  · exact ⟨rfl, compute_phis_values_of_nil block values h⟩
  · simp [h] at h2

/-- C11: `insert_phis` returns true if and only if it inserted at least one phi
into the block, that is, if and only if the pending list it splices is not
empty, or again if and only if the instruction list has grown; whenever it
returns false the block and the value table are unchanged. -/
theorem insert_phis_progress_iff (block : BasicBlock) (values : ValueTable) :
    ((insert_phis block values).1 = true ↔ inserted_phis block values ≠ []) ∧
      ((insert_phis block values).1 = true ↔
        block.instructions.length < (insert_phis block values).2.1.instructions.length) ∧
      ((insert_phis block values).1 = false →
        (insert_phis block values).2.1 = block ∧ (insert_phis block values).2.2 = values) := by
  have hflag := insert_phis_flag block values
  have hiff : (insert_phis block values).1 = true ↔ inserted_phis block values ≠ [] := by
    rw [hflag]
    cases inserted_phis block values <;> simp
  refine ⟨hiff, ?_, ?_⟩
  · rw [hiff, insert_phis_instructions, List.length_append]
    cases inserted_phis block values <;> simp
  · intro hfalse
    apply insert_phis_of_nil
    by_contra hne
    rw [hiff.2 hne] at hfalse
    cases hfalse

/-- C13: `insert_phis` splices at the head. The instruction list after the call
is the pending list of newly created phis, in creation order, followed by the
block's previous instruction list; every spliced instruction is a phi, and the
parents are not modified. -/
theorem insert_phis_splices_at_head (block : BasicBlock) (values : ValueTable) :
    (insert_phis block values).2.1.instructions =
        inserted_phis block values ++ block.instructions ∧
      (∀ o ∈ inserted_phis block values, o.isPhi = true) ∧
      (∀ i, i < block.instructions.length →
        (insert_phis block values).2.1.instructions[(inserted_phis block values).length + i]? =
          block.instructions[i]?) ∧
      (insert_phis block values).2.1.parents = block.parents := by
  refine ⟨insert_phis_instructions block values, (insert_phis_fresh block values "").2.2, ?_,
    insert_phis_parents block values⟩
  intro i _
  rw [insert_phis_instructions, List.getElem?_append_right (Nat.le_add_right _ _)]
  simp

/-! ## Progress of `fixup_phis` -/

theorem phiToIdentifier_ne_phi (p q : Phi) (b : Bool) : phiToIdentifier p b ≠ .phi q := by
  simp [phiToIdentifier]

/-- At one place `fixup_phis` either keeps the instruction or turns a phi into
an `Identifier`. -/
theorem fixOne_cases (parents : List (List Object)) (before : List Object) (o : Object) :
    fixOne parents before o = o ∨
      ∃ p b, o = .phi p ∧ fixOne parents before o = phiToIdentifier p b := by
  cases o with
  | phi p =>
    simp only [fixOne]
    split_ifs
    · exact Or.inr ⟨p, _, rfl, rfl⟩
    · exact Or.inr ⟨p, _, rfl, rfl⟩
    · exact Or.inl rfl
  | _ => exact Or.inl rfl

/-- The flag the loop of `fixup_phis` returns: it is set when it was set
before or when some place of `rest` is changed. -/
theorem fixupLoop_flag (parents : List (List Object)) :
    ∀ (rest done before : List Object) (progress : Bool),
      done.map Object.var = before.map Object.var →
      ((fixupLoop parents done rest progress).1 = true ↔
        progress = true ∨ fixList parents before rest ≠ rest) := by
  intro rest
  induction rest with
  | nil => intro done before progress _; simp [fixupLoop, fixList]
  | cons i rest ih =>
    intro done before progress h
    have hs : ∀ o : Object, o.var = i.var →
        (done ++ [o]).map Object.var = (before ++ [i]).map Object.var := by
      intro o ho
      simp [h, ho]
    cases i with
    | phi p =>
      have hc := scanBlock_congr p.var.name p.left p.right done before
        (scanParents p.var.name p.left p.right parents (false, false)) h
      simp only [fixupLoop, fixList, fixOne, hc]
      split_ifs
      · rw [ih _ _ _ (hs _ (phiToIdentifier_var _ _))]
        simp [phiToIdentifier_ne_phi]
      · rw [ih _ _ _ (hs _ (phiToIdentifier_var _ _))]
        simp [phiToIdentifier_ne_phi]
      · rw [ih _ _ _ (hs _ rfl)]
        simp
    | _ =>
      simp only [fixupLoop, fixList, fixOne]
      rw [ih _ _ _ (hs _ rfl)]
      simp

theorem fixList_length (parents : List (List Object)) :
    ∀ (rest before : List Object), (fixList parents before rest).length = rest.length := by
  intro rest
  induction rest with
  | nil => intro before; rfl
  | cons o rest ih => intro before; simp [fixList, ih]

/-- C12: `fixup_phis` returns true if and only if it replaced at least one phi
by an `Identifier`, that is, if and only if at some position the block held a
phi before the call and holds, after it, an `Identifier` that reads one of the
phi's operands under the phi's name and keeps the phi's variable; whenever it
returns false the instruction list is unchanged. -/
theorem fixup_phis_progress_iff (block : BasicBlock) :
    ((fixup_phis block).1 = true ↔
        ∃ (i : Nat) (p : Phi) (v : Nat), block.instructions[i]? = some (.phi p) ∧
          (v = p.left ∨ v = p.right) ∧
          (fixup_phis block).2.instructions[i]? = some (.identifier p.var.name v p.var)) ∧
      ((fixup_phis block).1 = false →
        (fixup_phis block).2.instructions = block.instructions) := by
  have hflag : (fixup_phis block).1 = true ↔
      fixList block.parents [] block.instructions ≠ block.instructions := by
    have := fixupLoop_flag block.parents block.instructions [] [] false rfl
    simpa [fixup_phis] using this
  constructor
  · rw [hflag]
    constructor
    · intro hne
      have hex : ∃ i : Nat, (fixList block.parents [] block.instructions)[i]? ≠
          block.instructions[i]? := by
        by_contra hall
        push_neg at hall
        exact hne (List.ext_getElem? hall)
      obtain ⟨i, hi⟩ := hex
      rw [fixList_getElem?] at hi
      rcases hin : block.instructions[i]? with _ | o
      · rw [hin] at hi; simp at hi
      · rw [hin] at hi
        simp only [List.nil_append, Option.map_some', ne_eq, Option.some.injEq] at hi
        rcases fixOne_cases block.parents (block.instructions.take i) o with hk | ⟨p, b, ho, hf⟩
        · exact absurd hk hi
        · subst ho
          refine ⟨i, p, if b then p.left else p.right, hin, ?_, ?_⟩
          · cases b <;> simp
          · rw [fixup_phis_getElem?, hin]
            simp only [Option.map_some', hf]
            rfl
    · rintro ⟨i, p, v, hin, _, hout⟩ heq
      rw [fixup_phis_instructions, heq, hin] at hout
      simp at hout
  · intro hfalse
    rw [fixup_phis_instructions]
    by_contra hne
    rw [hflag.2 hne] at hfalse
    cases hfalse

/-! ## Versions in instruction order -/

/-- The versions of the inserted phis of one name when the counter does not
wrap. -/
theorem insert_phis_fresh_plain (block : BasicBlock) (values : ValueTable) (n : String)
    (hfit : values.get n + (phisNamed n (inserted_phis block values)).length < U32) :
    versionsOf n (inserted_phis block values) =
      (List.range (phisNamed n (inserted_phis block values)).length).map
        (fun j => values.get n + (j + 1)) := by
  simp only [versionsOf]
  rw [(insert_phis_fresh block values n).1]
  refine List.map_congr_left (fun j hj => ?_)
  have := List.mem_range.1 hj
  rw [bump_eq_mod]
  exact Nat.mod_eq_of_lt (by omega)

theorem versionsOf_append (n : String) (a b : List Object) :
    versionsOf n (a ++ b) = versionsOf n a ++ versionsOf n b := by
  simp [versionsOf, phisNamed_append]

/-- C14, as the code has it: if, before the call, the result versions of the
name `n` strictly increase in the block in instruction order, the value table
holds the highest version issued for `n`, and the counter of `n` does not wrap,
then after `insert_phis` the versions of the inserted phis of `n` strictly
increase and are higher than every version of `n` the block held before, the
versions of `n` in the block are those of the inserted phis followed by the
previous ones, and they strictly increase over the whole block when no phi is
inserted for `n` or the block held no instruction named `n`. -/
theorem insert_phis_versions_increasing (block : BasicBlock) (values : ValueTable)
    (n : String)
    (hinc : (versionsOf n block.instructions).Pairwise (fun a b => a < b))
    (hmax : ∀ o ∈ block.instructions, o.var.name = n → o.var.version ≤ values.get n)
    (hfit : values.get n + (phisNamed n (inserted_phis block values)).length < U32) :
    (versionsOf n (inserted_phis block values)).Pairwise (fun a b => a < b) ∧
      (∀ v ∈ versionsOf n (inserted_phis block values),
        ∀ w ∈ versionsOf n block.instructions, w < v) ∧
      versionsOf n (insert_phis block values).2.1.instructions =
        versionsOf n (inserted_phis block values) ++ versionsOf n block.instructions ∧
      ((phisNamed n (inserted_phis block values) = [] ∨ phisNamed n block.instructions = []) →
        (versionsOf n (insert_phis block values).2.1.instructions).Pairwise
          (fun a b => a < b)) := by
  have hplain := insert_phis_fresh_plain block values n hfit
  have hnew : (versionsOf n (inserted_phis block values)).Pairwise (fun a b => a < b) := by
    rw [hplain, List.pairwise_map]
    exact List.Pairwise.imp (fun h => by omega) (List.pairwise_lt_range _)
  have hold : ∀ w ∈ versionsOf n block.instructions, w ≤ values.get n := by
    intro w hw
    simp only [versionsOf, phisNamed, List.mem_map, List.mem_filter, decide_eq_true_eq] at hw
    obtain ⟨o, ⟨ho, hn⟩, rfl⟩ := hw
    exact hmax o ho hn
  have hgt : ∀ v ∈ versionsOf n (inserted_phis block values),
      ∀ w ∈ versionsOf n block.instructions, w < v := by
    intro v hv w hw
    rw [hplain] at hv
    obtain ⟨j, _, rfl⟩ := List.mem_map.1 hv
    have := hold w hw
    omega
  have happ : versionsOf n (insert_phis block values).2.1.instructions =
      versionsOf n (inserted_phis block values) ++ versionsOf n block.instructions := by
    rw [insert_phis_instructions, versionsOf_append]
  refine ⟨hnew, hgt, happ, ?_⟩
  rintro (h | h)
  · rw [happ]
    simp only [versionsOf, h, List.map_nil, List.nil_append]
    exact hinc
  · rw [happ]
    simp only [versionsOf, h, List.map_nil, List.append_nil]
    exact hnew

/-- Witness of C14: the join of a conditional whose branches assign `x`; the
join itself assigns `y` only. -/
theorem insert_phis_versions_increasing_witness :
    (versionsOf "x" (insert_phis ⟨[.identifier "x" 0 ⟨"y", 1⟩],
        [[.number 9 ⟨"x", 1⟩], [.number 10 ⟨"x", 2⟩]]⟩
          [("x", 2), ("y", 1)]).2.1.instructions).Pairwise (fun a b => a < b) :=
  (insert_phis_versions_increasing
    ⟨[.identifier "x" 0 ⟨"y", 1⟩], [[.number 9 ⟨"x", 1⟩], [.number 10 ⟨"x", 2⟩]]⟩
    [("x", 2), ("y", 1)] "x" (by decide) (by decide) (by decide)).2.2.2 (Or.inr (by decide))

/-- Counterexample to C14 as stated: the two parents define `x` at versions 1 and
2, the block itself defines `x` at version 3, and the value table holds 3 for
`x`; the versions of every name increase in the block. After `insert_phis` the
phi `(x, 4)` stands at the head, before `(x, 3)`. -/
theorem insert_phis_versions_increasing_counterexample :
    (∀ n, (versionsOf n [Object.number 5 ⟨"x", 3⟩]).Pairwise (fun a b => a < b)) ∧
    (∀ o ∈ [Object.number 5 ⟨"x", 3⟩],
      o.var.version ≤ ValueTable.get [("x", 3)] o.var.name) ∧
    versionsOf "x" (insert_phis ⟨[.number 5 ⟨"x", 3⟩],
        [[.number 9 ⟨"x", 1⟩], [.number 10 ⟨"x", 2⟩]]⟩ [("x", 3)]).2.1.instructions = [4, 3] ∧
    ¬ (versionsOf "x" (insert_phis ⟨[.number 5 ⟨"x", 3⟩],
        [[.number 9 ⟨"x", 1⟩], [.number 10 ⟨"x", 2⟩]]⟩
          [("x", 3)]).2.1.instructions).Pairwise (fun a b => a < b) := by
  refine ⟨?_, by decide, by decide, by decide⟩
  intro n
  simp only [versionsOf, phisNamed, List.filter_cons, List.filter_nil]
  split_ifs <;> simp

/-! ## Repeated sweeps of `insert_phis` -/

theorem phiStep_eq_verStep (existing : List Phi) (name : String) (st : PhiState)
    (p : List Object) :
    phiStep existing name st p =
      match lastNamed p with
      | none => st
      | some var => verStep existing name st var.version := by
  simp only [phiStep, verStep]

theorem foldl_phiStep_eq (existing : List Phi) (name : String) (ps : List (List Object))
    (st : PhiState) :
    ps.foldl (phiStep existing name) st =
      (parentVersions ps).foldl (verStep existing name) st := by
  induction ps generalizing st with
  | nil => rfl
  | cons p ps ih =>
    simp only [List.foldl_cons, parentVersions, List.filterMap_cons]
    rw [phiStep_eq_verStep, ih]
    rcases lastNamed p with _ | var
    · rfl
    · simp [parentVersions]

theorem foldl_verStep_leading (existing : List Phi) (name : String) (ws : List Nat)
    (values : ValueTable) (phis : List Object) :
    ws.foldl (verStep existing name) ⟨0, values, phis⟩ =
      match leading ws with
      | none => ⟨0, values, phis⟩
      | some c => c.2.foldl (verStep existing name) ⟨c.1, values, phis⟩ := by
  induction ws with
  | nil => rfl
  | cons w rest ih =>
    simp only [List.foldl_cons, leading]
    by_cases hw : w = 0
    · subst hw
      simp only [if_true]
      rw [← ih]
      rfl
    · simp only [hw, if_false]
      rfl

theorem leading_spec {ws : List Nat} {c : Nat × List Nat} (h : leading ws = some c) :
    c.1 ≠ 0 ∧ c.2.length < ws.length := by
  induction ws with
  | nil => simp [leading] at h
  | cons w rest ih =>
    simp only [leading] at h
    split_ifs at h with hw
    · have := ih h
      exact ⟨this.1, by simp only [List.length_cons]; omega⟩
    · cases h
      exact ⟨hw, by simp⟩

theorem parentVersions_length (ps : List (List Object)) :
    (parentVersions ps).length ≤ ps.length := by
  simp only [parentVersions, List.length_map]
  exact List.length_filterMap_le _ _

theorem verStep_phis_mono (existing : List Phi) (name : String) (st : PhiState) (w : Nat)
    (o : Object) (ho : o ∈ st.phis) : o ∈ (verStep existing name st w).phis := by
  simp only [verStep]
  split_ifs
  · exact List.mem_append_left _ ho
  · exact ho
  · exact ho

theorem foldl_verStep_phis_mono (existing : List Phi) (name : String) (ws : List Nat)
    (st : PhiState) (o : Object) (ho : o ∈ st.phis) :
    o ∈ (ws.foldl (verStep existing name) st).phis := by
  induction ws generalizing st with
  | nil => exact ho
  | cons w rest ih => exact ih _ (verStep_phis_mono existing name st w o ho)

/-- The loop over the versions after the leading one changes nothing when every
candidate is in the block. -/
theorem foldl_verStep_skip (existing : List Phi) (name : String) (h : Nat) (hh : h ≠ 0)
    (ws : List Nat) (values : ValueTable) (phis : List Object)
    (hall : ∀ w ∈ ws, phiCount existing ⟨h, w, ⟨name, 0⟩⟩ = true) :
    ws.foldl (verStep existing name) ⟨h, values, phis⟩ = ⟨h, values, phis⟩ := by
  induction ws with
  | nil => rfl
  | cons w rest ih =>
    simp only [List.foldl_cons]
    have hstep : verStep existing name ⟨h, values, phis⟩ w = ⟨h, values, phis⟩ := by
      simp [verStep, hh, hall w (List.mem_cons_self _ _)]
    rw [hstep]
    exact ih (fun x hx => hall x (List.mem_cons_of_mem _ hx))

/-- The loop over the versions after the leading one inserts the first
candidate that is not in the block. -/
theorem foldl_verStep_first (existing : List Phi) (name : String) (h : Nat) (hh : h ≠ 0)
    (ws : List Nat) (values : ValueTable) (phis : List Object)
    (hex : ∃ w ∈ ws, phiCount existing ⟨h, w, ⟨name, 0⟩⟩ = false) :
    ∃ w ∈ ws, phiCount existing ⟨h, w, ⟨name, 0⟩⟩ = false ∧
      ∃ ver, Object.phi ⟨h, w, ⟨name, ver⟩⟩ ∈
        (ws.foldl (verStep existing name) ⟨h, values, phis⟩).phis := by
  induction ws with
  | nil => obtain ⟨w, hw, _⟩ := hex; cases hw
  | cons x rest ih =>
    simp only [List.foldl_cons]
    by_cases hx : phiCount existing ⟨h, x, ⟨name, 0⟩⟩ = true
    · have hstep : verStep existing name ⟨h, values, phis⟩ x = ⟨h, values, phis⟩ := by
        simp [verStep, hh, hx]
      rw [hstep]
      obtain ⟨w, hw, hc⟩ := hex
      have hw2 : w ∈ rest := by
        rcases List.mem_cons.1 hw with rfl | hw
        · rw [hx] at hc; cases hc
        · exact hw
      obtain ⟨w', hw', hc', hver⟩ := ih ⟨w, hw2, hc⟩
      exact ⟨w', List.mem_cons_of_mem _ hw', hc', hver⟩
    · have hxf : phiCount existing ⟨h, x, ⟨name, 0⟩⟩ = false := by simpa using hx
      refine ⟨x, List.mem_cons_self _ _, hxf, (values.incr name).get name, ?_⟩
      apply foldl_verStep_phis_mono
      simp [verStep, hh, hxf]

theorem phisForName_eq_leading (existing : List Phi) (ps : List (List Object))
    (acc : ValueTable × List Object) (name : String) :
    phisForName existing ps acc name =
      match leading (parentVersions ps) with
      | none => acc
      | some c =>
        ((c.2.foldl (verStep existing name) ⟨c.1, acc.1, acc.2⟩).values,
          (c.2.foldl (verStep existing name) ⟨c.1, acc.1, acc.2⟩).phis) := by
  simp only [phisForName]
  rw [foldl_phiStep_eq, foldl_verStep_leading]
  rcases leading (parentVersions ps) with _ | c <;> rfl

theorem phisForName_mono (existing : List Phi) (ps : List (List Object))
    (acc : ValueTable × List Object) (name : String) (o : Object) (ho : o ∈ acc.2) :
    o ∈ (phisForName existing ps acc name).2 := by
  rw [phisForName_eq_leading]
  rcases leading (parentVersions ps) with _ | c
  · exact ho
  · exact foldl_verStep_phis_mono existing name c.2 ⟨c.1, acc.1, acc.2⟩ o ho

theorem foldl_phisForName_mono (existing : List Phi) (ps : List (List Object))
    (names : List String) (acc : ValueTable × List Object) (o : Object) (ho : o ∈ acc.2) :
    o ∈ (names.foldl (phisForName existing ps) acc).2 := by
  induction names generalizing acc with
  | nil => exact ho
  | cons n names ih => exact ih _ (phisForName_mono existing ps acc n o ho)

theorem phisForName_skip (existing : List Phi) (ps : List (List Object))
    (acc : ValueTable × List Object) (name : String)
    (hall : ∀ c, leading (parentVersions ps) = some c →
      ∀ w ∈ c.2, phiCount existing ⟨c.1, w, ⟨name, 0⟩⟩ = true) :
    phisForName existing ps acc name = acc := by
  rw [phisForName_eq_leading]
  rcases hl : leading (parentVersions ps) with _ | c
  · rfl
  · simp only []
    rw [foldl_verStep_skip existing name c.1 (leading_spec hl).1 c.2 acc.1 acc.2 (hall c hl)]

theorem foldl_phisForName_skip_all (existing : List Phi) (ps : List (List Object))
    (names : List String) (acc : ValueTable × List Object)
    (hall : ∀ n ∈ names, ∀ c, leading (parentVersions ps) = some c →
      ∀ w ∈ c.2, phiCount existing ⟨c.1, w, ⟨n, 0⟩⟩ = true) :
    names.foldl (phisForName existing ps) acc = acc := by
  induction names generalizing acc with
  | nil => rfl
  | cons n names ih =>
    simp only [List.foldl_cons]
    rw [phisForName_skip existing ps acc n (hall n (List.mem_cons_self _ _))]
    exact ih acc (fun m hm => hall m (List.mem_cons_of_mem _ hm))

theorem foldl_phisForName_first (existing : List Phi) (ps : List (List Object))
    (names : List String) (acc : ValueTable × List Object) (n : String) (hn : n ∈ names)
    (c : Nat × List Nat) (hl : leading (parentVersions ps) = some c)
    (hex : ∃ w ∈ c.2, phiCount existing ⟨c.1, w, ⟨n, 0⟩⟩ = false) :
    ∃ w ∈ c.2, phiCount existing ⟨c.1, w, ⟨n, 0⟩⟩ = false ∧
      ∃ ver, Object.phi ⟨c.1, w, ⟨n, ver⟩⟩ ∈ (names.foldl (phisForName existing ps) acc).2 := by
  induction names generalizing acc with
  | nil => cases hn
  | cons m names ih =>
    simp only [List.foldl_cons]
    rcases List.mem_cons.1 hn with rfl | hn
    · obtain ⟨w, hw, hc, ver, hver⟩ :=
        foldl_verStep_first existing n c.1 (leading_spec hl).1 c.2 acc.1 acc.2 hex
      refine ⟨w, hw, hc, ver, foldl_phisForName_mono existing ps names _ _ ?_⟩
      rw [phisForName_eq_leading, hl]
      exact hver
    · exact ih _ hn

theorem filter_length_le_of_imp {α : Type} (p q : α → Bool) (l : List α)
    (h : ∀ x ∈ l, q x = true → p x = true) : (l.filter q).length ≤ (l.filter p).length := by
  induction l with
  | nil => simp
  | cons a l ih =>
    have ih2 := ih (fun x hx => h x (List.mem_cons_of_mem _ hx))
    have ha := h a (List.mem_cons_self _ _)
    simp only [List.filter_cons]
    by_cases hq : q a = true
    · simp [hq, ha hq, ih2]
    · have hq2 : q a = false := by simpa using hq
      by_cases hp : p a = true
      · simp only [hq2, hp, if_true, Bool.false_eq_true, if_false, List.length_cons]; omega
      · simp [hq, hp, ih2]

theorem filter_length_lt_of_imp {α : Type} (p q : α → Bool) (l : List α)
    (h : ∀ x ∈ l, q x = true → p x = true) (hex : ∃ x ∈ l, p x = true ∧ q x = false) :
    (l.filter q).length < (l.filter p).length := by
  induction l with
  | nil => obtain ⟨x, hx, _⟩ := hex; cases hx
  | cons a l ih =>
    have hle := filter_length_le_of_imp p q l (fun x hx => h x (List.mem_cons_of_mem _ hx))
    simp only [List.filter_cons]
    obtain ⟨x, hx, hpx, hqx⟩ := hex
    rcases List.mem_cons.1 hx with rfl | hx
    · simp only [hpx, hqx, if_true, List.length_cons]
      simp only [Bool.false_eq_true, if_false]
      omega
    · have ih2 := ih (fun y hy => h y (List.mem_cons_of_mem _ hy)) ⟨x, hx, hpx, hqx⟩
      have ha := h a (List.mem_cons_self _ _)
      by_cases hq : q a = true
      · simp [hq, ha hq, ih2]
      · have hq2 : q a = false := by simpa using hq
        by_cases hp : p a = true
        · simp only [hq2, hp, if_true, Bool.false_eq_true, if_false, List.length_cons]; omega
        · simp only [hq2, hp, Bool.false_eq_true, if_false]; exact ih2

theorem insert_phis_existing (block : BasicBlock) (values : ValueTable) :
    existing_phis (insert_phis block values).2.1.instructions =
      existing_phis (inserted_phis block values) ++ existing_phis block.instructions := by
  rw [insert_phis_instructions, existing_phis_append]

theorem inserted_phis_of_two (block : BasicBlock) (values : ValueTable)
    (hk : 2 ≤ block.parents.length) :
    inserted_phis block values = (compute_phis block values).2 := by
  have hguard : (block.parents.isEmpty || is_strictly_dominated block) = false := by
    rcases hp : block.parents with _ | ⟨p, _ | ⟨q, rest⟩⟩
    · rw [hp] at hk; simp at hk
    · rw [hp] at hk; simp at hk
    · simp [is_strictly_dominated, hp]
  simp [inserted_phis, hguard]

/-- A call of `insert_phis` lowers the number of missing candidates of every
dominated name by at least one, down to zero. -/
theorem missingCount_step (block : BasicBlock) (values : ValueTable) (n : String)
    (hk : 2 ≤ block.parents.length)
    (hn : n ∈ (scanVarsParents block.parents ([], [])).2) :
    missingCount (insert_phis block values).2.1 n ≤ missingCount block n - 1 := by
  simp only [missingCount, insert_phis_parents, insert_phis_existing]
  rcases hl : leading (parentVersions block.parents) with _ | c
  · simp
  · simp only []
    have himp : ∀ w ∈ c.2,
        (!phiCount (existing_phis (inserted_phis block values) ++
          existing_phis block.instructions) ⟨c.1, w, ⟨n, 0⟩⟩) = true →
        (!phiCount (existing_phis block.instructions) ⟨c.1, w, ⟨n, 0⟩⟩) = true := by
      intro w _ hq
      by_contra hp
      have hp2 : phiCount (existing_phis block.instructions) ⟨c.1, w, ⟨n, 0⟩⟩ = true := by
        simpa using hp
      rw [phiCount_append_right _ _ _ hp2] at hq
      cases hq
    by_cases hex : ∃ w ∈ c.2,
        phiCount (existing_phis block.instructions) ⟨c.1, w, ⟨n, 0⟩⟩ = false
    · obtain ⟨w, hw, hc, ver, hver⟩ := foldl_phisForName_first
        (existing_phis block.instructions) block.parents
        (scanVarsParents block.parents ([], [])).2 (values, []) n hn c hl hex
      have hins : Object.phi ⟨c.1, w, ⟨n, ver⟩⟩ ∈ inserted_phis block values := by
        rw [inserted_phis_of_two block values hk]
        exact hver
      have hnow : phiCount (existing_phis (inserted_phis block values) ++
          existing_phis block.instructions) ⟨c.1, w, ⟨n, 0⟩⟩ = true :=
        phiCount_append_left _ _ _
          (phiCount_of_mem _ _ _ _ ver (mem_existing_phis _ _ hins))
      have hlt := filter_length_lt_of_imp
        (fun w => !phiCount (existing_phis block.instructions) ⟨c.1, w, ⟨n, 0⟩⟩)
        (fun w => !phiCount (existing_phis (inserted_phis block values) ++
          existing_phis block.instructions) ⟨c.1, w, ⟨n, 0⟩⟩) c.2 himp
        ⟨w, hw, by simp [hc], by simp [hnow]⟩
      omega
    · have hle := filter_length_le_of_imp
        (fun w => !phiCount (existing_phis block.instructions) ⟨c.1, w, ⟨n, 0⟩⟩)
        (fun w => !phiCount (existing_phis (inserted_phis block values) ++
          existing_phis block.instructions) ⟨c.1, w, ⟨n, 0⟩⟩) c.2 himp
      have hzero : (c.2.filter
          (fun w => !phiCount (existing_phis block.instructions) ⟨c.1, w, ⟨n, 0⟩⟩)).length
            = 0 := by
        rw [List.length_eq_zero, List.filter_eq_nil_iff]
        intro w hw hq
        exact hex ⟨w, hw, by simpa using hq⟩
      omega

/-- A call of `insert_phis` returns false when no candidate of a dominated name
is missing. -/
theorem insert_phis_false_of_missing_zero (block : BasicBlock) (values : ValueTable)
    (h : ∀ n ∈ (scanVarsParents block.parents ([], [])).2, missingCount block n = 0) :
    (insert_phis block values).1 = false := by
  rw [insert_phis_flag]
  simp only [inserted_phis]
  split_ifs with hg
  · rfl
  · have hskip : compute_phis block values = (values, []) := by
      simp only [compute_phis]
      apply foldl_phisForName_skip_all
      intro n hn c hl w hw
      have h0 := h n hn
      simp only [missingCount, hl, List.length_eq_zero, List.filter_eq_nil_iff] at h0
      simpa using h0 w hw
    rw [hskip]
    rfl

theorem missingCount_le (block : BasicBlock) (n : String) :
    missingCount block n ≤ block.parents.length - 1 := by
  simp only [missingCount]
  rcases hl : leading (parentVersions block.parents) with _ | c
  · simp
  · simp only []
    have h1 := List.length_filter_le
      (fun w => !phiCount (existing_phis block.instructions) ⟨c.1, w, ⟨n, 0⟩⟩) c.2
    have h2 := (leading_spec hl).2
    have h3 := parentVersions_length block.parents
    omega

theorem sweep_parents (s : BasicBlock × ValueTable) : (sweep s).1.parents = s.1.parents :=
  insert_phis_parents s.1 s.2

/-- After `j` calls, a call returns false as soon as every dominated name had at
most `j` missing candidates at the start. -/
theorem sweeps_false (j : Nat) :
    ∀ (s : BasicBlock × ValueTable), 2 ≤ s.1.parents.length →
      (∀ n ∈ (scanVarsParents s.1.parents ([], [])).2, missingCount s.1 n ≤ j) →
      (insert_phis (sweeps j s).1 (sweeps j s).2).1 = false := by
  induction j with
  | zero =>
    intro s _ h
    exact insert_phis_false_of_missing_zero s.1 s.2 (fun n hn => Nat.le_zero.1 (h n hn))
  | succ j ih =>
    intro s hk h
    simp only [sweeps]
    apply ih (sweep s)
    · rw [sweep_parents]; exact hk
    · intro n hn
      rw [sweep_parents] at hn
      have := missingCount_step s.1 s.2 n hk hn
      have := h n hn
      simp only [sweep]
      omega

theorem range_filter_lt_length (N m : Nat) :
    ((List.range N).filter (fun j => decide (j < m))).length ≤ m := by
  have key : ((List.range N).filter (fun j => decide (j < m))).length ≤ min N m := by
    induction N with
    | zero => simp
    | succ N ih =>
      rw [List.range_succ, List.filter_append, List.length_append]
      by_cases h : N < m
      · simp only [List.filter_cons, h, decide_True, if_true, List.filter_nil,
          List.length_singleton]
        omega
      · simp only [List.filter_cons, h, decide_False, Bool.false_eq_true, if_false,
          List.filter_nil, List.length_nil]
        omega
  omega

/-- C15: repeated sweeps of `insert_phis` terminate. For a block with `k ≥ 2`
parents, the parents unchanged, every call from the `k`-th consecutive one on
returns false, so at most `k - 1` of any number of consecutive calls return
true. -/
theorem insert_phis_sweeps_terminate (block : BasicBlock) (values : ValueTable)
    (hk : 2 ≤ block.parents.length) :
    (∀ j, block.parents.length - 1 ≤ j →
        (insert_phis (sweeps j (block, values)).1 (sweeps j (block, values)).2).1 = false) ∧
      ∀ N, ((List.range N).filter (fun j =>
          (insert_phis (sweeps j (block, values)).1 (sweeps j (block, values)).2).1)).length ≤
        block.parents.length - 1 := by
  have hfalse : ∀ j, block.parents.length - 1 ≤ j →
      (insert_phis (sweeps j (block, values)).1 (sweeps j (block, values)).2).1 = false := by
    intro j hj
    apply sweeps_false j (block, values) hk
    intro n _
    exact le_trans (missingCount_le block n) hj
  refine ⟨hfalse, fun N => ?_⟩
  refine le_trans (filter_length_le_of_imp (fun j => decide (j < block.parents.length - 1)) _
    (List.range N) ?_) (range_filter_lt_length N _)
  intro j _ htrue
  by_contra hnot
  have hge : block.parents.length - 1 ≤ j := by simpa using hnot
  rw [hfalse j hge] at htrue
  cases htrue

/-- Witness of C15: a block with three parents that each define `x`. The first
two calls return true, the third returns false. -/
theorem insert_phis_sweeps_terminate_witness :
    (insert_phis
        (sweeps 0 (⟨[], [[.number 9 ⟨"x", 1⟩], [.number 10 ⟨"x", 2⟩], [.number 11 ⟨"x", 3⟩]]⟩,
          [("x", 3)])).1
        (sweeps 0 (⟨[], [[.number 9 ⟨"x", 1⟩], [.number 10 ⟨"x", 2⟩], [.number 11 ⟨"x", 3⟩]]⟩,
          [("x", 3)])).2).1 = true ∧
    (insert_phis
        (sweeps 1 (⟨[], [[.number 9 ⟨"x", 1⟩], [.number 10 ⟨"x", 2⟩], [.number 11 ⟨"x", 3⟩]]⟩,
          [("x", 3)])).1
        (sweeps 1 (⟨[], [[.number 9 ⟨"x", 1⟩], [.number 10 ⟨"x", 2⟩], [.number 11 ⟨"x", 3⟩]]⟩,
          [("x", 3)])).2).1 = true ∧
    (insert_phis
        (sweeps 2 (⟨[], [[.number 9 ⟨"x", 1⟩], [.number 10 ⟨"x", 2⟩], [.number 11 ⟨"x", 3⟩]]⟩,
          [("x", 3)])).1
        (sweeps 2 (⟨[], [[.number 9 ⟨"x", 1⟩], [.number 10 ⟨"x", 2⟩], [.number 11 ⟨"x", 3⟩]]⟩,
          [("x", 3)])).2).1 = false :=
  ⟨by decide, by decide,
    (insert_phis_sweeps_terminate
      ⟨[], [[.number 9 ⟨"x", 1⟩], [.number 10 ⟨"x", 2⟩], [.number 11 ⟨"x", 3⟩]]⟩
      [("x", 3)] (by decide)).1 2 (by decide)⟩

/-! ## Version comparison -/

namespace Version

/-- The model of `compare` passes every fixture of `meson_tests.cpp`. -/
theorem compare_fixtures : fixtures.all (fun t => compare t.1 t.2.2 t.2.1) = true := by
  decide

/-- The reading "case-insensitively" of the spec fails the fixture `("FC5",
"fc4", LT)` of `meson_tests.cpp` line 30. -/
theorem compareFolded_fails_fixture :
    compareFolded "FC5" Operator.LT "fc4" = false ∧
      compareFolded "FC5" Operator.GT "fc4" = true ∧
      compareFolded "FC5" Operator.EQ "fc5" = true := by
  decide

/-- C16: version comparison is trichotomous. For all strings `a` and `b` exactly
one of `compare(a, LT, b)`, `compare(a, EQ, b)`, `compare(a, GT, b)` is true;
`compare` is a total function, and the derived operators are `NE ≡ ¬EQ`,
`LE ≡ LT ∨ EQ`, `GE ≡ GT ∨ EQ`. -/
theorem compare_trichotomy (a b : String) :
    ((compare a Operator.LT b = true ∧ compare a Operator.EQ b = false ∧
          compare a Operator.GT b = false) ∨
        (compare a Operator.LT b = false ∧ compare a Operator.EQ b = true ∧
          compare a Operator.GT b = false) ∨
        (compare a Operator.LT b = false ∧ compare a Operator.EQ b = false ∧
          compare a Operator.GT b = true)) ∧
      compare a Operator.NE b = !compare a Operator.EQ b ∧
      compare a Operator.LE b = (compare a Operator.LT b || compare a Operator.EQ b) ∧
      compare a Operator.GE b = (compare a Operator.GT b || compare a Operator.EQ b) := by
  simp only [compare, compareWith]
  cases cmp false a b <;> decide

theorem isLetter_not_isDigit {c : Char} (h : isLetter c = true) : isDigit c = false := by
  simp only [isLetter, isUpper, isLower, isDigit, Bool.or_eq_true, decide_eq_true_eq,
    decide_eq_false_iff_not] at h ⊢
  omega

/-- A run of letters read while a letter token is under construction extends
that token. -/
theorem tokenizeAux_letters (cs r : List Char) (h : ∀ c ∈ cs, isLetter c = true) :
    tokenizeAux cs (some (.letters r)) = [.letters (r ++ cs)] := by
  induction cs generalizing r with
  | nil => simp [tokenizeAux, flush]
  | cons c cs ih =>
    have hc := h c (List.mem_cons_self _ _)
    simp only [tokenizeAux, isLetter_not_isDigit hc, hc, Bool.false_eq_true, if_false,
      if_true]
    rw [ih _ (fun x hx => h x (List.mem_cons_of_mem _ hx))]
    simp

/-- A string of letters is one letter token. -/
theorem tokenize_letters (c : Char) (cs : List Char) (hc : isLetter c = true)
    (h : ∀ x ∈ cs, isLetter x = true) :
    tokenize (String.mk (c :: cs)) = [.letters (c :: cs)] := by
  simp only [tokenize, tokenizeAux, isLetter_not_isDigit hc, hc, Bool.false_eq_true,
    if_false, if_true, flush, List.nil_append]
  rw [tokenizeAux_letters cs [c] h]
  simp

/-- C17: version comparison orders letter tokens by their character codes, so a
letter token that starts with an upper-case letter sorts below one that starts
with a lower-case letter; and `compare("FC5", LT, "fc4")` is true. -/
theorem compare_letters_by_code (u l : Char) (a b : List Char)
    (hu : isUpper u = true) (hl : isLower l = true)
    (ha : ∀ c ∈ a, isLetter c = true) (hb : ∀ c ∈ b, isLetter c = true) :
    compare (String.mk (u :: a)) Operator.LT (String.mk (l :: b)) = true ∧
      compare "FC5" Operator.LT "fc4" = true := by
  refine ⟨?_, by decide⟩
  have hlu : isLetter u = true := by simp [isLetter, hu]
  have hll : isLetter l = true := by simp [isLetter, hl]
  have hlt : u.toNat < l.toNat := by
    simp only [isUpper, isLower, decide_eq_true_eq] at hu hl
    omega
  simp only [compare, compareWith, cmp, tokenize_letters u a hlu ha,
    tokenize_letters l b hll hb, cmpTokens, List.map_cons, letterCode, Bool.false_and,
    Bool.false_eq_true, if_false, lexCmp, hlt, if_true]
  rfl

/-- Witness of C17: the letter tokens `FC` and `fc`. -/
theorem compare_letters_by_code_witness :
    compare "FC" Operator.LT "fc" = true ∧ compare "FC5" Operator.LT "fc4" = true :=
  compare_letters_by_code 'F' 'f' ['C'] ['c'] (by decide) (by decide) (by decide) (by decide)

theorem lexCmp_eq_iff (x y : List Nat) : lexCmp x y = .eq ↔ x = y := by
  induction x generalizing y with
  | nil => cases y <;> simp [lexCmp]
  | cons a x ih =>
    cases y with
    | nil => simp [lexCmp]
    | cons b y =>
      simp only [lexCmp]
      split_ifs with h1 h2
      · simp; omega
      · simp; omega
      · rw [ih]
        have : a = b := by omega
        simp [this]

theorem map_toNat_injective {x y : List Char} (h : x.map Char.toNat = y.map Char.toNat) :
    x = y := by
  induction x generalizing y with
  | nil => cases y with
    | nil => rfl
    | cons _ _ => simp at h
  | cons a x ih =>
    cases y with
    | nil => simp at h
    | cons b y =>
      simp only [List.map_cons, List.cons.injEq] at h
      rw [Char.ext (UInt32.ext h.1), ih h.2]

theorem letterCode_false (c : Char) : letterCode false c = c.toNat := by
  simp [letterCode]

/-- The comparison by character code yields "equal" exactly when the two token
sequences agree once the leading zeros of digit tokens are dropped. -/
theorem cmpTokens_eq_iff (s t : List Token) :
    cmpTokens false s t = .eq ↔ s.map normToken = t.map normToken := by
  induction s generalizing t with
  | nil =>
    cases t with
    | nil => simp [cmpTokens]
    | cons b bs =>
      simp only [cmpTokens]
      split_ifs <;> simp
  | cons a as ih =>
    cases t with
    | nil =>
      simp only [cmpTokens]
      split_ifs <;> simp
    | cons b bs =>
      cases a with
      | tilde =>
        cases b with
        | tilde => simp [cmpTokens, ih, normToken]
        | digits y => simp [cmpTokens, normToken]
        | letters y => simp [cmpTokens, normToken]
      | digits x =>
        cases b with
        | tilde => simp [cmpTokens, normToken]
        | letters y => simp [cmpTokens, normToken]
        | digits y =>
          simp only [cmpTokens, List.map_cons, normToken, List.cons.injEq, Token.digits.injEq]
          split_ifs with h1 h2
          · constructor
            · intro h; cases h
            · rintro ⟨h, _⟩; rw [h] at h1; omega
          · constructor
            · intro h; cases h
            · rintro ⟨h, _⟩; rw [h] at h2; omega
          · rcases hc : lexCmp ((stripZeros x).map Char.toNat)
                ((stripZeros y).map Char.toNat) with _ | _ | _
            · simp only []
              constructor
              · intro h; cases h
              · rintro ⟨h, _⟩
                rw [h, (lexCmp_eq_iff _ _).2 rfl] at hc
                cases hc
            · simp only [ih]
              have := map_toNat_injective ((lexCmp_eq_iff _ _).1 hc)
              simp [this]
            · simp only []
              constructor
              · intro h; cases h
              · rintro ⟨h, _⟩
                rw [h, (lexCmp_eq_iff _ _).2 rfl] at hc
                cases hc
      | letters x =>
        cases b with
        | tilde => simp [cmpTokens, normToken]
        | digits y => simp [cmpTokens, normToken]
        | letters y =>
          simp only [cmpTokens, List.map_cons, normToken, List.cons.injEq,
            Token.letters.injEq]
          have hmap : ∀ z : List Char, z.map (letterCode false) = z.map Char.toNat := by
            intro z
            exact List.map_congr_left (fun c _ => letterCode_false c)
          rw [hmap, hmap]
          rcases hc : lexCmp (x.map Char.toNat) (y.map Char.toNat) with _ | _ | _
          · simp only []
            constructor
            · intro h; cases h
            · rintro ⟨h, _⟩
              rw [h, (lexCmp_eq_iff _ _).2 rfl] at hc
              cases hc
          · simp only [ih]
            have := map_toNat_injective ((lexCmp_eq_iff _ _).1 hc)
            simp [this]
          · simp only []
            constructor
            · intro h; cases h
            · rintro ⟨h, _⟩
              rw [h, (lexCmp_eq_iff _ _).2 rfl] at hc
              cases hc

/-- C18, as the code has it: version comparison compares letter tokens
character by character, case included. `compare(a, EQ, b)` is true exactly when
`a` and `b` have the same tokens, digit tokens without their leading zeros;
`compare("FC5", EQ, "fc5")` is false, `compare("FC5", LT, "fc5")` and
`compare("FC5", LT, "fc4")` are true and `compare("FC5", GT, "fc4")` is false. -/
theorem compare_eq_case_sensitive (a b : String) :
    (compare a Operator.EQ b = true ↔
        (tokenize a).map normToken = (tokenize b).map normToken) ∧
      compare "FC5" Operator.EQ "fc5" = false ∧
      compare "FC5" Operator.LT "fc5" = true ∧
      compare "FC5" Operator.LT "fc4" = true ∧
      compare "FC5" Operator.GT "fc4" = false := by
  refine ⟨?_, by decide, by decide, by decide, by decide⟩
  simp only [compare, compareWith, cmp]
  rw [← cmpTokens_eq_iff]
  cases cmpTokens false (tokenize a) (tokenize b) <;> decide

/-- Counterexample to C18 as stated: `FC5` and `fc5` differ only in the case of
letters and do not compare equal, `compare("FC5", GT, "fc4")` is false and
`compare("FC5", LT, "fc4")` is true, as the fixture of `meson_tests.cpp` line 30
asserts. -/
theorem compare_case_insensitive_counterexample :
    (("FC5", "fc4", Operator.LT) ∈ fixtures) ∧
      compare "FC5" Operator.EQ "fc5" = false ∧
      compare "FC5" Operator.GT "fc4" = false ∧
      compare "FC5" Operator.LT "fc4" = true := by
  decide

end Version

/-! ## Machine lowering -/

namespace Passes

open Machines

/-- The four tests of `machine_lower_test.cpp` on the model: `x = 7; y =
host_machine.cpu_family()`, `x = [host_machine.cpu_family()]`,
`foo(host_machine.endian())` and the condition `if host_machine.cpu_family()`,
with the information `Info{BUILD, LINUX, LITTLE, "x86_64"}`; then a call of
`kernel()`, and a call of `system()`, which the `Info` has no field for. -/
theorem machine_lower_tests :
    machine_lower
        ⟨[.number 7 ⟨"x", 0⟩, .functionCall "host_machine.cpu_family" [] [] ⟨"y", 0⟩], []⟩
        .terminal (PerMachine.ofBuild ⟨.BUILD, .LINUX, .LITTLE, "x86_64"⟩) =
      .ok (true, ⟨[.number 7 ⟨"x", 0⟩, .string "x86_64" ⟨"y", 0⟩], []⟩, .terminal) ∧
    machine_lower
        ⟨[.array [.functionCall "host_machine.cpu_family" [] [] ⟨"", 0⟩] ⟨"x", 0⟩], []⟩
        .terminal (PerMachine.ofBuild ⟨.BUILD, .LINUX, .LITTLE, "x86_64"⟩) =
      .ok (true, ⟨[.array [.string "x86_64" ⟨"", 0⟩] ⟨"x", 0⟩], []⟩, .terminal) ∧
    machine_lower
        ⟨[.functionCall "foo" [.functionCall "host_machine.endian" [] [] ⟨"", 0⟩] []
          ⟨"", 0⟩], []⟩
        .terminal (PerMachine.ofBuild ⟨.BUILD, .LINUX, .LITTLE, "x86_64"⟩) =
      .ok (true, ⟨[.functionCall "foo" [.string "little" ⟨"", 0⟩] [] ⟨"", 0⟩], []⟩,
        .terminal) ∧
    machine_lower ⟨[], []⟩
        (.condition (.functionCall "host_machine.cpu_family" [] [] ⟨"", 0⟩))
        (PerMachine.ofBuild ⟨.BUILD, .LINUX, .LITTLE, "x86_64"⟩) =
      .ok (true, ⟨[], []⟩, .condition (.string "x86_64" ⟨"", 0⟩)) ∧
    machine_lower ⟨[.functionCall "target_machine.kernel" [] [] ⟨"k", 0⟩], []⟩ .terminal
        (PerMachine.ofBuild ⟨.BUILD, .LINUX, .LITTLE, "x86_64"⟩) =
      .ok (true, ⟨[.string "linux" ⟨"k", 0⟩], []⟩, .terminal) ∧
    machine_lower ⟨[.number 7 ⟨"x", 0⟩], []⟩ .next
        (PerMachine.ofBuild ⟨.BUILD, .LINUX, .LITTLE, "x86_64"⟩) =
      .ok (false, ⟨[.number 7 ⟨"x", 0⟩], []⟩, .next) ∧
    machine_lower ⟨[.functionCall "host_machine.system" [] [] ⟨"s", 0⟩], []⟩ .terminal
        (PerMachine.ofBuild ⟨.BUILD, .LINUX, .LITTLE, "x86_64"⟩) =
      .error (.InconsistentMachineInfo "host_machine.system") := by
  decide

/-! ### An object without a call on a machine object -/

mutual
/-- The walk leaves an object that holds no call on a machine object as it is,
and reports no replacement. -/
theorem lowerObject_of_none (info : PerMachine Info) :
    ∀ o : Object, holdsMachineCall o = false → lowerObject info o = .ok (o, false)
  | .array l v, h => by
    simp only [holdsMachineCall] at h
    simp only [lowerObject, lowerList_of_none info l h]
  | .dict kv v, h => by
    simp only [holdsMachineCall] at h
    simp only [lowerObject, lowerDict_of_none info kv h]
  | .functionCall name args kw v, h => by
    simp only [holdsMachineCall, Bool.or_eq_false_iff] at h
    obtain ⟨⟨h1, h2⟩, h3⟩ := h
    have hm : machineMethod name = none := by
      cases hc : machineMethod name with
      | none => rfl
      | some c => rw [hc] at h1; cases h1
    simp only [lowerObject, hm, lowerList_of_none info args h2, lowerDict_of_none info kw h3,
      Bool.or_self]
  | .number _ _, _ => rfl
  | .string _ _, _ => rfl
  | .boolean _ _, _ => rfl
  | .identifier _ _ _, _ => rfl
  | .phi _, _ => rfl
/-- The walk leaves a sequence that holds no call on a machine object as it
is. -/
theorem lowerList_of_none (info : PerMachine Info) :
    ∀ l : List Object, holdsMachineCallList l = false → lowerList info l = .ok (l, false)
  | [], _ => rfl
  | o :: l, h => by
    simp only [holdsMachineCallList, Bool.or_eq_false_iff] at h
    simp only [lowerList, lowerObject_of_none info o h.1, lowerList_of_none info l h.2,
      Bool.or_self]
/-- The walk leaves a keyword map that holds no call on a machine object as it
is. -/
theorem lowerDict_of_none (info : PerMachine Info) :
    ∀ l : List (String × Object), holdsMachineCallDict l = false →
      lowerDict info l = .ok (l, false)
  | [], _ => rfl
  | (k, o) :: l, h => by
    simp only [holdsMachineCallDict, Bool.or_eq_false_iff] at h
    simp only [lowerDict, lowerObject_of_none info o h.1, lowerDict_of_none info l h.2,
      Bool.or_self]
end

/-! ### The walk when every requested field is present -/

mutual
/-- When no call requests an absent field, the walk over an object returns: its
flag says whether the object held a call on a machine object, no such call is
left at any depth, and the variable of the object is kept. -/
theorem lowerObject_ok (info : PerMachine Info) :
    ∀ o : Object, requestsAbsent info o = false →
      ∃ o2, lowerObject info o = .ok (o2, holdsMachineCall o) ∧
        holdsMachineCall o2 = false ∧ o2.var = o.var
  | .array l v, h => by
    simp only [requestsAbsent] at h
    obtain ⟨l2, h1, h2, _⟩ := lowerList_ok info l h
    exact ⟨.array l2 v, by simp only [lowerObject, h1, holdsMachineCall],
      by simpa only [holdsMachineCall] using h2, rfl⟩
  | .dict kv v, h => by
    simp only [requestsAbsent] at h
    obtain ⟨kv2, h1, h2⟩ := lowerDict_ok info kv h
    exact ⟨.dict kv2 v, by simp only [lowerObject, h1, holdsMachineCall],
      by simpa only [holdsMachineCall] using h2, rfl⟩
  | .functionCall name args kw v, h => by
    cases hm : machineMethod name with
    | some c =>
      simp only [requestsAbsent, hm] at h
      cases hs : methodLiteral (info.get c.1) c.2 with
      | none => rw [hs] at h; cases h
      | some s =>
        exact ⟨.string s v, by simp [lowerObject, hm, hs, holdsMachineCall], rfl, rfl⟩
    | none =>
      simp only [requestsAbsent, hm, Bool.or_eq_false_iff] at h
      obtain ⟨a2, h1, h2, _⟩ := lowerList_ok info args h.1
      obtain ⟨k2, h3, h4⟩ := lowerDict_ok info kw h.2
      refine ⟨.functionCall name a2 k2 v, ?_, ?_, rfl⟩
      · simp [lowerObject, hm, h1, h3, holdsMachineCall]
      · have hm2 : machineMethod name = none := hm
        simp [holdsMachineCall, hm2, h2, h4]
  | .number a v, _ => ⟨.number a v, rfl, rfl, rfl⟩
  | .string a v, _ => ⟨.string a v, rfl, rfl, rfl⟩
  | .boolean a v, _ => ⟨.boolean a v, rfl, rfl, rfl⟩
  | .identifier a b v, _ => ⟨.identifier a b v, rfl, rfl, rfl⟩
  | .phi p, _ => ⟨.phi p, rfl, rfl, rfl⟩
/-- The walk over a sequence of objects none of which requests an absent
field. -/
theorem lowerList_ok (info : PerMachine Info) :
    ∀ l : List Object, requestsAbsentList info l = false →
      ∃ l2, lowerList info l = .ok (l2, holdsMachineCallList l) ∧
        holdsMachineCallList l2 = false ∧ l2.map Object.var = l.map Object.var
  | [], _ => ⟨[], rfl, rfl, rfl⟩
  | o :: l, h => by
    simp only [requestsAbsentList, Bool.or_eq_false_iff] at h
    obtain ⟨o2, h1, h2, h3⟩ := lowerObject_ok info o h.1
    obtain ⟨l2, h4, h5, h6⟩ := lowerList_ok info l h.2
    refine ⟨o2 :: l2, ?_, ?_, ?_⟩
    · simp only [lowerList, h1, h4, holdsMachineCallList]
    · simp only [holdsMachineCallList, h2, h5, Bool.or_self]
    · simp only [List.map_cons, h3, h6]
/-- The walk over a keyword map none of whose values requests an absent
field. -/
theorem lowerDict_ok (info : PerMachine Info) :
    ∀ l : List (String × Object), requestsAbsentDict info l = false →
      ∃ l2, lowerDict info l = .ok (l2, holdsMachineCallDict l) ∧
        holdsMachineCallDict l2 = false
  | [], _ => ⟨[], rfl, rfl⟩
  | (k, o) :: l, h => by
    simp only [requestsAbsentDict, Bool.or_eq_false_iff] at h
    obtain ⟨o2, h1, h2, _⟩ := lowerObject_ok info o h.1
    obtain ⟨l2, h4, h5⟩ := lowerDict_ok info l h.2
    refine ⟨(k, o2) :: l2, ?_, ?_⟩
    · simp only [lowerDict, h1, h4, holdsMachineCallDict]
    · simp only [holdsMachineCallDict, h2, h5, Bool.or_self]
end

/-! ### The walk when a requested field is absent -/

mutual
/-- When a call requests an absent field, the walk over the object raises. -/
theorem lowerObject_error (info : PerMachine Info) :
    ∀ o : Object, requestsAbsent info o = true → ∃ e, lowerObject info o = .error e
  | .array l v, h => by
    simp only [requestsAbsent] at h
    obtain ⟨e, he⟩ := lowerList_error info l h
    exact ⟨e, by simp only [lowerObject, he]⟩
  | .dict kv v, h => by
    simp only [requestsAbsent] at h
    obtain ⟨e, he⟩ := lowerDict_error info kv h
    exact ⟨e, by simp only [lowerObject, he]⟩
  | .functionCall name args kw v, h => by
    cases hm : machineMethod name with
    | some c =>
      simp only [requestsAbsent, hm] at h
      cases hs : methodLiteral (info.get c.1) c.2 with
      | none =>
        exact ⟨.InconsistentMachineInfo name, by simp only [lowerObject, hm, hs]⟩
      | some s => rw [hs] at h; cases h
    | none =>
      simp only [requestsAbsent, hm, Bool.or_eq_true] at h
      simp only [lowerObject, hm]
      cases ha : lowerList info args with
      | error e => exact ⟨e, rfl⟩
      | ok r =>
        cases hk : lowerDict info kw with
        | error e => exact ⟨e, rfl⟩
        | ok q =>
          exfalso
          rcases h with h | h
          · obtain ⟨e, he⟩ := lowerList_error info args h
            rw [he] at ha; cases ha
          · obtain ⟨e, he⟩ := lowerDict_error info kw h
            rw [he] at hk; cases hk
  | .number _ _, h => by simp [requestsAbsent] at h
  | .string _ _, h => by simp [requestsAbsent] at h
  | .boolean _ _, h => by simp [requestsAbsent] at h
  | .identifier _ _ _, h => by simp [requestsAbsent] at h
  | .phi _, h => by simp [requestsAbsent] at h
/-- When an object of the sequence requests an absent field, the walk raises. -/
theorem lowerList_error (info : PerMachine Info) :
    ∀ l : List Object, requestsAbsentList info l = true → ∃ e, lowerList info l = .error e
  | [], h => by simp [requestsAbsentList] at h
  | o :: l, h => by
    simp only [requestsAbsentList, Bool.or_eq_true] at h
    simp only [lowerList]
    cases ho : lowerObject info o with
    | error e => exact ⟨e, rfl⟩
    | ok r =>
      cases hl : lowerList info l with
      | error e => exact ⟨e, rfl⟩
      | ok q =>
        exfalso
        rcases h with h | h
        · obtain ⟨e, he⟩ := lowerObject_error info o h
          rw [he] at ho; cases ho
        · obtain ⟨e, he⟩ := lowerList_error info l h
          rw [he] at hl; cases hl
/-- When a value of the keyword map requests an absent field, the walk
raises. -/
theorem lowerDict_error (info : PerMachine Info) :
    ∀ l : List (String × Object), requestsAbsentDict info l = true →
      ∃ e, lowerDict info l = .error e
  | [], h => by simp [requestsAbsentDict] at h
  | (k, o) :: l, h => by
    simp only [requestsAbsentDict, Bool.or_eq_true] at h
    simp only [lowerDict]
    cases ho : lowerObject info o with
    | error e => exact ⟨e, rfl⟩
    | ok r =>
      cases hl : lowerDict info l with
      | error e => exact ⟨e, rfl⟩
      | ok q =>
        exfalso
        rcases h with h | h
        · obtain ⟨e, he⟩ := lowerObject_error info o h
          rw [he] at ho; cases ho
        · obtain ⟨e, he⟩ := lowerDict_error info l h
          rw [he] at hl; cases hl
end

end Passes

namespace Passes

open Machines

/-! ### The walk, place by place -/

/-- The pass raises `InconsistentMachineInfo` exactly when a call requests a
field absent from the machine information. -/
theorem machine_lower_error_iff (block : BasicBlock) (connector : Successor)
    (info : PerMachine Info) :
    (∃ e, machine_lower block connector info = .error e) ↔
      (requestsAbsentList info block.instructions = true ∨
        requestsAbsentSuccessor info connector = true) := by
  constructor
  · rintro ⟨e, he⟩
    by_contra hc
    simp only [not_or, Bool.not_eq_true] at hc
    obtain ⟨l2, h1, _⟩ := lowerList_ok info block.instructions hc.1
    simp only [machine_lower, h1] at he
    cases connector with
    | terminal => simp [lowerSuccessor] at he
    | next => simp [lowerSuccessor] at he
    | condition c =>
      obtain ⟨c2, h2, _⟩ := lowerObject_ok info c hc.2
      simp [lowerSuccessor, h2] at he
  · intro h
    simp only [machine_lower]
    cases hl : lowerList info block.instructions with
    | error e => exact ⟨e, rfl⟩
    | ok r =>
      cases hs : lowerSuccessor info connector with
      | error e => exact ⟨e, rfl⟩
      | ok q =>
        exfalso
        rcases h with h | h
        · obtain ⟨e, he⟩ := lowerList_error info block.instructions h
          rw [he] at hl; cases hl
        · cases connector with
          | terminal => simp [requestsAbsentSuccessor] at h
          | next => simp [requestsAbsentSuccessor] at h
          | condition c =>
            obtain ⟨e, he⟩ := lowerObject_error info c h
            simp only [lowerSuccessor, he] at hs
            cases hs

end Passes

namespace Passes

/-- The three programs of `const_folding_test.cpp`: `x = 9; y = x; message(y)`,
`x = 9; y = x; z = y; message(z)` and `x = 9; x = 10; y = x; message(y)`. -/
theorem block_walker_tests :
    (block_walker 3 (WalkState.initial (lowerProgram
        [.assign "x" (.number 9), .copy "y" "x", .call "" "message" ["y"]]))).map
          (fun s => s.instructions) =
      some [.number 9 ⟨"x", 1⟩, .identifier "x" 1 ⟨"y", 1⟩,
        .functionCall "message" [.identifier "x" 1 ⟨"", 0⟩] [] ⟨"", 0⟩] ∧
    (block_walker 3 (WalkState.initial (lowerProgram
        [.assign "x" (.number 9), .copy "y" "x", .copy "z" "y",
          .call "" "message" ["z"]]))).map (fun s => s.instructions) =
      some [.number 9 ⟨"x", 1⟩, .identifier "x" 1 ⟨"y", 1⟩, .identifier "x" 1 ⟨"z", 1⟩,
        .functionCall "message" [.identifier "x" 1 ⟨"", 0⟩] [] ⟨"", 0⟩] ∧
    (block_walker 3 (WalkState.initial (lowerProgram
        [.assign "x" (.number 9), .assign "x" (.number 10), .copy "y" "x",
          .call "" "message" ["y"]]))).map (fun s => s.instructions) =
      some [.number 9 ⟨"x", 1⟩, .number 10 ⟨"x", 2⟩, .identifier "x" 2 ⟨"y", 1⟩,
        .functionCall "message" [.identifier "x" 2 ⟨"", 0⟩] [] ⟨"", 0⟩] := by
  decide

end Passes

namespace Passes

/-! ## The three passes as one walk -/

theorem setEntry_same {κ α : Type} [DecidableEq κ] (t : κ → α) (k : κ) (x : α) :
    setEntry t k x k = x := by
  simp [setEntry]

theorem setEntry_ne {κ α : Type} [DecidableEq κ] (t : κ → α) (k j : κ) (x : α) (h : j ≠ k) :
    setEntry t k x j = t j := by
  simp [setEntry, h]

theorem setEntry_eq_self {κ α : Type} [DecidableEq κ] (t : κ → α) (k : κ) (x : α)
    (h : t k = x) : setEntry t k x = t := by
  funext j
  by_cases hj : j = k
  · subst hj; simp [setEntry, h]
  · simp [setEntry, hj]

/-- Running the three passes one after the other over the block is running
`fusedStep` once over the block. -/
theorem runPass_fused (l : List Object) :
    ∀ (data : ValueTable) (lst : LastSeenTable) (rt : ReplacementTable),
      (runPass fusedStep (data, lst, rt) l).1 =
          ((runPass numberStep data l).1,
            (runPass usageStep lst (runPass numberStep data l).2.1).1,
            (runPass foldStep rt
              (runPass usageStep lst (runPass numberStep data l).2.1).2.1).1) ∧
        (runPass fusedStep (data, lst, rt) l).2.1 =
          (runPass foldStep rt
            (runPass usageStep lst (runPass numberStep data l).2.1).2.1).2.1 ∧
        (runPass fusedStep (data, lst, rt) l).2.2 =
          ((runPass numberStep data l).2.2 ||
            (runPass usageStep lst (runPass numberStep data l).2.1).2.2 ||
            (runPass foldStep rt
              (runPass usageStep lst (runPass numberStep data l).2.1).2.1).2.2) := by
  induction l with
  | nil => intro data lst rt; simp [runPass]
  | cons o l ih =>
    intro data lst rt
    obtain ⟨h1, h2, h3⟩ := ih (numberStep data o).1 (usageStep lst (numberStep data o).2.1).1
      (foldStep rt (usageStep lst (numberStep data o).2.1).2.1).1
    refine ⟨?_, ?_, ?_⟩
    · simp only [runPass, fusedStep]
      exact h1
    · simp only [runPass, fusedStep]
      rw [h2]
    · simp only [runPass, fusedStep]
      rw [h3]
      generalize (numberStep data o).2.2 = a
      generalize (usageStep lst (numberStep data o).2.1).2.2 = b
      generalize (foldStep rt (usageStep lst (numberStep data o).2.1).2.1).2.2 = c
      generalize (runPass numberStep (numberStep data o).1 l).2.2 = d
      generalize (runPass usageStep (usageStep lst (numberStep data o).2.1).1
        (runPass numberStep (numberStep data o).1 l).2.1).2.2 = e
      generalize (runPass foldStep (foldStep rt (usageStep lst (numberStep data o).2.1).2.1).1
        (runPass usageStep (usageStep lst (numberStep data o).2.1).1
          (runPass numberStep (numberStep data o).1 l).2.1).2.1).2.2 = f
      cases a <;> cases b <;> cases c <;> cases d <;> cases e <;> cases f <;> rfl

theorem sweepPasses_eq (s : WalkState) :
    (sweepPasses s).1 = (runPass fusedStep (s.data, s.lst, s.rt) s.instructions).2.2 ∧
      (sweepPasses s).2.instructions =
        (runPass fusedStep (s.data, s.lst, s.rt) s.instructions).2.1 ∧
      ((sweepPasses s).2.data, (sweepPasses s).2.lst, (sweepPasses s).2.rt) =
        (runPass fusedStep (s.data, s.lst, s.rt) s.instructions).1 := by
  obtain ⟨h1, h2, h3⟩ := runPass_fused s.instructions s.data s.lst s.rt
  simp only [sweepPasses, value_numbering, usage_numbering, constant_folding]
  exact ⟨h3.symm, h2.symm, h1.symm⟩

/-! ## Literals -/

theorem toObject_var (l : Literal) (v : Variable) : (l.toObject v).var = v := by
  cases l <;> rfl

theorem setVersion_toObject (l : Literal) (v : Variable) (n : Nat) :
    setVersion (l.toObject v) n = l.toObject ⟨v.name, n⟩ := by
  cases l <;> rfl

theorem useObject_toObject (lst : LastSeenTable) (l : Literal) (v : Variable) :
    useObject lst (l.toObject v) = l.toObject v := by
  cases l <;> simp [Literal.toObject, useObject]

theorem foldObject_toObject (rt : ReplacementTable) (l : Literal) (v : Variable) :
    foldObject rt (l.toObject v) = l.toObject v := by
  cases l <;> simp [Literal.toObject, foldObject]

theorem foldRecord_toObject (rt : ReplacementTable) (l : Literal) (v : Variable) :
    foldRecord rt (l.toObject v) = setEntry rt v (some v) := by
  cases l <;> simp [Literal.toObject, foldRecord]

theorem settled_toObject (c : String → Nat) (rt : ReplacementTable) (l : Literal)
    (v : Variable) (h1 : v.name ≠ "" → v.version ≠ 0) (h2 : rt v = some v) :
    Settled c rt (l.toObject v) := by
  cases l <;> exact ⟨h1, h2⟩

end Passes

namespace Passes

/-! ## Instructions the passes leave alone -/

theorem extends_refl (c : String → Nat) (rt : ReplacementTable) : Extends c rt c rt :=
  ⟨fun _ => le_refl _, fun _ _ => rfl⟩

theorem extends_trans {c₁ c₂ c₃ : String → Nat} {rt₁ rt₂ rt₃ : ReplacementTable}
    (h₁ : Extends c₁ rt₁ c₂ rt₂) (h₂ : Extends c₂ rt₂ c₃ rt₃) : Extends c₁ rt₁ c₃ rt₃ := by
  refine ⟨fun n => le_trans (h₁.1 n) (h₂.1 n), fun κ hκ => ?_⟩
  have e₁ := h₁.2 κ hκ
  have hκ₂ : (rt₂ κ).isSome = true ∨ κ.version ≤ c₂ κ.name := by
    rcases hκ with h | h
    · left; rw [e₁]; exact h
    · right; exact le_trans h (h₁.1 _)
  rw [h₂.2 κ hκ₂, e₁]

theorem targetOk_extends {c₁ c₂ : String → Nat} {rt₁ rt₂ : ReplacementTable} {τ : Variable}
    (h : TargetOk c₁ rt₁ τ) (he : Extends c₁ rt₁ c₂ rt₂) : TargetOk c₂ rt₂ τ := by
  obtain ⟨hv, hrt⟩ := h
  refine ⟨hv, ?_⟩
  rcases hrt with hs | ⟨hn, hb⟩
  · left
    rw [he.2 τ (Or.inl (by rw [hs]; rfl))]
    exact hs
  · right
    exact ⟨by rw [he.2 τ (Or.inr hb)]; exact hn, le_trans hb (he.1 _)⟩

theorem settled_extends {c₁ c₂ : String → Nat} {rt₁ rt₂ : ReplacementTable} {o : Object}
    (h : Settled c₁ rt₁ o) (he : Extends c₁ rt₁ c₂ rt₂) : Settled c₂ rt₂ o := by
  have hsome : ∀ κ ρ : Variable, rt₁ κ = some ρ → rt₂ κ = some ρ := by
    intro κ ρ hκ
    rw [he.2 κ (Or.inl (by rw [hκ]; rfl))]
    exact hκ
  cases o with
  | number a v => exact ⟨h.1, hsome _ _ h.2⟩
  | string a v => exact ⟨h.1, hsome _ _ h.2⟩
  | boolean a v => exact ⟨h.1, hsome _ _ h.2⟩
  | identifier t tv v =>
    obtain ⟨h1, h2, h3⟩ := h
    refine ⟨h1, targetOk_extends h2 he, ?_⟩
    intro h4
    rcases h2.2 with hs | ⟨hn, hb⟩
    · exact hsome _ _ (h3 hs)
    · rw [he.2 _ (Or.inr hb), hn] at h4
      cases h4
  | functionCall f args kw v =>
    obtain ⟨h1, h2, h3⟩ := h
    refine ⟨h1, h2, ?_⟩
    intro a ha
    obtain ⟨τ, hτ, hok⟩ := h3 a ha
    exact ⟨τ, hτ, targetOk_extends hok he⟩
  | array l v => exact h.elim
  | dict l v => exact h.elim
  | phi p => exact h.elim

theorem numberStep_skip (data : ValueTable) (o : Object)
    (h : o.var.name ≠ "" → o.var.version ≠ 0) : numberStep data o = (data, o, false) := by
  simp only [numberStep]
  rw [if_neg]
  intro hc
  simp only [Bool.and_eq_true, Variable.toBool, decide_eq_true_eq, beq_iff_eq] at hc
  exact h hc.1 hc.2

theorem useList_settled (c : String → Nat) (lst : LastSeenTable) (rt : ReplacementTable) :
    ∀ args : List Object,
      (∀ a ∈ args, ∃ τ : Variable, a = .identifier τ.name τ.version ⟨"", 0⟩ ∧
        TargetOk c rt τ) →
      useList lst args = args
  | [], _ => by simp [useList]
  | a :: rest, h => by
    obtain ⟨τ, hτ, hok⟩ := h a (List.mem_cons_self _ _)
    subst hτ
    simp only [useList, useObject, hok.1, if_false]
    rw [useList_settled c lst rt rest (fun b hb => h b (List.mem_cons_of_mem _ hb))]

theorem foldList_settled (c : String → Nat) (rt : ReplacementTable) :
    ∀ args : List Object,
      (∀ a ∈ args, ∃ τ : Variable, a = .identifier τ.name τ.version ⟨"", 0⟩ ∧
        TargetOk c rt τ) →
      foldList rt args = args
  | [], _ => by simp [foldList]
  | a :: rest, h => by
    obtain ⟨τ, hτ, hok⟩ := h a (List.mem_cons_self _ _)
    subst hτ
    have ih := foldList_settled c rt rest (fun b hb => h b (List.mem_cons_of_mem _ hb))
    simp only [foldList, foldObject, ih]
    rcases hok.2 with hs | ⟨hn, _⟩
    · rw [hs]
    · rw [hn]

theorem useObject_settled (c : String → Nat) (lst : LastSeenTable) (rt : ReplacementTable)
    (o : Object) (h : Settled c rt o) : useObject lst o = o := by
  cases o with
  | number a v => simp [useObject]
  | string a v => simp [useObject]
  | boolean a v => simp [useObject]
  | identifier t tv v =>
    have : tv ≠ 0 := h.2.1.1
    simp [useObject, this]
  | functionCall f args kw v =>
    obtain ⟨h1, _, h3⟩ := h
    subst h1
    simp [useObject, useDict, useList_settled c lst rt args h3]
  | array l v => exact h.elim
  | dict l v => exact h.elim
  | phi p => exact h.elim

theorem foldObject_settled (c : String → Nat) (rt : ReplacementTable)
    (o : Object) (h : Settled c rt o) : foldObject rt o = o := by
  cases o with
  | number a v => simp [foldObject]
  | string a v => simp [foldObject]
  | boolean a v => simp [foldObject]
  | identifier t tv v =>
    simp only [foldObject]
    rcases h.2.1.2 with hs | ⟨hn, _⟩
    · rw [hs]
    · rw [hn]
  | functionCall f args kw v =>
    obtain ⟨h1, _, h3⟩ := h
    subst h1
    simp [foldObject, foldDict, foldList_settled c rt args h3]
  | array l v => exact h.elim
  | dict l v => exact h.elim
  | phi p => exact h.elim

theorem foldRecord_settled (c : String → Nat) (rt : ReplacementTable)
    (o : Object) (h : Settled c rt o) : foldRecord rt o = rt := by
  cases o with
  | number a v => exact setEntry_eq_self rt v _ h.2
  | string a v => exact setEntry_eq_self rt v _ h.2
  | boolean a v => exact setEntry_eq_self rt v _ h.2
  | identifier t tv v =>
    simp only [foldRecord]
    rcases h.2.1.2 with hs | ⟨hn, _⟩
    · rw [hs]
      exact setEntry_eq_self rt v _ (h.2.2 hs)
    · rw [hn]
  | functionCall f args kw v => rfl
  | array l v => exact h.elim
  | dict l v => exact h.elim
  | phi p => exact h.elim

theorem settled_var (c : String → Nat) (rt : ReplacementTable) (o : Object)
    (h : Settled c rt o) : o.var.name ≠ "" → o.var.version ≠ 0 := by
  cases o with
  | number a v => exact h.1
  | string a v => exact h.1
  | boolean a v => exact h.1
  | identifier t tv v => exact h.1
  | functionCall f args kw v => exact h.2.1
  | array l v => exact h.elim
  | dict l v => exact h.elim
  | phi p => exact h.elim

/-- The three passes leave a settled instruction alone and report no
progress; only the last-seen table is written. -/
theorem fusedStep_settled (c : String → Nat) (data : ValueTable) (lst : LastSeenTable)
    (rt : ReplacementTable) (o : Object) (h : Settled c rt o) :
    fusedStep (data, lst, rt) o =
      ((data, setEntry lst o.var.name o.var.version, rt), o, false) := by
  simp only [fusedStep, numberStep_skip data o (settled_var c rt o h), usageStep,
    useObject_settled c lst rt o h, foldStep, foldObject_settled c rt o h,
    foldRecord_settled c rt o h]
  simp

/-- A sweep over settled instructions changes no instruction and reports no
progress. -/
theorem runPass_settled (c : String → Nat) (data : ValueTable) (rt : ReplacementTable) :
    ∀ (l : List Object) (lst : LastSeenTable), (∀ o ∈ l, Settled c rt o) →
      (runPass fusedStep (data, lst, rt) l).2 = (l, false)
  | [], _, _ => by simp [runPass]
  | o :: l, lst, h => by
    have ih := runPass_settled c data rt l (setEntry lst o.var.name o.var.version)
      (fun x hx => h x (List.mem_cons_of_mem _ hx))
    simp only [runPass, fusedStep_settled c data lst rt o (h o (List.mem_cons_self _ _))]
    rw [ih]
    simp

end Passes

namespace Passes

/-! ## The first sweep, statement by statement -/

theorem numberStep_fresh (data : ValueTable) (o : Object) (n : String)
    (hvar : o.var = ⟨n, 0⟩) (hn : n ≠ "") (hfit : data.get n + 1 < U32) :
    numberStep data o = (data.incr n, setVersion o (data.get n + 1), true) := by
  simp only [numberStep, hvar, Variable.toBool]
  rw [if_pos (by simp [hn]), get_incr_same, Nat.mod_eq_of_lt hfit]

/-- The target of a read of a name defined before: what constant folding makes
of the read, and why a later sweep leaves it alone. -/
theorem target_ok {r : Resolution} {data : ValueTable} {lst : LastSeenTable}
    {rt : ReplacementTable} {k : Nat} (hinv : TablesAgree r data lst rt k) (s : String)
    (hs : 1 ≤ r.counts s) (v : Variable) :
    TargetOk r.counts rt (r.target s) ∧
      foldObject rt (.identifier s (r.counts s) v) =
        .identifier (r.target s).name (r.target s).version v ∧
      foldRecord rt (.identifier s (r.counts s) v) =
        (match r.roots s with
          | some ρ => setEntry rt v (some ρ)
          | none => rt) := by
  have hcur := hinv.current s hs
  rcases hroot : r.roots s with _ | ρ
  · rw [hroot] at hcur
    refine ⟨⟨?_, Or.inr ⟨?_, ?_⟩⟩, ?_, ?_⟩
    · simp only [Resolution.target, hroot, Option.getD_none]; omega
    · simp only [Resolution.target, hroot, Option.getD_none]; exact hcur
    · simp only [Resolution.target, hroot, Option.getD_none]; exact le_refl _
    · simp only [Resolution.target, hroot, Option.getD_none, foldObject, hcur]
    · simp only [foldRecord, hcur]
  · rw [hroot] at hcur
    obtain ⟨h1, h2⟩ := hinv.fixed s ρ hroot
    refine ⟨⟨?_, Or.inl ?_⟩, ?_, ?_⟩
    · simp only [Resolution.target, hroot, Option.getD_some]; exact h2
    · simp only [Resolution.target, hroot, Option.getD_some]; exact h1
    · simp only [Resolution.target, hroot, Option.getD_some, foldObject, hcur]
    · simp only [foldRecord, hcur]

/-- The tables after the definition of the name `n`, whose chain of copies ends
at `root`, agree with the resolution state after it. -/
theorem tablesAgree_define {r : Resolution} {data : ValueTable} {lst : LastSeenTable}
    {rt : ReplacementTable} {k : Nat} (hinv : TablesAgree r data lst rt (k + 1))
    (n : String) (hn : n ≠ "") (root : Option Variable)
    (hroot : ∀ ρ, root = some ρ →
      ρ = ⟨n, r.counts n + 1⟩ ∨ (rt ρ = some ρ ∧ ρ.version ≠ 0)) :
    TablesAgree ⟨setEntry r.counts n (r.counts n + 1), setEntry r.roots n root⟩
        (data.incr n) (setEntry lst n (r.counts n + 1))
        (setEntry rt ⟨n, r.counts n + 1⟩ root) k ∧
      Extends r.counts rt (setEntry r.counts n (r.counts n + 1))
        (setEntry rt ⟨n, r.counts n + 1⟩ root) := by
  have hkey : rt ⟨n, r.counts n + 1⟩ = none := hinv.fresh n _ (Or.inr (Nat.lt_succ_self _))
  have hle : ∀ m, r.counts m ≤ setEntry r.counts n (r.counts n + 1) m := by
    intro m
    by_cases hm : m = n
    · subst hm; rw [setEntry_same]; omega
    · rw [setEntry_ne _ _ _ _ hm]
  have hsome : ∀ ρ : Variable, rt ρ = some ρ →
      setEntry rt ⟨n, r.counts n + 1⟩ root ρ = some ρ := by
    intro ρ hρ
    have hne : ρ ≠ ⟨n, r.counts n + 1⟩ := by
      intro he
      rw [he, hkey] at hρ
      cases hρ
    rw [setEntry_ne _ _ _ _ hne]
    exact hρ
  refine ⟨⟨?_, ?_, ?_, ?_, ?_, ?_, ?_⟩, hle, ?_⟩ <;> dsimp only
  · rw [setEntry_ne _ _ _ _ (Ne.symm hn)]
    exact hinv.unnamed
  · intro m hm
    by_cases hmn : m = n
    · subst hmn
      rw [get_incr_same, setEntry_same, hinv.data_eq m hm]
      have := hinv.bound m
      exact Nat.mod_eq_of_lt (by omega)
    · rw [get_incr_ne _ _ _ hmn, setEntry_ne _ _ _ _ hmn]
      exact hinv.data_eq m hm
  · intro m
    by_cases hmn : m = n
    · subst hmn; rw [setEntry_same, setEntry_same]
    · rw [setEntry_ne _ _ _ _ hmn, setEntry_ne _ _ _ _ hmn]
      exact hinv.lst_eq m
  · intro m hm
    by_cases hmn : m = n
    · subst hmn
      simp only [setEntry_same]
    · simp only [setEntry_ne _ _ _ _ hmn] at hm ⊢
      have hne : (⟨m, r.counts m⟩ : Variable) ≠ ⟨n, r.counts n + 1⟩ := by
        intro he
        exact hmn (congrArg Variable.name he)
      rw [setEntry_ne _ _ _ _ hne]
      exact hinv.current m hm
  · intro m v hv
    have hne : (⟨m, v⟩ : Variable) ≠ ⟨n, r.counts n + 1⟩ := by
      intro he
      have h1 : m = n := congrArg Variable.name he
      have h2 : v = r.counts n + 1 := congrArg Variable.version he
      subst h1
      rw [setEntry_same] at hv
      omega
    rw [setEntry_ne _ _ _ _ hne]
    apply hinv.fresh
    have := hle m
    omega
  · intro m ρ hρ
    have hold : ρ = ⟨n, r.counts n + 1⟩ ∨ (rt ρ = some ρ ∧ ρ.version ≠ 0) := by
      by_cases hmn : m = n
      · subst hmn
        rw [setEntry_same] at hρ
        exact hroot ρ hρ
      · rw [setEntry_ne _ _ _ _ hmn] at hρ
        exact Or.inr (hinv.fixed m ρ hρ)
    rcases hold with he | ⟨h1, h2⟩
    · have hr : root = some ρ := by
        by_cases hmn : m = n
        · subst hmn
          rw [setEntry_same] at hρ
          exact hρ
        · rw [setEntry_ne _ _ _ _ hmn] at hρ
          have := (hinv.fixed m ρ hρ).1
          rw [he, hkey] at this
          cases this
      subst he
      rw [setEntry_same]
      exact ⟨hr, Nat.succ_ne_zero _⟩
    · exact ⟨hsome ρ h1, h2⟩
  · intro m
    have := hinv.bound m
    by_cases hmn : m = n
    · subst hmn; rw [setEntry_same]; omega
    · rw [setEntry_ne _ _ _ _ hmn]; omega
  · intro κ hκ
    have hne : κ ≠ ⟨n, r.counts n + 1⟩ := by
      intro he
      subst he
      rcases hκ with h | h
      · rw [hkey] at h; cases h
      · simp only at h; omega
    exact setEntry_ne _ _ _ _ hne

end Passes

namespace Passes

theorem useList_reads (lst : LastSeenTable) (args : List String) :
    useList lst (args.map readOf) = args.map (fun a => Object.identifier a (lst a) ⟨"", 0⟩) := by
  induction args with
  | nil => simp [useList]
  | cons a rest ih => simp [useList, useObject, readOf, ih]

theorem foldList_reads {r : Resolution} {data : ValueTable} {lst : LastSeenTable}
    {rt : ReplacementTable} {k : Nat} (hinv : TablesAgree r data lst rt k)
    (args : List String) (h : ∀ a ∈ args, 1 ≤ r.counts a) :
    foldList rt (args.map (fun a => Object.identifier a (r.counts a) ⟨"", 0⟩)) =
      args.map (resolvedRead r) := by
  induction args with
  | nil => simp [foldList]
  | cons a rest ih =>
    simp only [List.map_cons, foldList]
    rw [(target_ok hinv a (h a (List.mem_cons_self _ _)) ⟨"", 0⟩).2.1,
      ih (fun b hb => h b (List.mem_cons_of_mem _ hb))]
    rfl

/-- The first sweep on one statement: the three passes turn its initial MIR into
the resolved instruction, the tables follow the resolution state, and the
instruction is settled. -/
theorem fusedStep_stmt {r : Resolution} {data : ValueTable} {lst : LastSeenTable}
    {rt : ReplacementTable} {k : Nat} (hinv : TablesAgree r data lst rt (k + 1))
    (s : Stmt) (hwf : s.wellFormed r = true) :
    ∃ data2 lst2 rt2, (fusedStep (data, lst, rt) (lowerStmt s)).1 = (data2, lst2, rt2) ∧
      (fusedStep (data, lst, rt) (lowerStmt s)).2.1 = resolvedStmt r s ∧
      TablesAgree (r.after s) data2 lst2 rt2 k ∧
      Extends r.counts rt (r.after s).counts rt2 ∧
      Settled (r.after s).counts rt2 (resolvedStmt r s) := by
  have hfit : ∀ n, n ≠ "" → data.get n + 1 < U32 := by
    intro n hn
    rw [hinv.data_eq n hn]
    have := hinv.bound n
    omega
  have hkey : ∀ n, rt ⟨n, r.counts n + 1⟩ = none :=
    fun n => hinv.fresh n _ (Or.inr (Nat.lt_succ_self _))
  cases s with
  | assign n l =>
    have hn : n ≠ "" := by simpa [Stmt.wellFormed] using hwf
    obtain ⟨hagree, hext⟩ := tablesAgree_define hinv n hn (some ⟨n, r.counts n + 1⟩)
      (fun ρ hρ => Or.inl (by cases hρ; rfl))
    refine ⟨data.incr n, setEntry lst n (r.counts n + 1),
      setEntry rt ⟨n, r.counts n + 1⟩ (some ⟨n, r.counts n + 1⟩), ?_, ?_, hagree, hext, ?_⟩
    · simp only [fusedStep, lowerStmt,
        numberStep_fresh data _ n (toObject_var _ _) hn (hfit n hn), setVersion_toObject,
        usageStep, useObject_toObject, toObject_var, foldStep, foldRecord_toObject,
        hinv.data_eq n hn]
    · simp only [fusedStep, lowerStmt,
        numberStep_fresh data _ n (toObject_var _ _) hn (hfit n hn), setVersion_toObject,
        usageStep, useObject_toObject, foldStep, foldObject_toObject, hinv.data_eq n hn,
        resolvedStmt]
    · simp only [resolvedStmt, Resolution.after]
      apply settled_toObject
      · intro _; exact Nat.succ_ne_zero _
      · exact setEntry_same _ _ _
  | copy n s =>
    have hw : n ≠ "" ∧ 1 ≤ r.counts s := by simpa [Stmt.wellFormed] using hwf
    obtain ⟨hn, hs⟩ := hw
    obtain ⟨htok, hfold, hrec⟩ := target_ok hinv s hs ⟨n, r.counts n + 1⟩
    obtain ⟨hagree, hext⟩ := tablesAgree_define hinv n hn (r.roots s)
      (fun ρ hρ => Or.inr (hinv.fixed s ρ hρ))
    have hrt : (match r.roots s with
        | some ρ => setEntry rt ⟨n, r.counts n + 1⟩ (some ρ)
        | none => rt) = setEntry rt ⟨n, r.counts n + 1⟩ (r.roots s) := by
      rcases r.roots s with _ | ρ
      · exact (setEntry_eq_self rt _ _ (hkey n)).symm
      · rfl
    have hnum : numberStep data (Object.identifier s 0 ⟨n, 0⟩) =
        (data.incr n, Object.identifier s 0 ⟨n, r.counts n + 1⟩, true) := by
      rw [numberStep_fresh data (Object.identifier s 0 ⟨n, 0⟩) n rfl hn (hfit n hn),
        hinv.data_eq n hn]
      rfl
    have huse : useObject lst (Object.identifier s 0 ⟨n, r.counts n + 1⟩) =
        Object.identifier s (r.counts s) ⟨n, r.counts n + 1⟩ := by
      simp [useObject, hinv.lst_eq]
    refine ⟨data.incr n, setEntry lst n (r.counts n + 1),
      setEntry rt ⟨n, r.counts n + 1⟩ (r.roots s), ?_, ?_, hagree, hext, ?_⟩
    · simp only [fusedStep, lowerStmt, hnum, usageStep, huse, foldStep, hrec, hrt]
      rfl
    · simp only [fusedStep, lowerStmt, hnum, usageStep, huse, foldStep, hfold, resolvedStmt]
    · simp only [resolvedStmt, Resolution.after]
      refine ⟨fun _ => Nat.succ_ne_zero _, targetOk_extends htok hext, ?_⟩
      intro hsome
      rcases hroot : r.roots s with _ | ρ
      · exfalso
        have hcur := hinv.current s hs
        have htgt : r.target s = ⟨s, r.counts s⟩ := by
          simp [Resolution.target, hroot]
        rw [htgt] at hsome
        have hsame := hext.2 ⟨s, r.counts s⟩ (Or.inr (le_refl _))
        rw [hroot] at hcur
        simp only [hroot] at hsame hsome
        rw [hsame, hcur] at hsome
        cases hsome
      · have htgt : r.target s = ρ := by simp [Resolution.target, hroot]
        rw [htgt]
        simp only [setEntry_same]
  | call res f args =>
    have hargs : ∀ a ∈ args, 1 ≤ r.counts a := by
      simpa [Stmt.wellFormed] using hwf
    have hfoldl := foldList_reads hinv args hargs
    have huse : ∀ v, useObject lst (Object.functionCall f (args.map readOf) [] v) =
        Object.functionCall f (args.map (fun a => Object.identifier a (r.counts a) ⟨"", 0⟩))
          [] v := by
      intro v
      simp only [useObject, useList_reads, useDict, hinv.lst_eq]
    have hfold : ∀ v, foldObject rt
        (Object.functionCall f (args.map (fun a => Object.identifier a (r.counts a) ⟨"", 0⟩))
          [] v) = Object.functionCall f (args.map (resolvedRead r)) [] v := by
      intro v
      simp only [foldObject, hfoldl, foldDict]
    have hok : ∀ a ∈ args.map (resolvedRead r), ∃ τ : Variable,
        a = Object.identifier τ.name τ.version ⟨"", 0⟩ ∧ TargetOk r.counts rt τ := by
      intro a ha
      obtain ⟨b, hb, rfl⟩ := List.mem_map.1 ha
      exact ⟨r.target b, rfl, (target_ok hinv b (hargs b hb) ⟨"", 0⟩).1⟩
    by_cases hres : res = ""
    · subst hres
      have hnum : numberStep data (Object.functionCall f (args.map readOf) [] ⟨"", 0⟩) =
          (data, Object.functionCall f (args.map readOf) [] ⟨"", 0⟩, false) :=
        numberStep_skip data _ (fun h => absurd rfl h)
      have hlst : setEntry lst "" 0 = lst :=
        setEntry_eq_self lst "" 0 (by rw [hinv.lst_eq, hinv.unnamed])
      refine ⟨data, lst, rt, ?_, ?_, ?_, ?_, ?_⟩
      · simp only [fusedStep, lowerStmt, hnum, usageStep, huse, foldStep, foldRecord,
          Object.var, hlst]
      · simp only [fusedStep, lowerStmt, hnum, usageStep, huse, foldStep, hfold,
          resolvedStmt, if_true]
      · simp only [Resolution.after, if_true]
        exact ⟨hinv.unnamed, hinv.data_eq, hinv.lst_eq, hinv.current, hinv.fresh,
          hinv.fixed, fun n => by have := hinv.bound n; omega⟩
      · simp only [Resolution.after, if_true]
        exact extends_refl _ _
      · simp only [resolvedStmt, Resolution.after, if_true]
        exact ⟨rfl, fun h => absurd rfl h, hok⟩
    · obtain ⟨hagree, hext⟩ := tablesAgree_define hinv res hres none
        (fun ρ hρ => by cases hρ)
      have hrt : setEntry rt ⟨res, r.counts res + 1⟩ none = rt :=
        setEntry_eq_self rt _ _ (hkey res)
      rw [hrt] at hagree hext
      have hnum : numberStep data (Object.functionCall f (args.map readOf) [] ⟨res, 0⟩) =
          (data.incr res,
            Object.functionCall f (args.map readOf) [] ⟨res, r.counts res + 1⟩, true) := by
        rw [numberStep_fresh data (Object.functionCall f (args.map readOf) [] ⟨res, 0⟩) res rfl
          hres (hfit res hres), hinv.data_eq res hres]
        rfl
      refine ⟨data.incr res, setEntry lst res (r.counts res + 1), rt, ?_, ?_, ?_, ?_, ?_⟩
      · simp only [fusedStep, lowerStmt, hnum, usageStep, huse, foldStep, foldRecord,
          Object.var]
      · simp only [fusedStep, lowerStmt, hnum, usageStep, huse, foldStep, hfold,
          resolvedStmt, hres, if_false]
      · simp only [Resolution.after, hres, if_false]
        exact hagree
      · simp only [Resolution.after, hres, if_false]
        exact hext
      · simp only [resolvedStmt, Resolution.after, hres, if_false]
        refine ⟨rfl, fun _ => Nat.succ_ne_zero _, ?_⟩
        intro a ha
        obtain ⟨τ, hτ, hτok⟩ := hok a ha
        exact ⟨τ, hτ, targetOk_extends hτok hext⟩

end Passes

namespace Passes

/-! ## The first sweep over a program, and the walk -/

/-- The first sweep over the initial MIR of a well-formed program leaves the
resolved instructions, all of them settled with respect to the final tables. -/
theorem runPass_program : ∀ (prog : List Stmt) (r : Resolution) (data : ValueTable)
    (lst : LastSeenTable) (rt : ReplacementTable),
    TablesAgree r data lst rt prog.length → wellFormedProgram r prog = true →
    ∃ data2 lst2 rt2,
      (runPass fusedStep (data, lst, rt) (lowerProgram prog)).1 = (data2, lst2, rt2) ∧
      (runPass fusedStep (data, lst, rt) (lowerProgram prog)).2.1 = resolvedProgram r prog ∧
      Extends r.counts rt (r.afterAll prog).counts rt2 ∧
      ∀ o ∈ resolvedProgram r prog, Settled (r.afterAll prog).counts rt2 o
  | [], r, data, lst, rt, _, _ =>
    ⟨data, lst, rt, rfl, rfl, extends_refl _ _, fun o ho => by cases ho⟩
  | s :: rest, r, data, lst, rt, hinv, hwf => by
    have hw : s.wellFormed r = true ∧ wellFormedProgram (r.after s) rest = true := by
      simpa [wellFormedProgram] using hwf
    obtain ⟨d1, l1, t1, hst, hout, hagree, hext, hset⟩ :=
      fusedStep_stmt (show TablesAgree r data lst rt (rest.length + 1) from hinv) s hw.1
    obtain ⟨d2, l2, t2, hst2, hout2, hext2, hset2⟩ :=
      runPass_program rest (r.after s) d1 l1 t1 hagree hw.2
    refine ⟨d2, l2, t2, ?_, ?_, ?_, ?_⟩
    · simp only [lowerProgram, List.map_cons, runPass, hst]
      exact hst2
    · simp only [lowerProgram, List.map_cons, runPass, hst, hout, resolvedProgram]
      rw [← hout2]
      rfl
    · exact extends_trans hext hext2
    · intro o ho
      simp only [resolvedProgram, List.mem_cons] at ho
      rcases ho with rfl | ho
      · exact settled_extends hset hext2
      · exact hset2 o ho

theorem tablesAgree_initial (k : Nat) (hk : k < U32) :
    TablesAgree Resolution.initial [] (fun _ => 0) (fun _ => none) k :=
  ⟨rfl, fun _ _ => rfl, fun _ => rfl, fun _ h => absurd h (by simp [Resolution.initial]),
    fun _ _ _ => rfl, fun _ _ h => by simp [Resolution.initial] at h,
    fun _ => by simpa [Resolution.initial] using hk⟩

/-- When the first sweep leaves settled instructions, the walk ends after the
second sweep at the latest, with these instructions. -/
theorem block_walker_two (s : WalkState) (l : List Object) (c : String → Nat)
    (d2 : ValueTable) (l2 : LastSeenTable) (t2 : ReplacementTable)
    (hst : (runPass fusedStep (s.data, s.lst, s.rt) s.instructions).1 = (d2, l2, t2))
    (hout : (runPass fusedStep (s.data, s.lst, s.rt) s.instructions).2.1 = l)
    (hset : ∀ o ∈ l, Settled c t2 o) (f : Nat) :
    (block_walker (f + 2) s).map (fun s => s.instructions) = some l := by
  obtain ⟨_, h2, h3⟩ := sweepPasses_eq s
  have hi : (sweepPasses s).2.instructions = l := h2.trans hout
  have hr : (sweepPasses s).2.rt = t2 := congrArg (fun p => p.2.2) (h3.trans hst)
  obtain ⟨g1, g2, _⟩ := sweepPasses_eq (sweepPasses s).2
  have hs := runPass_settled c (sweepPasses s).2.data t2 l (sweepPasses s).2.lst hset
  rw [hi, hr, hs] at g1 g2
  show Option.map _ (if _ then _ else _) = _
  split_ifs with hp
  · show Option.map _ (if _ then _ else _) = _
    rw [if_neg (by rw [g1]; simp)]
    simp [g2]
  · simp [hi]

/-- C19: value numbering, usage numbering and constant folding, repeated by the
block walker until no pass reports progress, turn the initial MIR of a
straight-line program (assignments of literals, copies, calls on variables; every
read names a variable defined before, fewer than 2^32 statements) into the
resolved instructions: every result carries the next version of its name, and
every `Identifier` read, also inside the arguments of a call, whose chain of
copies ends at a literal definition targets the `(name, version)` of that
definition, the most recent one of its chain. Two sweeps are enough. -/
theorem copy_propagation (prog : List Stmt)
    (hwf : wellFormedProgram Resolution.initial prog = true) (hlen : prog.length < U32)
    (fuel : Nat) (hfuel : 2 ≤ fuel) :
    (block_walker fuel (WalkState.initial (lowerProgram prog))).map
        (fun s => s.instructions) =
      some (resolvedProgram Resolution.initial prog) := by
  obtain ⟨f, rfl⟩ : ∃ f, fuel = f + 2 := ⟨fuel - 2, by omega⟩
  obtain ⟨d2, l2, t2, hst, hout, _, hset⟩ :=
    runPass_program prog Resolution.initial [] (fun _ => 0) (fun _ => none)
      (tablesAgree_initial prog.length hlen) hwf
  exact block_walker_two (WalkState.initial (lowerProgram prog)) _
    (Resolution.initial.afterAll prog).counts d2 l2 t2 hst hout hset f

/-- Witness of C19, the two programs of the claim: for `x = 9; y = x; z = y;
message(z)` the argument of the call targets `(x, 1)`, and for `x = 9; x = 10;
y = x; message(y)` it targets `(x, 2)`. -/
theorem copy_propagation_witness :
    (block_walker 2 (WalkState.initial (lowerProgram
        [.assign "x" (.number 9), .copy "y" "x", .copy "z" "y",
          .call "" "message" ["z"]]))).map (fun s => s.instructions) =
      some [.number 9 ⟨"x", 1⟩, .identifier "x" 1 ⟨"y", 1⟩, .identifier "x" 1 ⟨"z", 1⟩,
        .functionCall "message" [.identifier "x" 1 ⟨"", 0⟩] [] ⟨"", 0⟩] ∧
    (block_walker 2 (WalkState.initial (lowerProgram
        [.assign "x" (.number 9), .assign "x" (.number 10), .copy "y" "x",
          .call "" "message" ["y"]]))).map (fun s => s.instructions) =
      some [.number 9 ⟨"x", 1⟩, .number 10 ⟨"x", 2⟩, .identifier "x" 2 ⟨"y", 1⟩,
        .functionCall "message" [.identifier "x" 2 ⟨"", 0⟩] [] ⟨"", 0⟩] :=
  ⟨copy_propagation
      [.assign "x" (.number 9), .copy "y" "x", .copy "z" "y", .call "" "message" ["z"]]
      (by decide) (by decide) 2 (by decide),
    copy_propagation
      [.assign "x" (.number 9), .assign "x" (.number 10), .copy "y" "x",
        .call "" "message" ["y"]]
      (by decide) (by decide) 2 (by decide)⟩

end Passes

/-! ## The order on variables -/

theorem strLt_asymm {a b : String} (h : strLt a b = true) : strLt b a = false := by
  by_contra hc
  have h2 : strLt b a = true := by simpa using hc
  have := strLt_trans h h2
  rw [strLt_irrefl] at this
  cases this

/-- The three assertions of `TEST(variable, less_than)`. -/
theorem variable_lt_tests :
    Variable.lt ⟨"name", 1⟩ ⟨"name", 2⟩ = true ∧
    Variable.lt ⟨"name", 2⟩ ⟨"name", 1⟩ = false ∧
    Variable.lt ⟨"a", 1⟩ ⟨"b", 1⟩ = true := by
  decide

theorem variable_lt_iff (a b : Variable) :
    Variable.lt a b = true ↔
      (strLt a.name b.name = true ∨ (a.name = b.name ∧ a.version < b.version)) := by
  unfold Variable.lt
  by_cases h1 : strLt a.name b.name = true
  · simp [h1]
  · have h1f : strLt a.name b.name = false := by simpa using h1
    by_cases h2 : strLt b.name a.name = true
    · have hne : a.name ≠ b.name := by
        intro he
        rw [he, strLt_irrefl] at h2
        cases h2
      simp [h1f, h2, hne]
    · have h2f : strLt b.name a.name = false := by simpa using h2
      have he : a.name = b.name := strLt_eq_of_not_lt h1f h2f
      rw [if_neg h1, if_neg h2, h1f]
      simp [he]

/-- C21: the order on `Variable` is the lexicographic strict total order:
`(n1, v1) < (n2, v2)` if and only if `n1 < n2`, or `n1 = n2` and `v1 < v2`; it
is irreflexive, asymmetric and transitive, and two variables neither of which is
less than the other are equal. -/
theorem variable_lt_strict_total_order :
    (∀ a b : Variable, Variable.lt a b = true ↔
      (strLt a.name b.name = true ∨ (a.name = b.name ∧ a.version < b.version))) ∧
    (∀ a : Variable, Variable.lt a a = false) ∧
    (∀ a b : Variable, Variable.lt a b = true → Variable.lt b a = false) ∧
    (∀ a b c : Variable, Variable.lt a b = true → Variable.lt b c = true →
      Variable.lt a c = true) ∧
    (∀ a b : Variable, Variable.lt a b = false → Variable.lt b a = false → a = b) := by
  refine ⟨variable_lt_iff, ?_, ?_, ?_, ?_⟩
  · intro a
    by_contra hc
    have h : Variable.lt a a = true := by simpa using hc
    rcases (variable_lt_iff a a).1 h with h1 | ⟨_, h2⟩
    · rw [strLt_irrefl] at h1; cases h1
    · exact lt_irrefl _ h2
  · intro a b hab
    by_contra hc
    have hba : Variable.lt b a = true := by simpa using hc
    rcases (variable_lt_iff a b).1 hab with h1 | ⟨he, hv⟩
    · rcases (variable_lt_iff b a).1 hba with h2 | ⟨he2, _⟩
      · rw [strLt_asymm h1] at h2; cases h2
      · rw [he2, strLt_irrefl] at h1; cases h1
    · rcases (variable_lt_iff b a).1 hba with h2 | ⟨_, hv2⟩
      · rw [he, strLt_irrefl] at h2; cases h2
      · exact lt_asymm hv hv2
  · intro a b c hab hbc
    rw [variable_lt_iff] at hab hbc ⊢
    rcases hab with h1 | ⟨he, hv⟩
    · rcases hbc with h2 | ⟨he2, _⟩
      · exact Or.inl (strLt_trans h1 h2)
      · exact Or.inl (he2 ▸ h1)
    · rcases hbc with h2 | ⟨he2, hv2⟩
      · exact Or.inl (he ▸ h2)
      · exact Or.inr ⟨he.trans he2, lt_trans hv hv2⟩
  · intro a b hab hba
    have hn1 : strLt a.name b.name = false := by
      by_contra hc
      have := (variable_lt_iff a b).2 (Or.inl (by simpa using hc))
      rw [hab] at this; cases this
    have hn2 : strLt b.name a.name = false := by
      by_contra hc
      have := (variable_lt_iff b a).2 (Or.inl (by simpa using hc))
      rw [hba] at this; cases this
    have he : a.name = b.name := strLt_eq_of_not_lt hn1 hn2
    have hv1 : ¬ a.version < b.version := by
      intro hv
      have := (variable_lt_iff a b).2 (Or.inr ⟨he, hv⟩)
      rw [hab] at this; cases this
    have hv2 : ¬ b.version < a.version := by
      intro hv
      have := (variable_lt_iff b a).2 (Or.inr ⟨he.symm, hv⟩)
      rw [hba] at this; cases this
    cases a; cases b
    simp only [Variable.mk.injEq]
    exact ⟨he, by simp only at hv1 hv2; omega⟩

/-! ## The frame of `fixup_phis` -/

theorem fixList_map_var (parents : List (List Object)) :
    ∀ (rest before : List Object),
      (fixList parents before rest).map Object.var = rest.map Object.var := by
  intro rest
  induction rest with
  | nil => intro before; rfl
  | cons o rest ih => intro before; simp [fixList, ih, fixOne_var]

theorem fixOne_of_not_phi (parents : List (List Object)) (before : List Object) (o : Object)
    (h : o.isPhi = false) : fixOne parents before o = o := by
  cases o <;> first | rfl | simp [Object.isPhi] at h

/-- C22: `fixup_phis` changes only phis, in place: the parents are not modified,
the instruction list keeps its length, at every position the result variable
after the call is the one before it, every instruction that is not a `Phi`
stands unchanged at its position, and a `Phi` is either left as it is or
replaced, at its position, by an `Identifier` that reads one of its operands
under its name and carries its variable. -/
theorem fixup_phis_frame (block : BasicBlock) :
    (fixup_phis block).2.parents = block.parents ∧
    (fixup_phis block).2.instructions.length = block.instructions.length ∧
    (fixup_phis block).2.instructions.map Object.var = block.instructions.map Object.var ∧
    (∀ (i : Nat) (o : Object), block.instructions[i]? = some o → o.isPhi = false →
      (fixup_phis block).2.instructions[i]? = some o) ∧
    (∀ (i : Nat) (p : Phi), block.instructions[i]? = some (.phi p) →
      (fixup_phis block).2.instructions[i]? = some (.phi p) ∨
      (fixup_phis block).2.instructions[i]? = some (.identifier p.var.name p.left p.var) ∨
      (fixup_phis block).2.instructions[i]? = some (.identifier p.var.name p.right p.var)) := by
  refine ⟨rfl, ?_, ?_, ?_, ?_⟩
  · rw [fixup_phis_instructions, fixList_length]
  · rw [fixup_phis_instructions, fixList_map_var]
  · intro i o hin hnp
    rw [fixup_phis_getElem?, hin]
    simp only [Option.map_some', fixOne_of_not_phi _ _ o hnp]
  · intro i p hin
    rw [fixup_phis_getElem?, hin]
    simp only [Option.map_some', Option.some.injEq]
    rcases fixOne_cases block.parents (block.instructions.take i) (.phi p) with h | ⟨q, b, hq, hf⟩
    · exact Or.inl h
    · cases hq
      rw [hf]
      cases b
      · exact Or.inr (Or.inr rfl)
      · exact Or.inr (Or.inl rfl)

/-! ## A second call of `fixup_phis` -/

theorem fixOne_idem (parents : List (List Object)) (before : List Object) (o : Object) :
    fixOne parents before (fixOne parents before o) = fixOne parents before o := by
  cases o with
  | phi p =>
    simp only [fixOne]
    split_ifs with h1 h2
    · rfl
    · rfl
    · simp only [fixOne, h1, h2]
      simp
  | _ => rfl

theorem fixList_idem (parents : List (List Object)) :
    ∀ (rest before before2 : List Object), before2.map Object.var = before.map Object.var →
      fixList parents before2 (fixList parents before rest) = fixList parents before rest := by
  intro rest
  induction rest with
  | nil => intro before before2 _; rfl
  | cons o rest ih =>
    intro before before2 h
    simp only [fixList]
    rw [fixOne_congr parents before2 before _ h, fixOne_idem,
      ih (before ++ [o]) (before2 ++ [fixOne parents before o])
        (by simp [h, fixOne_var])]

/-- C23: `fixup_phis` is idempotent while the parents stay unchanged: a second
call directly after a first returns false and leaves the block, instruction
list and parents, exactly as the first call left it. -/
theorem fixup_phis_idempotent (block : BasicBlock) :
    (fixup_phis (fixup_phis block).2).1 = false ∧
      (fixup_phis (fixup_phis block).2).2 = (fixup_phis block).2 ∧
      (fixup_phis (fixup_phis block).2).2.instructions = (fixup_phis block).2.instructions := by
  have hidem : fixList block.parents [] (fixList block.parents [] block.instructions) =
      fixList block.parents [] block.instructions :=
    fixList_idem block.parents block.instructions [] [] rfl
  have hpar : (fixup_phis block).2.parents = block.parents := rfl
  have hins : (fixup_phis (fixup_phis block).2).2.instructions =
      (fixup_phis block).2.instructions := by
    rw [fixup_phis_instructions, hpar, fixup_phis_instructions, hidem]
  refine ⟨?_, ?_, hins⟩
  · have hflag := fixupLoop_flag (fixup_phis block).2.parents (fixup_phis block).2.instructions
      [] [] false rfl
    by_contra hc
    have ht : (fixup_phis (fixup_phis block).2).1 = true := by simpa using hc
    have hne := (hflag.1 (by simpa [fixup_phis] using ht))
    rcases hne with h | h
    · cases h
    · apply h
      rw [hpar, fixup_phis_instructions, hidem]
  · have hp2 : (fixup_phis (fixup_phis block).2).2.parents = (fixup_phis block).2.parents := rfl
    cases hfb : (fixup_phis (fixup_phis block).2).2 with
    | mk i2 p2 =>
      cases hb : (fixup_phis block).2 with
      | mk i1 p1 =>
        rw [hfb, hb] at hins
        rw [hfb, hb] at hp2
        simp only at hins hp2
        rw [hins, hp2]


namespace GnuLike

theorem generalize_argument_examples :
    generalize_argument "-Dfoo" = some ⟨"foo", .DEFINE, none⟩ ∧
    generalize_argument "-Lfoo" = some ⟨"foo", .LINK_SEARCH, none⟩ ∧
    generalize_argument "-lfoo" = some ⟨"foo", .LINK, none⟩ ∧
    generalize_argument "-I/usr" = some ⟨"/usr", .INCLUDE, some .BASE⟩ ∧
    generalize_argument "-isystem/usr" = some ⟨"system/usr", .INCLUDE, some .SYSTEM⟩ ∧
    generalize_argument "libfoo.a" = some ⟨"libfoo.a", .LINK, none⟩ ∧
    generalize_argument "libfoo.so" = some ⟨"libfoo.so", .RAW, none⟩ ∧
    generalize_argument "-O2" = some ⟨"-O2", .RAW, none⟩ ∧
    generalize_argument "" = none ∧
    generalize_argument "x" = none := by
  decide

end GnuLike

namespace GnuLike

/-! ## `substr` where `generalize_argument` calls it -/

theorem substr_zero (s : String) (n : Nat) : substr s 0 n = some ⟨s.data.take n⟩ := by
  simp [substr]

theorem substr_two (s : String) (h : 2 ≤ s.data.length) :
    substr s 2 s.data.length = some ⟨s.data.drop 2⟩ := by
  unfold substr
  rw [if_neg (by omega), List.take_of_length_le (by simp)]

theorem subSize_two (n : Nat) (h2 : 2 ≤ n) (hn : n < SIZE) : subSize n 2 = n - 2 := by
  simp only [subSize, SIZE] at *
  omega

theorem subSize_two_short (n : Nat) (h : n < 2) : n < subSize n 2 := by
  simp only [subSize, SIZE]
  omega

theorem substr_tail (s : String) (h2 : 2 ≤ s.data.length) (hn : s.data.length < SIZE) :
    substr s (subSize s.data.length 2) s.data.length =
      some ⟨s.data.drop (s.data.length - 2)⟩ := by
  unfold substr
  rw [subSize_two _ h2 hn, if_neg (by omega), List.take_of_length_le (by simp)]

theorem substr_tail_short (s : String) (h : s.data.length < 2) :
    substr s (subSize s.data.length 2) s.data.length = none := by
  unfold substr
  rw [if_pos (subSize_two_short _ h)]

theorem ne_of_length_ne {s t : String} (h : s.data.length ≠ t.data.length) : s ≠ t := by
  intro he
  exact h (by rw [he])

theorem tail_ne_so (s : String) :
    (⟨s.data.drop (s.data.length - 2)⟩ : String) ≠ ".so" := by
  apply ne_of_length_ne
  have h3 : (".so" : String).data.length = 3 := by decide
  rw [h3]
  simp only [List.length_drop]
  omega

/-- The result of `generalize_argument` on an argument of at least two
characters, branch by branch. -/
theorem generalize_argument_of_two (arg : String) (h2 : 2 ≤ arg.data.length)
    (hn : arg.data.length < SIZE) :
    generalize_argument arg = some (
      if (⟨arg.data.take 2⟩ : String) = "-L" then ⟨⟨arg.data.drop 2⟩, .LINK_SEARCH, none⟩
      else if (⟨arg.data.take 2⟩ : String) = "-D" then ⟨⟨arg.data.drop 2⟩, .DEFINE, none⟩
      else if (⟨arg.data.take 2⟩ : String) = "-l" then ⟨⟨arg.data.drop 2⟩, .LINK, none⟩
      else if (⟨arg.data.take 2⟩ : String) = "-I" then
        ⟨⟨arg.data.drop 2⟩, .INCLUDE, some .BASE⟩
      else if (⟨arg.data.take 8⟩ : String) = "-isystem" then
        ⟨⟨arg.data.drop 2⟩, .INCLUDE, some .SYSTEM⟩
      else if (⟨arg.data.drop (arg.data.length - 2)⟩ : String) = ".a" then
        ⟨arg, .LINK, none⟩
      else ⟨arg, .RAW, none⟩) := by
  unfold generalize_argument
  simp only [substr_zero, substr_two arg h2, substr_tail arg h2 hn, Option.some_bind,
    Option.map_some', if_neg (tail_ne_so arg)]
  split_ifs <;> rfl

/-- An argument of fewer than two characters: the call `arg.substr(arg.length()
- 2, arg.length())` of line 30 throws. -/
theorem generalize_argument_short (arg : String) (h : arg.data.length < 2) :
    generalize_argument arg = none := by
  have hp : ∀ t : String, t.data.length = 2 → (⟨arg.data.take 2⟩ : String) ≠ t := by
    intro t ht
    apply ne_of_length_ne
    rw [ht]
    simp only [List.length_take]
    omega
  have hq : (⟨arg.data.take 8⟩ : String) ≠ "-isystem" := by
    apply ne_of_length_ne
    have h8 : ("-isystem" : String).data.length = 8 := by decide
    rw [h8]
    simp only [List.length_take]
    omega
  unfold generalize_argument
  simp only [substr_zero, Option.some_bind, if_neg (hp "-L" (by decide)),
    if_neg (hp "-D" (by decide)), if_neg (hp "-l" (by decide)), if_neg (hp "-I" (by decide)),
    if_neg hq, substr_tail_short arg h, Option.none_bind]

theorem concat_pair (a b : String) : concat [a, b] = a ++ b := by
  simp [concat]

theorem take_append_drop_string (s : String) (n : Nat) (p : String)
    (h : (⟨s.data.take n⟩ : String) = p) : p ++ (⟨s.data.drop n⟩ : String) = s := by
  rw [← h]
  apply String.ext
  simp

/-- The round trip where it holds: for an argument of at least two characters
that is generalized to an `Argument` other than an `INCLUDE` and other than the
`LINK` of a whole file name, the strings `specialize_argument` returns
concatenate to the argument. -/
theorem roundTrip_of_two (fs : Filesystem) (src_dir build_dir : String) (arg : String)
    (h2 : 2 ≤ arg.data.length) (hn : arg.data.length < SIZE) (a : Argument)
    (ha : generalize_argument arg = some a) (hinc : a.type ≠ .INCLUDE)
    (hfile : ¬ (a.type = .LINK ∧ a.value = arg)) :
    ∃ l, roundTrip fs src_dir build_dir arg = some l ∧ concat l = arg := by
  unfold roundTrip
  rw [ha]
  rw [generalize_argument_of_two arg h2 hn] at ha
  simp only [Option.some.injEq] at ha
  simp only [Option.some_bind]
  split_ifs at ha with h1 h3 h4 h5 h6 h7 <;> subst ha
  · exact ⟨_, rfl, by rw [concat_pair]; exact take_append_drop_string arg 2 _ h1⟩
  · exact ⟨_, rfl, by rw [concat_pair]; exact take_append_drop_string arg 2 _ h3⟩
  · exact ⟨_, rfl, by rw [concat_pair]; exact take_append_drop_string arg 2 _ h4⟩
  · exact absurd rfl hinc
  · exact absurd rfl hinc
  · exact absurd ⟨rfl, rfl⟩ hfile
  · exact ⟨_, rfl, by simp [concat]⟩

end GnuLike

namespace GnuLike

theorem generalize_argument_isystem (arg : String)
    (h : (⟨arg.data.take 8⟩ : String) = "-isystem") :
    generalize_argument arg = some ⟨⟨arg.data.drop 2⟩, .INCLUDE, some .SYSTEM⟩ := by
  have hd : arg.data.take 8 = ("-isystem" : String).data := congrArg String.data h
  have hlen : 8 ≤ arg.data.length := by
    have := congrArg List.length hd
    have h8 : ("-isystem" : String).data.length = 8 := by decide
    rw [h8, List.length_take] at this
    omega
  have ht : arg.data.take 2 = ("-i" : String).data := by
    have := congrArg (List.take 2) hd
    rw [List.take_take] at this
    rw [show min 2 8 = 2 from rfl] at this
    rw [this]
    decide
  have hp : ∀ t : String, t ≠ "-i" → (⟨arg.data.take 2⟩ : String) ≠ t := by
    intro t ht2 he
    apply ht2
    rw [← he, ht]
  unfold generalize_argument
  simp only [substr_zero, substr_two arg (by omega), Option.some_bind,
    if_neg (hp "-L" (by decide)), if_neg (hp "-D" (by decide)), if_neg (hp "-l" (by decide)),
    if_neg (hp "-I" (by decide)), h, if_true, Option.map_some']

theorem generalize_argument_so (arg : String) (hn : arg.data.length < SIZE) (pre : List Char)
    (hso : arg.data = pre ++ (".so" : String).data)
    (hL : (⟨arg.data.take 2⟩ : String) ≠ "-L") (hD : (⟨arg.data.take 2⟩ : String) ≠ "-D")
    (hl : (⟨arg.data.take 2⟩ : String) ≠ "-l") (hI : (⟨arg.data.take 2⟩ : String) ≠ "-I")
    (hs : (⟨arg.data.take 8⟩ : String) ≠ "-isystem") :
    generalize_argument arg = some ⟨arg, .RAW, none⟩ := by
  have h3 : (".so" : String).data.length = 3 := by decide
  have hlen : arg.data.length = pre.length + 3 := by rw [hso, List.length_append, h3]
  have htail : (⟨arg.data.drop (arg.data.length - 2)⟩ : String) ≠ ".a" := by
    have hdrop : arg.data.drop (arg.data.length - 2) = ['s', 'o'] := by
      rw [hlen, show pre.length + 3 - 2 = pre.length + 1 from by omega, hso,
        List.drop_append]
      decide
    rw [hdrop]
    decide
  rw [generalize_argument_of_two arg (by omega) hn, if_neg hL, if_neg hD, if_neg hl, if_neg hI,
    if_neg hs, if_neg htail]

/-- C24: the round trip of an argument through `generalize_argument` and
`specialize_argument` fails for a static-library path: `"libfoo.a"` is
generalized to the `LINK` argument of value `"libfoo.a"`, which is specialized,
like the `LINK` argument of `"-lfoo"`, to `["-l", "libfoo.a"]`, and these
strings concatenate to `"-llibfoo.a"`, not to `"libfoo.a"`. The two other
examples hold: `"-Dfoo"` gives `["-D", "foo"]` and the unrecognised `"-O2"` the
one-element list holding it. -/
theorem roundTrip_static_library :
    generalize_argument "libfoo.a" = some ⟨"libfoo.a", .LINK, none⟩ ∧
    (∀ (fs : Filesystem) (src_dir build_dir : String),
      roundTrip fs src_dir build_dir "libfoo.a" = some ["-l", "libfoo.a"] ∧
      roundTrip fs src_dir build_dir "-Dfoo" = some ["-D", "foo"] ∧
      roundTrip fs src_dir build_dir "-O2" = some ["-O2"]) ∧
    concat ["-l", "libfoo.a"] = "-llibfoo.a" ∧
    concat ["-l", "libfoo.a"] ≠ "libfoo.a" ∧
    concat ["-D", "foo"] = "-Dfoo" ∧
    concat ["-O2"] = "-O2" := by
  refine ⟨by decide, ?_, by decide, by decide, by decide, by decide⟩
  intro fs src_dir build_dir
  have h1 : generalize_argument "libfoo.a" = some ⟨"libfoo.a", .LINK, none⟩ := by decide
  have h2 : generalize_argument "-Dfoo" = some ⟨"foo", .DEFINE, none⟩ := by decide
  have h3 : generalize_argument "-O2" = some ⟨"-O2", .RAW, none⟩ := by decide
  simp only [roundTrip, h1, h2, h3, Option.some_bind, specialize_argument, and_self]

/-- C25: `generalize_argument` is not total: on the empty string and on every
string of one character the call `arg.substr(arg.length() - 2, arg.length())`
of line 30 is reached with a position that has wrapped around and throws
`std::out_of_range`. On a string of at least two characters it returns an
`Argument`, and a string that matches none of the tests of lines 18-30 is
returned as the `RAW` argument of the string itself. -/
theorem generalize_argument_throws_on_short :
    generalize_argument "" = none ∧
    generalize_argument "x" = none ∧
    generalize_argument "-" = none ∧
    (∀ arg : String, arg.data.length < 2 → generalize_argument arg = none) ∧
    (∀ arg : String, 2 ≤ arg.data.length → arg.data.length < SIZE →
      (generalize_argument arg).isSome = true) ∧
    (∀ arg : String, 2 ≤ arg.data.length → arg.data.length < SIZE →
      (⟨arg.data.take 2⟩ : String) ≠ "-L" → (⟨arg.data.take 2⟩ : String) ≠ "-D" →
      (⟨arg.data.take 2⟩ : String) ≠ "-l" → (⟨arg.data.take 2⟩ : String) ≠ "-I" →
      (⟨arg.data.take 8⟩ : String) ≠ "-isystem" →
      (⟨arg.data.drop (arg.data.length - 2)⟩ : String) ≠ ".a" →
      generalize_argument arg = some ⟨arg, .RAW, none⟩) := by
  refine ⟨by decide, by decide, by decide, generalize_argument_short, ?_, ?_⟩
  · intro arg h2 hn
    rw [generalize_argument_of_two arg h2 hn]
    rfl
  · intro arg h2 hn hL hD hl hI hs ha
    rw [generalize_argument_of_two arg h2 hn, if_neg hL, if_neg hD, if_neg hl, if_neg hI,
      if_neg hs, if_neg ha]

/-- C26: for an argument that starts with `"-isystem"`, `generalize_argument`
returns an `INCLUDE` argument of include type `SYSTEM` whose value is the
argument without its first two characters only (`arg.substr(2, arg.size())`,
line 28), so that the value starts with `"system"`: `"-isystem/usr/include"`
gives the value `"system/usr/include"`, whereas `"-I/usr/include"` gives
`"/usr/include"`. -/
theorem generalize_argument_isystem_keeps_system :
    generalize_argument "-isystem/usr/include" =
      some ⟨"system/usr/include", .INCLUDE, some .SYSTEM⟩ ∧
    generalize_argument "-I/usr/include" = some ⟨"/usr/include", .INCLUDE, some .BASE⟩ ∧
    (∀ arg : String, (⟨arg.data.take 8⟩ : String) = "-isystem" →
      generalize_argument arg = some ⟨⟨arg.data.drop 2⟩, .INCLUDE, some .SYSTEM⟩ ∧
        (⟨arg.data.drop 2⟩ : String) = "system" ++ (⟨arg.data.drop 8⟩ : String)) := by
  refine ⟨by decide, by decide, ?_⟩
  intro arg h
  refine ⟨generalize_argument_isystem arg h, ?_⟩
  have hd : arg.data.take 8 = ("-isystem" : String).data := congrArg String.data h
  apply String.ext
  rw [String.data_append]
  show arg.data.drop 2 = ("system" : String).data ++ arg.data.drop 8
  have h6 : ("system" : String).data = ("-isystem" : String).data.drop 2 := by decide
  rw [h6, ← hd]
  conv_lhs => rw [← List.take_append_drop 8 arg.data]
  rw [List.drop_append_of_le_length]
  have := congrArg List.length hd
  have h8 : ("-isystem" : String).data.length = 8 := by decide
  rw [h8] at this
  omega

/-- C27: for an argument that ends in `".so"` and starts with none of the option
prefixes, `generalize_argument` returns a `RAW` argument, not a `LINK` one: the
test of line 32 compares the last two characters of the argument with the three
characters `".so"` and never holds. `"libfoo.so"` is returned as `RAW`, whereas
`"libfoo.a"` is returned as `LINK`. -/
theorem generalize_argument_so_is_raw :
    generalize_argument "libfoo.so" = some ⟨"libfoo.so", .RAW, none⟩ ∧
    generalize_argument "libfoo.a" = some ⟨"libfoo.a", .LINK, none⟩ ∧
    (∀ (arg : String) (pre : List Char), arg.data.length < SIZE →
      arg.data = pre ++ (".so" : String).data →
      (⟨arg.data.take 2⟩ : String) ≠ "-L" → (⟨arg.data.take 2⟩ : String) ≠ "-D" →
      (⟨arg.data.take 2⟩ : String) ≠ "-l" → (⟨arg.data.take 2⟩ : String) ≠ "-I" →
      (⟨arg.data.take 8⟩ : String) ≠ "-isystem" →
      generalize_argument arg = some ⟨arg, .RAW, none⟩) := by
  refine ⟨by decide, by decide, ?_⟩
  intro arg pre hn hso hL hD hl hI hs
  exact generalize_argument_so arg hn pre hso hL hD hl hI hs

end GnuLike

end MIR
